import Mathlib

/-!
MeshLabeler: labeling engine and command history.

A shallow embedding of the labeling core of `meshlabeler.cpp` / `meshlabeler.h`.

Modelling conventions.

* The per-cell scalar array (`GetCellData()->GetScalars()`) is a `List Int`:
  the engine only ever reads it through `static_cast<int>(GetTuple1(i))` and
  writes `int` values with `SetTuple1`. The array that `initializeCellData`
  creates is a `vtkFloatArray`; it holds every `int` of magnitude up to `2^24`
  exactly, and `SetTuple1` is the write for such values. `SetTuple1Float` is
  the write for an arbitrary `int`, which stores the nearest `float`.
* Cell ids and labels are C++ `int`s and are modelled as `Int`; the explicit
  range guards of the source are kept.
* `std::stack` is a `List` whose head is the top of the stack.
* Coordinates and the brush radius are `double`s in the source and rationals
  here (every finite `double` is a rational). The in-range test of the region
  selector computes as the source does: every subtraction, product and sum is
  rounded to the nearest `double` (`roundToDouble`). The steps of the brush
  radius are computed exactly.
* A command holds a pointer to the same `vtkPolyData` object as the engine; in
  the model `execute` / `undo` are functions on the scalar array and the
  engine applies them to its own array.
-/

namespace MeshLabeling

/-! ## Floating-point rounding -/

/-- Number of binary digits of `n`; the first argument bounds the number of halvings. -/
def bitLength : Nat → Nat → Nat
  | 0, _ => 0
  | fuel + 1, n => if n = 0 then 0 else bitLength fuel (n / 2) + 1

/-- Position of the leading binary digit of `n`: `2 ^ floorLog2 n ≤ n < 2 ^ (floorLog2 n + 1)`
for `n > 0`. -/
def floorLog2 (n : Nat) : Int := (bitLength n n : Int) - 1

/-- Power of two with an integer exponent. -/
def pow2 (k : Int) : ℚ :=
  if 0 ≤ k then ((2 ^ k.toNat : Nat) : ℚ) else 1 / ((2 ^ (-k).toNat : Nat) : ℚ)

/-- Nearest integer, a tie going to the even neighbour. -/
def roundHalfEven (x : ℚ) : Int :=
  if x - Rat.floor x < 1 / 2 then Rat.floor x
  else if 1 / 2 < x - Rat.floor x then Rat.floor x + 1
  else if Rat.floor x % 2 = 0 then Rat.floor x else Rat.floor x + 1

/-- Binary exponent of a non-zero rational: the `e` with `2 ^ e ≤ |x| < 2 ^ (e + 1)`. -/
def binaryExponent (x : ℚ) : Int :=
  if pow2 (floorLog2 x.num.natAbs - floorLog2 x.den) ≤ |x| then
    floorLog2 x.num.natAbs - floorLog2 x.den
  else floorLog2 x.num.natAbs - floorLog2 x.den - 1

/-- Rounding of a real result to the C++ `double` (IEEE 754 binary64, round to nearest,
ties to even): 53 significant binary digits, spacing `2 ^ (-1074)` in the subnormal range.
A result that rounds to `2 ^ 1024` or more overflows; the infinities are represented by
`pow2 1024` and `-pow2 1024`, which compare, square and add to non-negative values as the
infinities do (all that the in-range test does with them). -/
def roundToDouble (x : ℚ) : ℚ :=
  if x = 0 then 0
  else if pow2 1024
      ≤ (roundHalfEven (|x| / pow2 (max (binaryExponent x) (-1022) - 52)) : ℚ)
        * pow2 (max (binaryExponent x) (-1022) - 52) then
    if x < 0 then -pow2 1024 else pow2 1024
  else if x < 0 then
    -((roundHalfEven (|x| / pow2 (max (binaryExponent x) (-1022) - 52)) : ℚ)
        * pow2 (max (binaryExponent x) (-1022) - 52))
  else
    (roundHalfEven (|x| / pow2 (max (binaryExponent x) (-1022) - 52)) : ℚ)
      * pow2 (max (binaryExponent x) (-1022) - 52)

/-- The `double` difference `a - b` (every operation is rounded on its own, no fused
multiply-add). -/
def doubleSub (a b : ℚ) : ℚ := roundToDouble (a - b)

/-- The `double` product `a * b`. -/
def doubleMul (a b : ℚ) : ℚ := roundToDouble (a * b)

/-- The `double` sum `a + b`. -/
def doubleAdd (a b : ℚ) : ℚ := roundToDouble (a + b)

/-- What `static_cast<int>` reads back from a `float` that was assigned the `int` value
`v` (conversion of `int` to IEEE 754 binary32, round to nearest, ties to even): `v` itself
up to magnitude `2 ^ 24`, beyond that `v` rounded to 24 significant binary digits. -/
def float32OfInt (v : Int) : Int :=
  if v.natAbs ≤ 2 ^ 24 then v
  else if v < 0 then
    -(roundHalfEven ((v.natAbs : ℚ) / pow2 (floorLog2 v.natAbs - 23))
        * 2 ^ (floorLog2 v.natAbs - 23).toNat)
  else
    roundHalfEven ((v.natAbs : ℚ) / pow2 (floorLog2 v.natAbs - 23))
      * 2 ^ (floorLog2 v.natAbs - 23).toNat

/-! ## Scalar array access -/

/-- Read of `GetScalars()->GetTuple1(cellId)` cast to `int`. The source reads
without a bounds check; outside the array the model returns `0`. -/
def GetTuple1 (scalars : List Int) (cellId : Int) : Int :=
  if 0 ≤ cellId then scalars.getD cellId.toNat 0 else 0

/-- Write of `GetScalars()->SetTuple1(cellId, value)` for a value that the array holds
exactly (in a `vtkFloatArray` every `int` of magnitude up to `2 ^ 24`). The source writes
without a bounds check; outside the array the model leaves the array unchanged. -/
def SetTuple1 (scalars : List Int) (cellId : Int) (value : Int) : List Int :=
  if 0 ≤ cellId then scalars.set cellId.toNat value else scalars

/-- Write of `GetScalars()->SetTuple1(cellId, value)` into a `vtkFloatArray` for an
arbitrary `int`: the entry becomes the `float` nearest to the value, which a later
`static_cast<int>(GetTuple1(cellId))` reads as `float32OfInt value`. -/
def SetTuple1Float (scalars : List Int) (cellId : Int) (value : Int) : List Int :=
  SetTuple1 scalars cellId (float32OfInt value)

/-- A cell id that addresses an entry of the scalar array. -/
def ValidCellId (scalars : List Int) (cellId : Int) : Prop :=
  0 ≤ cellId ∧ cellId < scalars.length

instance (scalars : List Int) (cellId : Int) : Decidable (ValidCellId scalars cellId) := by
  unfold ValidCellId
  infer_instance

/-! ## PaintCommand -/

/-- Fields of `PaintCommand` (the `m_polyData` pointer is the engine's array). -/
structure PaintCommand where
  m_cellIds : List Int
  m_oldLabels : List Int
  m_newLabel : Int
  deriving DecidableEq, Repr

/-- Constructor `PaintCommand::PaintCommand`: stores the ids and the new label and
captures, for every listed id in order, the label currently in the array. -/
def PaintCommand.create (scalars : List Int) (cellIds : List Int) (newLabel : Int) :
    PaintCommand :=
  { m_cellIds := cellIds
    m_oldLabels := cellIds.map (fun cellId => GetTuple1 scalars cellId)
    m_newLabel := newLabel }

/-- Method `PaintCommand::execute`: writes `m_newLabel` to every listed cell, in order
(a label that the array holds exactly; `executeOnFloatArray` covers every `int`). -/
def PaintCommand.execute (c : PaintCommand) (scalars : List Int) : List Int :=
  c.m_cellIds.foldl (fun acc cellId => SetTuple1 acc cellId c.m_newLabel) scalars

/-- Method `PaintCommand::execute` on a `vtkFloatArray` for an arbitrary `int` label: every
write stores the `float` nearest to `m_newLabel`. It is `execute` for a label of magnitude
up to `2 ^ 24` (`executeOnFloatArray_eq`). -/
def PaintCommand.executeOnFloatArray (c : PaintCommand) (scalars : List Int) : List Int :=
  c.m_cellIds.foldl (fun acc cellId => SetTuple1Float acc cellId c.m_newLabel) scalars

/-- Method `PaintCommand::undo`: writes `m_oldLabels[i]` to cell `m_cellIds[i]`, in order. -/
def PaintCommand.undo (c : PaintCommand) (scalars : List Int) : List Int :=
  (c.m_cellIds.zip c.m_oldLabels).foldl (fun acc p => SetTuple1 acc p.1 p.2) scalars

/-! ## Mesh and engine state -/

/-- A 3D point. -/
structure Point where
  x : ℚ
  y : ℚ
  z : ℚ
  deriving DecidableEq

/-- The parts of `vtkPolyData` the engine uses: point coordinates, the point ids of
every cell, and the per-cell scalar array. -/
structure PolyData where
  points : List Point
  cells : List (List Nat)
  scalars : List Int
  deriving DecidableEq

/-- Enumeration `EditMode`. -/
inductive EditMode where
  | Brush
  | Single
  deriving DecidableEq, Repr

/-- Member variables of `MeshLabeler` used by the labeling core, together with
`scheduledRenders`, the number of `QTimer::singleShot` render callbacks that are
outstanding in the event loop, and `windowRenders`, the number of draw calls issued to the
render window. `m_renderWindow` tells whether the window pointer is set. -/
structure MeshLabeler where
  m_polyData : Option PolyData
  m_currentLabel : Int
  m_editMode : EditMode
  m_brushRadius : ℚ
  m_isMousePressed : Bool
  m_renderPending : Bool
  m_renderWindow : Bool
  scheduledRenders : Nat
  windowRenders : Nat
  m_undoStack : List PaintCommand
  m_redoStack : List PaintCommand
  deriving DecidableEq

def MAX_LABELS : Int := 20
def DEFAULT_BRUSH_RADIUS : ℚ := 5 / 2
def BRUSH_RADIUS_STEP : ℚ := 3 / 20
def MIN_BRUSH_RADIUS : ℚ := 3 / 20
def MAX_HISTORY_SIZE : Nat := 100

/-- Constructor `MeshLabeler::MeshLabeler`: no mesh, label 0, brush mode, default
radius, nothing pending, empty history. -/
def MeshLabeler.init : MeshLabeler :=
  { m_polyData := none
    m_currentLabel := 0
    m_editMode := EditMode.Brush
    m_brushRadius := DEFAULT_BRUSH_RADIUS
    m_isMousePressed := false
    m_renderPending := false
    m_renderWindow := false
    scheduledRenders := 0
    windowRenders := 0
    m_undoStack := []
    m_redoStack := [] }

/-- The scalar array of the loaded mesh (empty when no mesh is loaded). -/
def MeshLabeler.labels (s : MeshLabeler) : List Int :=
  match s.m_polyData with
  | some pd => pd.scalars
  | none => []

/-- Apply a command body to the scalar array of the loaded mesh. -/
def MeshLabeler.mapScalars (s : MeshLabeler) (f : List Int → List Int) : MeshLabeler :=
  match s.m_polyData with
  | some pd => { s with m_polyData := some { pd with scalars := f pd.scalars } }
  | none => s

/-- Method `MeshLabeler::requestRender`: when no render is pending, mark one pending
and schedule a single deferred render; otherwise do nothing. -/
def MeshLabeler.requestRender (s : MeshLabeler) : MeshLabeler :=
  if !s.m_renderPending then
    { s with m_renderPending := true, scheduledRenders := s.scheduledRenders + 1 }
  else s

/-! ## Command history -/

/-- First loop of the eviction in `addCommand`:
`while (m_undoStack.size() > 1) { tempStack.push(m_undoStack.top()); m_undoStack.pop(); }`.
Returns the remaining undo stack and the temporary stack. -/
def drainToTemp : List PaintCommand → List PaintCommand → List PaintCommand × List PaintCommand
  | top :: next :: rest, tempStack => drainToTemp (next :: rest) (top :: tempStack)
  | undoStack, tempStack => (undoStack, tempStack)

/-- Second loop of the eviction in `addCommand`:
`while (!tempStack.empty()) { m_undoStack.push(tempStack.top()); tempStack.pop(); }`. -/
def refillFromTemp : List PaintCommand → List PaintCommand → List PaintCommand
  | [], undoStack => undoStack
  | top :: tempStack, undoStack => refillFromTemp tempStack (top :: undoStack)

/-- Body of `if (m_undoStack.size() > MAX_HISTORY_SIZE)` in `addCommand`: move all but one
entry to a temporary stack, pop the remaining one, move everything back. -/
def evictOldest (undoStack : List PaintCommand) : List PaintCommand :=
  let drained := drainToTemp undoStack []
  refillFromTemp drained.2 drained.1.tail

/-- Method `MeshLabeler::addCommand`: execute, push on the undo stack, empty the redo
stack, then limit the history size. -/
def MeshLabeler.addCommand (s : MeshLabeler) (command : PaintCommand) : MeshLabeler :=
  let s1 := s.mapScalars command.execute
  let pushed := command :: s1.m_undoStack
  let limited := if pushed.length > MAX_HISTORY_SIZE then evictOldest pushed else pushed
  { s1 with m_undoStack := limited, m_redoStack := [] }

/-- Method `MeshLabeler::undo`. -/
def MeshLabeler.undo (s : MeshLabeler) : MeshLabeler :=
  match s.m_undoStack with
  | [] => s
  | command :: rest =>
    let s1 := { s with m_undoStack := rest }
    let s2 := s1.mapScalars command.undo
    let s3 := { s2 with m_redoStack := command :: s2.m_redoStack }
    s3.requestRender

/-- Method `MeshLabeler::redo`. -/
def MeshLabeler.redo (s : MeshLabeler) : MeshLabeler :=
  match s.m_redoStack with
  | [] => s
  | command :: rest =>
    let s1 := { s with m_redoStack := rest }
    let s2 := s1.mapScalars command.execute
    let s3 := { s2 with m_undoStack := command :: s2.m_undoStack }
    s3.requestRender

/-- Method `MeshLabeler::clearHistory`. -/
def MeshLabeler.clearHistory (s : MeshLabeler) : MeshLabeler :=
  { s with m_undoStack := [], m_redoStack := [] }

/-- Inline method `canUndo`. -/
def MeshLabeler.canUndo (s : MeshLabeler) : Bool := !s.m_undoStack.isEmpty

/-- Inline method `canRedo`. -/
def MeshLabeler.canRedo (s : MeshLabeler) : Bool := !s.m_redoStack.isEmpty

/-! ## Scripts of paint commands and reachable histories -/

/-- Construct a `PaintCommand` for the request `(cellIds, newLabel)` on the scalar array as
it is now and push it through `addCommand`. -/
def MeshLabeler.pushPaint (s : MeshLabeler) (request : List Int × Int) : MeshLabeler :=
  s.addCommand (PaintCommand.create s.labels request.1 request.2)

/-- Push a sequence of paint requests, one after the other. -/
def MeshLabeler.pushAll (s : MeshLabeler) (requests : List (List Int × Int)) : MeshLabeler :=
  requests.foldl MeshLabeler.pushPaint s

/-- Undo the given commands on an array, first list entry first. -/
def undoAll (scalars : List Int) (commands : List PaintCommand) : List Int :=
  commands.foldl (fun acc c => c.undo acc) scalars

/-- States reachable from an empty history by `addCommand`, `undo`, `redo` and
`clearHistory`. -/
inductive HistoryReachable : MeshLabeler → Prop where
  | start (s : MeshLabeler) (hu : s.m_undoStack = []) (hr : s.m_redoStack = []) :
      HistoryReachable s
  | addCommand (s : MeshLabeler) (c : PaintCommand) (h : HistoryReachable s) :
      HistoryReachable (s.addCommand c)
  | undo (s : MeshLabeler) (h : HistoryReachable s) : HistoryReachable s.undo
  | redo (s : MeshLabeler) (h : HistoryReachable s) : HistoryReachable s.redo
  | clearHistory (s : MeshLabeler) (h : HistoryReachable s) : HistoryReachable s.clearHistory

/-- The commands of a stack, top first, each re-create the array they are undone from:
executing the top command after undoing it gives back the array, and so on below. -/
def Linked : List Int → List PaintCommand → Prop
  | _, [] => True
  | scalars, c :: rest => c.execute (c.undo scalars) = scalars ∧ Linked (c.undo scalars) rest

/-- Two engine states with the same scalar array and the same two stacks. -/
def SameHistory (s t : MeshLabeler) : Prop :=
  s.labels = t.labels ∧ s.m_undoStack = t.m_undoStack ∧ s.m_redoStack = t.m_redoStack

/-- Push the given commands through `addCommand`, one after the other. -/
def MeshLabeler.addCommands (s : MeshLabeler) (commands : List PaintCommand) : MeshLabeler :=
  commands.foldl MeshLabeler.addCommand s

/-- The engine after construction with a mesh in place (history empty, nothing pending). -/
def MeshLabeler.withMesh (pd : PolyData) : MeshLabeler :=
  { MeshLabeler.init with m_polyData := some pd }

/-! ## Region selector -/

/-- Number of cells of the mesh, as the `int` the guards compare against. -/
def PolyData.GetNumberOfCells (pd : PolyData) : Int := pd.cells.length

/-- Point ids of a cell: `GetCell(cellId)->GetPointId(i)` for `i = 0, 1, ...`. -/
def PolyData.cellPointIds (pd : PolyData) (cellId : Int) : List Nat :=
  if 0 ≤ cellId then pd.cells.getD cellId.toNat [] else []

/-- Coordinates of a point id. -/
def PolyData.GetPoint (pd : PolyData) (pointId : Nat) : Point :=
  pd.points.getD pointId ⟨0, 0, 0⟩

/-- Vertices of a cell: `GetCell(cellId)->GetPoints()`. -/
def PolyData.cellPoints (pd : PolyData) (cellId : Int) : List Point :=
  (pd.cellPointIds cellId).map pd.GetPoint

/-- Modelled from the spec: the squared distance of the geometric test
(`vtkMath::Distance2BetweenPoints`, library code outside the repository), computed
in `double` arithmetic as the expression
`(p[0]-q[0])*(p[0]-q[0]) + (p[1]-q[1])*(p[1]-q[1]) + (p[2]-q[2])*(p[2]-q[2])`. -/
def Distance2BetweenPoints (p q : Point) : ℚ :=
  doubleAdd
    (doubleAdd (doubleMul (doubleSub p.x q.x) (doubleSub p.x q.x))
      (doubleMul (doubleSub p.y q.y) (doubleSub p.y q.y)))
    (doubleMul (doubleSub p.z q.z) (doubleSub p.z q.z))

/-- The squared Euclidean distance of two points, in exact arithmetic. -/
def exactDistance2 (p q : Point) : ℚ :=
  (p.x - q.x) * (p.x - q.x) + (p.y - q.y) * (p.y - q.y) + (p.z - q.z) * (p.z - q.z)

/-- Modelled from the spec: the adjacency index (`vtkPolyData::GetPointCells` after
`BuildLinks`, library code outside the repository): the ids of the cells incident to a
vertex, in increasing order. -/
def PolyData.GetPointCells (pd : PolyData) (pointId : Nat) : List Int :=
  ((List.range pd.cells.length).filter
    (fun c => decide (pointId ∈ pd.cells.getD c []))).map Int.ofNat

/-- Method `MeshLabeler::isCellInSphere`: false without a mesh or for a cell id out of
range; otherwise whether for some vertex of the cell the `double` squared distance to the
position is less than `radiusSquared`, the `double` product
`m_brushRadius * m_brushRadius`. -/
def MeshLabeler.isCellInSphere (s : MeshLabeler) (position : Point) (cellId : Int) : Bool :=
  match s.m_polyData with
  | none => false
  | some pd =>
    if cellId < 0 ∨ cellId ≥ pd.GetNumberOfCells then false
    else (pd.cellPoints cellId).any
      (fun pt => decide
        (Distance2BetweenPoints position pt < doubleMul s.m_brushRadius s.m_brushRadius))

/-- Inner loop of `labelWithBFS` over the cells incident to one vertex: every neighbour
that is not yet visited is inserted into `visited` and pushed on the queue. Returns
`(visited, queue)`. -/
def visitNeighbors : List Int → List Int → List Int → List Int × List Int
  | [], visited, queue => (visited, queue)
  | neighborId :: rest, visited, queue =>
    if neighborId ∈ visited then visitNeighbors rest visited queue
    else visitNeighbors rest (neighborId :: visited) (queue ++ [neighborId])

/-- Loop of `labelWithBFS` over the vertices of the accepted cell. Returns
`(visited, queue)`. -/
def expandCell (pd : PolyData) : List Nat → List Int → List Int → List Int × List Int
  | [], visited, queue => (visited, queue)
  | pointId :: rest, visited, queue =>
    let st := visitNeighbors (pd.GetPointCells pointId) visited queue
    expandCell pd rest st.1 st.2

/-- The `while (!queue.empty())` loop of `labelWithBFS`, one unit of fuel per iteration;
`none` means that the fuel ran out before the queue was empty. The queue is a list whose
head is the front, `visited` lists the members of the visited set. -/
def bfsLoop (s : MeshLabeler) (pd : PolyData) (position : Point) :
    Nat → List Int → List Int → List Int → Option (List Int)
  | _, [], _, affectedCells => some affectedCells
  | 0, _ :: _, _, _ => none
  | fuel + 1, cellId :: queue, visited, affectedCells =>
    if !s.isCellInSphere position cellId then
      bfsLoop s pd position fuel queue visited affectedCells
    else if GetTuple1 pd.scalars cellId = s.m_currentLabel then
      bfsLoop s pd position fuel queue visited affectedCells
    else
      let st := expandCell pd (pd.cellPointIds cellId) visited queue
      bfsLoop s pd position fuel st.2 st.1 (affectedCells ++ [cellId])

/-- Method `MeshLabeler::labelWithBFS`: empty without a mesh or for a start cell out of
range; otherwise the loop started with the start cell queued and visited. The loop is given
one unit of fuel per cell of the mesh, which always suffices (`labelWithBFS_isSome`). -/
def MeshLabeler.labelWithBFS (s : MeshLabeler) (position : Point) (startCellId : Int) :
    Option (List Int) :=
  match s.m_polyData with
  | none => some []
  | some pd =>
    if startCellId < 0 ∨ startCellId ≥ pd.GetNumberOfCells then some []
    else bfsLoop s pd position pd.cells.length [startCellId] [startCellId] []

/-- Point ids of a cell of the loaded mesh (none without a mesh). -/
def MeshLabeler.cellPointIds (s : MeshLabeler) (cellId : Int) : List Nat :=
  match s.m_polyData with
  | some pd => pd.cellPointIds cellId
  | none => []

/-- Vertices of a cell of the loaded mesh (none without a mesh). -/
def MeshLabeler.cellPoints (s : MeshLabeler) (cellId : Int) : List Point :=
  match s.m_polyData with
  | some pd => pd.cellPoints cellId
  | none => []

/-- Two cells are adjacent when they share at least one vertex id. -/
def MeshLabeler.SharesVertex (s : MeshLabeler) (a b : Int) : Prop :=
  ∃ pointId, pointId ∈ s.cellPointIds a ∧ pointId ∈ s.cellPointIds b

/-- The tests a dequeued cell has to pass to be returned: in range of the brush and not
yet carrying the current label. -/
def MeshLabeler.Qualifies (s : MeshLabeler) (position : Point) (cellId : Int) : Prop :=
  s.isCellInSphere position cellId = true ∧ GetTuple1 s.labels cellId ≠ s.m_currentLabel

/-- Cells in `[0, n)` that are not in the visited set. -/
def unvisited (n : Nat) (visited : List Int) : Finset Nat :=
  (Finset.range n).filter (fun k => (k : Int) ∉ visited)

/-! ## Direct label mutation -/

/-- Method `MeshLabeler::labelCell`: nothing without a mesh or for a cell id out of range;
otherwise the label is written to the cell (with `SetTuple1`, the write of a label that
the array holds exactly). -/
def MeshLabeler.labelCell (s : MeshLabeler) (cellId : Int) (label : Int) : MeshLabeler :=
  match s.m_polyData with
  | none => s
  | some pd =>
    if cellId < 0 ∨ cellId ≥ pd.GetNumberOfCells then s
    else { s with m_polyData := some { pd with scalars := SetTuple1 pd.scalars cellId label } }

/-- Method `MeshLabeler::labelCells`: `labelCell` for every listed id, in order. After the
loop the source marks the cell data of `m_polyData` as modified without a null check, so
the method may only be called with a mesh loaded; without one the model returns the state
as it is. -/
def MeshLabeler.labelCells (s : MeshLabeler) (cellIds : List Int) (label : Int) : MeshLabeler :=
  cellIds.foldl (fun acc cellId => acc.labelCell cellId label) s

/-! ## Query interface -/

/-- Method `MeshLabeler::getCellCount`. -/
def MeshLabeler.getCellCount (s : MeshLabeler) : Int :=
  match s.m_polyData with
  | some pd => pd.GetNumberOfCells
  | none => 0

/-- Method `MeshLabeler::getCellLabel`: the sentinel `-1` without a mesh or for a cell id
out of range; otherwise the stored label. -/
def MeshLabeler.getCellLabel (s : MeshLabeler) (cellId : Int) : Int :=
  match s.m_polyData with
  | none => -1
  | some pd =>
    if cellId < 0 ∨ cellId ≥ pd.GetNumberOfCells then -1
    else GetTuple1 pd.scalars cellId

/-- Statement `stats[label]++` on the statistics vector. -/
def incrementCount (stats : List Int) (label : Int) : List Int :=
  stats.set label.toNat (stats.getD label.toNat 0 + 1)

/-- Method `MeshLabeler::getLabelStatistics`: a vector of `MAX_LABELS` zeros without a
mesh; otherwise one scan over the cells that counts every label inside
`[0, MAX_LABELS)` and skips the others. -/
def MeshLabeler.getLabelStatistics (s : MeshLabeler) : List Int :=
  match s.m_polyData with
  | none => List.replicate MAX_LABELS.toNat 0
  | some pd =>
    (List.range pd.cells.length).foldl
      (fun (stats : List Int) (i : Nat) =>
        if GetTuple1 pd.scalars (Int.ofNat i) ≥ 0 ∧
            GetTuple1 pd.scalars (Int.ofNat i) < MAX_LABELS then
          incrementCount stats (GetTuple1 pd.scalars (Int.ofNat i))
        else stats)
      (List.replicate MAX_LABELS.toNat 0)

/-- A label inside `[0, MAX_LABELS)`. -/
def ValidLabel (label : Int) : Prop := 0 ≤ label ∧ label < MAX_LABELS

instance (label : Int) : Decidable (ValidLabel label) := by
  unfold ValidLabel
  infer_instance

/-! ## Brush radius -/

/-- Method `MeshLabeler::setBrushRadius`. -/
def MeshLabeler.setBrushRadius (s : MeshLabeler) (radius : ℚ) : MeshLabeler :=
  if radius ≥ MIN_BRUSH_RADIUS then { s with m_brushRadius := radius } else s

/-- Method `MeshLabeler::increaseBrushRadius`. -/
def MeshLabeler.increaseBrushRadius (s : MeshLabeler) : MeshLabeler :=
  { s with m_brushRadius := s.m_brushRadius + BRUSH_RADIUS_STEP }

/-- Method `MeshLabeler::decreaseBrushRadius`. -/
def MeshLabeler.decreaseBrushRadius (s : MeshLabeler) : MeshLabeler :=
  if s.m_brushRadius > MIN_BRUSH_RADIUS then
    { s with m_brushRadius := s.m_brushRadius - BRUSH_RADIUS_STEP }
  else s

/-- Inline method `getBrushRadius`. -/
def MeshLabeler.getBrushRadius (s : MeshLabeler) : ℚ := s.m_brushRadius

/-! ## Render throttle -/

/-- Method `MeshLabeler::render`: draw when a render window is set, then clear the pending
flag. -/
def MeshLabeler.render (s : MeshLabeler) : MeshLabeler :=
  { s with
    windowRenders := if s.m_renderWindow then s.windowRenders + 1 else s.windowRenders
    m_renderPending := false }

/-- The event loop fires one outstanding `QTimer::singleShot` callback of `requestRender`,
which runs `render()`; `none` when no callback is outstanding. -/
def MeshLabeler.fireScheduledRender (s : MeshLabeler) : Option MeshLabeler :=
  if s.scheduledRenders = 0 then none
  else some ({ s with scheduledRenders := s.scheduledRenders - 1 } : MeshLabeler).render

/-- States reachable from a state with nothing pending and nothing scheduled by
`requestRender()` calls and by firings of the scheduled deferred render. -/
inductive ThrottleReachable : MeshLabeler → Prop where
  | idle (s : MeshLabeler) (hp : s.m_renderPending = false) (hs : s.scheduledRenders = 0) :
      ThrottleReachable s
  | request (s : MeshLabeler) (h : ThrottleReachable s) : ThrottleReachable s.requestRender
  | fire (s t : MeshLabeler) (h : ThrottleReachable s) (ht : s.fireScheduledRender = some t) :
      ThrottleReachable t

/-! ## Mesh loading -/

/-- What the file reader hands over (`reader->GetOutput()`): point coordinates, cells, and
the per-cell scalar array when the file carries one. -/
structure ReaderOutput where
  points : List Point
  cells : List (List Nat)
  scalars : Option (List Int)

/-- A reader output as the VTK readers deliver it: a cell data array, when present, has one
tuple per cell. -/
def ReaderOutput.WellFormed (out : ReaderOutput) : Prop :=
  ∀ labels, out.scalars = some labels → labels.length = out.cells.length

instance (out : ReaderOutput) : Decidable out.WellFormed := by
  unfold ReaderOutput.WellFormed
  cases h : out.scalars with
  | none => exact isTrue (fun labels hl => by cases hl)
  | some l =>
    by_cases hlen : l.length = out.cells.length
    · exact isTrue (fun labels hl => by cases hl; exact hlen)
    · exact isFalse (fun hall => hlen (hall l rfl))

/-- Method `MeshLabeler::initializeCellData`: nothing without a mesh; otherwise a new scalar
array with one `0` per cell (`InsertTuple1(i, 0)` for every cell index `i`). -/
def MeshLabeler.initializeCellData (s : MeshLabeler) : MeshLabeler :=
  match s.m_polyData with
  | none => s
  | some pd =>
    let cellData := (List.range pd.cells.length).map (fun _ => (0 : Int))
    { s with m_polyData := some { pd with scalars := cellData } }

/-- Method `MeshLabeler::loadSTL`. The argument is `none` when the file name is empty or the
file does not exist. A reader output without points is rejected; otherwise the history is
cleared, the mesh replaced, the cell data initialised and a render requested. Returns the
new state and the `bool` result. -/
def MeshLabeler.loadSTL (s : MeshLabeler) (file : Option ReaderOutput) : MeshLabeler × Bool :=
  match file with
  | none => (s, false)
  | some out =>
    if out.points.length = 0 then (s, false)
    else
      let s1 := s.clearHistory
      let s2 : MeshLabeler :=
        { s1 with m_polyData := some ⟨out.points, out.cells, out.scalars.getD []⟩ }
      let s3 := s2.initializeCellData
      (s3.requestRender, true)

/-- Method `MeshLabeler::loadVTP`. As `loadSTL`, except that the cell data is initialised
only when the loaded mesh carries no scalar array (`!GetCellData()->GetScalars()`); an
array that is present is kept as it is. -/
def MeshLabeler.loadVTP (s : MeshLabeler) (file : Option ReaderOutput) : MeshLabeler × Bool :=
  match file with
  | none => (s, false)
  | some out =>
    if out.points.length = 0 then (s, false)
    else
      let s1 := s.clearHistory
      let s3 : MeshLabeler :=
        match out.scalars with
        | none =>
          ({ s1 with m_polyData := some ⟨out.points, out.cells, []⟩ } :
            MeshLabeler).initializeCellData
        | some labels => { s1 with m_polyData := some ⟨out.points, out.cells, labels⟩ }
      (s3.requestRender, true)

/-! ## Input callbacks -/

/-- Callback `LeftButtonPressCallback`; `position` and `cellId` are the pick result
(`cellId = -1` on a miss). In brush mode a `PaintCommand` is constructed for the cells of
the region selector and the cells are relabelled with `labelCells`; the command is not
handed to `addCommand`. In single mode the picked cell is relabelled with `labelCell`. -/
def MeshLabeler.LeftButtonPressCallback (s : MeshLabeler) (position : Point) (cellId : Int) :
    MeshLabeler :=
  match s.m_polyData with
  | none => s
  | some _ =>
    let s1 : MeshLabeler := { s with m_isMousePressed := true }
    if cellId ≥ 0 then
      let s2 : MeshLabeler :=
        if s1.m_editMode = EditMode.Brush then
          match s1.labelWithBFS position cellId with
          | some affectedCells =>
            if !affectedCells.isEmpty then
              let _command := PaintCommand.create s1.labels affectedCells s1.m_currentLabel
              s1.labelCells affectedCells s1.m_currentLabel
            else s1
          | none => s1
        else s1.labelCell cellId s1.m_currentLabel
      s2.requestRender
    else s1

/-- Callback `MouseMoveCallback`; `position` and `cellId` are the pick result. In brush
mode the preview sphere is updated and, while the mouse is pressed, the cells of the region
selector are relabelled with `labelCells`; in single mode the picked cell is relabelled
while the mouse is pressed. -/
def MeshLabeler.MouseMoveCallback (s : MeshLabeler) (position : Point) (cellId : Int) :
    MeshLabeler :=
  match s.m_polyData with
  | none => s
  | some _ =>
    if cellId = -1 then s
    else if s.m_editMode = EditMode.Brush then
      let s1 := s.requestRender
      if s1.m_isMousePressed then
        match s1.labelWithBFS position cellId with
        | some affectedCells =>
          if !affectedCells.isEmpty then
            (s1.labelCells affectedCells s1.m_currentLabel).requestRender
          else s1
        | none => s1
      else s1
    else if s.m_isMousePressed then
      (s.labelCell cellId s.m_currentLabel).requestRender
    else s

/-! ## Label mutations with valid labels -/

/-- States reachable from a freshly zero-initialised mesh with an empty history by label
mutations whose labels lie in `[0, MAX_LABELS)`: `labelCell`, `labelCells`, `execute` and
`undo` of paint commands constructed on the array of a reachable state, `addCommand` of such
commands, `undo` and `redo`. The cell ids of a paint command address the array the command
is constructed on and the array it is applied to. -/
inductive LabelReachable : MeshLabeler → Prop where
  | fresh (s : MeshLabeler) (pd : PolyData) (hpd : s.m_polyData = some pd)
      (hzero : pd.scalars = List.replicate pd.cells.length 0)
      (hu : s.m_undoStack = []) (hr : s.m_redoStack = []) : LabelReachable s
  | labelCell (s : MeshLabeler) (cellId label : Int) (h : LabelReachable s)
      (hl : ValidLabel label) : LabelReachable (s.labelCell cellId label)
  | labelCells (s : MeshLabeler) (cellIds : List Int) (label : Int) (h : LabelReachable s)
      (hl : ValidLabel label) : LabelReachable (s.labelCells cellIds label)
  | execute (s t : MeshLabeler) (cellIds : List Int) (label : Int) (hs : LabelReachable s)
      (ht : LabelReachable t) (hl : ValidLabel label)
      (hv : ∀ cellId ∈ cellIds, ValidCellId t.labels cellId ∧ ValidCellId s.labels cellId) :
      LabelReachable (s.mapScalars (PaintCommand.create t.labels cellIds label).execute)
  | undoCommand (s t : MeshLabeler) (cellIds : List Int) (label : Int) (hs : LabelReachable s)
      (ht : LabelReachable t) (hl : ValidLabel label)
      (hv : ∀ cellId ∈ cellIds, ValidCellId t.labels cellId ∧ ValidCellId s.labels cellId) :
      LabelReachable (s.mapScalars (PaintCommand.create t.labels cellIds label).undo)
  | addCommand (s t : MeshLabeler) (cellIds : List Int) (label : Int) (hs : LabelReachable s)
      (ht : LabelReachable t) (hl : ValidLabel label)
      (hv : ∀ cellId ∈ cellIds, ValidCellId t.labels cellId ∧ ValidCellId s.labels cellId) :
      LabelReachable (s.addCommand (PaintCommand.create t.labels cellIds label))
  | undo (s : MeshLabeler) (h : LabelReachable s) : LabelReachable s.undo
  | redo (s : MeshLabeler) (h : LabelReachable s) : LabelReachable s.redo

/-- Invariant of the label mutations with valid labels: a mesh is loaded, its scalar array
has one entry per cell, every stored label is valid, and so are the labels recorded in the
commands of both stacks. -/
def ValidStore (s : MeshLabeler) : Prop :=
  (∃ pd, s.m_polyData = some pd ∧ pd.scalars.length = pd.cells.length ∧
    ∀ x ∈ pd.scalars, ValidLabel x) ∧
  ∀ c ∈ s.m_undoStack ++ s.m_redoStack,
    ValidLabel c.m_newLabel ∧ ∀ x ∈ c.m_oldLabels, ValidLabel x

/-! ## Test scenario helpers -/

/-- Centroid of a list of points (the mean of the coordinates). -/
def centroid (pts : List Point) : Point :=
  ⟨(pts.map (fun p => p.x)).sum / pts.length, (pts.map (fun p => p.y)).sum / pts.length,
    (pts.map (fun p => p.z)).sum / pts.length⟩

/-- A four-cell strip: triangles `0..3`, each sharing one vertex with the next and
triangle `3` sharing a vertex with triangle `0`; all labels `0`. -/
def stripMesh : PolyData :=
  { points := [⟨-10, 0, 0⟩, ⟨-5, -5, 0⟩, ⟨0, 0, 0⟩, ⟨3, 0, 0⟩, ⟨0, 3, 0⟩, ⟨5, 10, 0⟩,
      ⟨0, 20, 0⟩, ⟨-10, 20, 0⟩]
    cells := [[0, 1, 2], [2, 3, 4], [4, 5, 6], [6, 7, 0]]
    scalars := [0, 0, 0, 0] }

/-- The engine with the strip loaded, target label `5`, default brush radius. -/
def stripEngine : MeshLabeler :=
  { MeshLabeler.withMesh stripMesh with m_currentLabel := 5 }

/-! ## Current label, edit mode and key callbacks -/

/-- Method `MeshLabeler::setCurrentLabel`: a label outside `[0, MAX_LABELS)` is ignored;
otherwise the current label is replaced when it differs. -/
def MeshLabeler.setCurrentLabel (s : MeshLabeler) (label : Int) : MeshLabeler :=
  if label < 0 ∨ label ≥ MAX_LABELS then s
  else if s.m_currentLabel ≠ label then { s with m_currentLabel := label }
  else s

/-- Inline method `getCurrentLabel`. -/
def MeshLabeler.getCurrentLabel (s : MeshLabeler) : Int := s.m_currentLabel

/-- Method `MeshLabeler::setEditMode`: when the mode differs it is replaced and a render is
requested. -/
def MeshLabeler.setEditMode (s : MeshLabeler) (mode : EditMode) : MeshLabeler :=
  if s.m_editMode ≠ mode then
    ({ s with m_editMode := mode } : MeshLabeler).requestRender
  else s

/-- Inline method `setMousePressed`. -/
def MeshLabeler.setMousePressed (s : MeshLabeler) (pressed : Bool) : MeshLabeler :=
  { s with m_isMousePressed := pressed }

/-- Callback `LeftButtonReleaseCallback`. -/
def MeshLabeler.LeftButtonReleaseCallback (s : MeshLabeler) : MeshLabeler :=
  s.setMousePressed false

/-- Callback `KeyPressCallback`; `key` is the key code and `controlKey` tells whether the
control key is held. -/
def MeshLabeler.KeyPressCallback (s : MeshLabeler) (key : Char) (controlKey : Bool) :
    MeshLabeler :=
  if key = 's' then s.setEditMode EditMode.Single
  else if key = 'r' then s.setEditMode EditMode.Brush
  else if key ≥ '0' ∧ key ≤ '9' then
    s.setCurrentLabel ((key.toNat : Int) - ('0'.toNat : Int))
  else if key = 'z' ∧ controlKey then s.undo
  else if key = 'y' ∧ controlKey then s.redo
  else s

/-- Callback `MouseWheelForwardCallback`; `cellId` is the picked cell (`-1` on a miss). -/
def MeshLabeler.MouseWheelForwardCallback (s : MeshLabeler) (controlKey : Bool)
    (cellId : Int) : MeshLabeler :=
  match s.m_polyData with
  | none => s
  | some _ =>
    if controlKey then
      let s1 := s.increaseBrushRadius
      if cellId ≥ 0 then s1.requestRender else s1
    else s

/-- Callback `MouseWheelBackwardCallback`; `cellId` is the picked cell (`-1` on a miss). -/
def MeshLabeler.MouseWheelBackwardCallback (s : MeshLabeler) (controlKey : Bool)
    (cellId : Int) : MeshLabeler :=
  match s.m_polyData with
  | none => s
  | some _ =>
    if controlKey then
      let s1 := s.decreaseBrushRadius
      if cellId ≥ 0 then s1.requestRender else s1
    else s

/-- States reachable from the constructed engine by the operations of the engine: the
setters, the label mutations, the history operations, the render operations, the loaders
and the input callbacks. -/
inductive EngineReachable : MeshLabeler → Prop where
  | init : EngineReachable MeshLabeler.init
  | setCurrentLabel (s : MeshLabeler) (label : Int) (h : EngineReachable s) :
      EngineReachable (s.setCurrentLabel label)
  | setEditMode (s : MeshLabeler) (mode : EditMode) (h : EngineReachable s) :
      EngineReachable (s.setEditMode mode)
  | setMousePressed (s : MeshLabeler) (pressed : Bool) (h : EngineReachable s) :
      EngineReachable (s.setMousePressed pressed)
  | setBrushRadius (s : MeshLabeler) (radius : ℚ) (h : EngineReachable s) :
      EngineReachable (s.setBrushRadius radius)
  | increaseBrushRadius (s : MeshLabeler) (h : EngineReachable s) :
      EngineReachable s.increaseBrushRadius
  | decreaseBrushRadius (s : MeshLabeler) (h : EngineReachable s) :
      EngineReachable s.decreaseBrushRadius
  | labelCell (s : MeshLabeler) (cellId label : Int) (h : EngineReachable s) :
      EngineReachable (s.labelCell cellId label)
  | labelCells (s : MeshLabeler) (cellIds : List Int) (label : Int) (h : EngineReachable s) :
      EngineReachable (s.labelCells cellIds label)
  | addCommand (s : MeshLabeler) (c : PaintCommand) (h : EngineReachable s) :
      EngineReachable (s.addCommand c)
  | undo (s : MeshLabeler) (h : EngineReachable s) : EngineReachable s.undo
  | redo (s : MeshLabeler) (h : EngineReachable s) : EngineReachable s.redo
  | clearHistory (s : MeshLabeler) (h : EngineReachable s) : EngineReachable s.clearHistory
  | requestRender (s : MeshLabeler) (h : EngineReachable s) : EngineReachable s.requestRender
  | render (s : MeshLabeler) (h : EngineReachable s) : EngineReachable s.render
  | loadSTL (s : MeshLabeler) (file : Option ReaderOutput) (h : EngineReachable s) :
      EngineReachable (s.loadSTL file).1
  | loadVTP (s : MeshLabeler) (file : Option ReaderOutput) (h : EngineReachable s) :
      EngineReachable (s.loadVTP file).1
  | leftButtonPress (s : MeshLabeler) (position : Point) (cellId : Int)
      (h : EngineReachable s) : EngineReachable (s.LeftButtonPressCallback position cellId)
  | leftButtonRelease (s : MeshLabeler) (h : EngineReachable s) :
      EngineReachable s.LeftButtonReleaseCallback
  | mouseMove (s : MeshLabeler) (position : Point) (cellId : Int) (h : EngineReachable s) :
      EngineReachable (s.MouseMoveCallback position cellId)
  | keyPress (s : MeshLabeler) (key : Char) (controlKey : Bool) (h : EngineReachable s) :
      EngineReachable (s.KeyPressCallback key controlKey)
  | wheelForward (s : MeshLabeler) (controlKey : Bool) (cellId : Int)
      (h : EngineReachable s) : EngineReachable (s.MouseWheelForwardCallback controlKey cellId)
  | wheelBackward (s : MeshLabeler) (controlKey : Bool) (cellId : Int)
      (h : EngineReachable s) : EngineReachable (s.MouseWheelBackwardCallback controlKey cellId)

/-! ## Region selector with the dequeued cells recorded -/

/-- The loop of `labelWithBFS` as in `bfsLoop`, which in addition records every dequeued
cell, in order: one entry per loop iteration. Returns the result and the record. -/
def bfsLoopTrace (s : MeshLabeler) (pd : PolyData) (position : Point) :
    Nat → List Int → List Int → List Int → List Int → Option (List Int × List Int)
  | _, [], _, affectedCells, dequeued => some (affectedCells, dequeued)
  | 0, _ :: _, _, _, _ => none
  | fuel + 1, cellId :: queue, visited, affectedCells, dequeued =>
    if !s.isCellInSphere position cellId then
      bfsLoopTrace s pd position fuel queue visited affectedCells (dequeued ++ [cellId])
    else if GetTuple1 pd.scalars cellId = s.m_currentLabel then
      bfsLoopTrace s pd position fuel queue visited affectedCells (dequeued ++ [cellId])
    else
      let st := expandCell pd (pd.cellPointIds cellId) visited queue
      bfsLoopTrace s pd position fuel st.2 st.1 (affectedCells ++ [cellId])
        (dequeued ++ [cellId])

/-- Method `MeshLabeler::labelWithBFS` with the dequeued cells recorded. -/
def MeshLabeler.labelWithBFSTrace (s : MeshLabeler) (position : Point) (startCellId : Int) :
    Option (List Int × List Int) :=
  match s.m_polyData with
  | none => some ([], [])
  | some pd =>
    if startCellId < 0 ∨ startCellId ≥ pd.GetNumberOfCells then some ([], [])
    else bfsLoopTrace s pd position pd.cells.length [startCellId] [startCellId] [] []
/-! ## Qualifying cells and brush inputs on the rounding boundary -/

/-- The qualifying cells of the region selector, stated on the geometry of the mesh: a cell
of the mesh with a vertex whose `double` squared distance to the brush centre is less than
the `double` square of the brush radius, and whose label differs from the current label. -/
def MeshLabeler.QualifyingCell (s : MeshLabeler) (position : Point) (cellId : Int) : Prop :=
  (0 ≤ cellId ∧ cellId < s.getCellCount) ∧
  (∃ pt ∈ s.cellPoints cellId,
    Distance2BetweenPoints position pt < doubleMul s.m_brushRadius s.m_brushRadius) ∧
  GetTuple1 s.labels cellId ≠ s.m_currentLabel

/-- The qualifying cells in exact arithmetic: a cell of the mesh with a vertex strictly
within the brush radius of the brush centre (squared distance strictly less than the square
of the radius), and whose label differs from the current label. -/
def MeshLabeler.ExactQualifyingCell (s : MeshLabeler) (position : Point) (cellId : Int) :
    Prop :=
  (0 ≤ cellId ∧ cellId < s.getCellCount) ∧
  (∃ pt ∈ s.cellPoints cellId,
    exactDistance2 position pt < s.m_brushRadius * s.m_brushRadius) ∧
  GetTuple1 s.labels cellId ≠ s.m_currentLabel

/-- One triangle with a vertex at the origin, label `0`. -/
def triangleMesh : PolyData :=
  { points := [⟨0, 0, 0⟩, ⟨100, 0, 0⟩, ⟨100, 100, 0⟩]
    cells := [[0, 1, 2]]
    scalars := [0] }

/-- The engine with the triangle loaded, target label `5` and the brush radius
`5 * (1 + 5 * 2^(-29))`, the `double` `5.000000046566129`. -/
def boundaryEngine : MeshLabeler :=
  { MeshLabeler.withMesh triangleMesh with
    m_currentLabel := 5
    m_brushRadius := 2684354585 / 536870912 }

/-- A brush centre at exact distance `5 * (1 + 5 * 2^(-29))` from the origin: the `double`s
`(3.0000000279396772, 4.000000037252903, 0)`. -/
def boundaryCentre : Point := ⟨1610612751 / 536870912, 536870917 / 134217728, 0⟩

/-- The engine with the triangle loaded, target label `5` and the brush radius
`4.123105625617661`, the `double` nearest to the square root of `17`; its exact square is
larger than `17` and its `double` square is `17`. -/
def squareRootEngine : MeshLabeler :=
  { MeshLabeler.withMesh triangleMesh with
    m_currentLabel := 5
    m_brushRadius := 4642204239785223 / 1125899906842624 }

/-- A brush centre at squared distance `17` from the origin. -/
def squareRootCentre : Point := ⟨1, 4, 0⟩

/-! ## Scalar array lemmas -/

theorem SetTuple1_length (scalars : List Int) (cellId value : Int) :
    (SetTuple1 scalars cellId value).length = scalars.length := by
  unfold SetTuple1
  split <;> simp

theorem SetTuple1_getElem? (scalars : List Int) (cellId value : Int) (i : Nat) :
    (SetTuple1 scalars cellId value)[i]? =
      if (i : Int) = cellId ∧ i < scalars.length then some value else scalars[i]? := by
  unfold SetTuple1
  split
  · rename_i h
    rw [List.getElem?_set]
    by_cases hi : cellId.toNat = i
    · have h1 : (i : Int) = cellId := by omega
      by_cases hl : i < scalars.length
      · simp [hi, h1, hl]
      · have h2 : scalars[i]? = none := List.getElem?_eq_none (by omega)
        simp [hi, h1, hl, h2]
    · have : ¬ (i : Int) = cellId := by omega
      simp [hi, this]
  · rename_i h
    have : ¬ (i : Int) = cellId := by omega
    simp [this]

theorem GetTuple1_eq (scalars : List Int) (i : Nat) :
    GetTuple1 scalars (i : Int) = scalars.getD i 0 := by
  simp [GetTuple1]

theorem execute_length (c : PaintCommand) (scalars : List Int) :
    (c.execute scalars).length = scalars.length := by
  unfold PaintCommand.execute
  generalize c.m_cellIds = ids
  induction ids generalizing scalars with
  | nil => rfl
  | cons a t ih => simp [List.foldl_cons, ih, SetTuple1_length]

theorem undo_length (c : PaintCommand) (scalars : List Int) :
    (c.undo scalars).length = scalars.length := by
  unfold PaintCommand.undo
  generalize c.m_cellIds.zip c.m_oldLabels = ps
  induction ps generalizing scalars with
  | nil => rfl
  | cons a t ih => simp [List.foldl_cons, ih, SetTuple1_length]

/-- Cells that are not listed keep their label under `execute`. -/
theorem execute_getElem?_of_not_mem (c : PaintCommand) (scalars : List Int) (i : Nat)
    (h : (i : Int) ∉ c.m_cellIds) : (c.execute scalars)[i]? = scalars[i]? := by
  unfold PaintCommand.execute
  generalize c.m_cellIds = ids at h
  induction ids generalizing scalars with
  | nil => rfl
  | cons a t ih =>
    simp only [List.mem_cons, not_or] at h
    rw [List.foldl_cons, ih _ h.2, SetTuple1_getElem?]
    simp [h.1]

/-- Restoring captured labels: if every pair carries the label that `base` holds at its
cell, and the array agrees with `base` outside the listed cells, the result is `base`. -/
theorem restore_eq_base (base : List Int) (ids : List Int) (scalars : List Int)
    (hlen : scalars.length = base.length)
    (hout : ∀ i : Nat, (i : Int) ∉ ids → scalars[i]? = base[i]?) :
    (ids.zip (ids.map (fun cellId => GetTuple1 base cellId))).foldl
      (fun acc p => SetTuple1 acc p.1 p.2) scalars = base := by
  induction ids generalizing scalars with
  | nil =>
    apply List.ext_getElem?
    intro n
    exact hout n (by simp)
  | cons a t ih =>
    simp only [List.map_cons, List.zip_cons_cons, List.foldl_cons]
    apply ih
    · rw [SetTuple1_length, hlen]
    · intro i hi
      rw [SetTuple1_getElem?]
      by_cases ha : (i : Int) = a ∧ i < scalars.length
      · rw [if_pos ha]
        obtain ⟨ha1, ha2⟩ := ha
        rw [← ha1, GetTuple1_eq]
        rw [hlen] at ha2
        simp [List.getD_eq_getElem?_getD, List.getElem?_eq_getElem ha2]
      · rw [if_neg ha]
        by_cases hia : (i : Int) = a
        · have hge : ¬ i < scalars.length := fun h => ha ⟨hia, h⟩
          rw [List.getElem?_eq_none (by omega), List.getElem?_eq_none (by omega)]
        · exact hout i (by simp [hia, hi])

/-- A command constructed on an array and executed on it is reverted exactly by `undo`. -/
theorem undo_execute_create (scalars : List Int) (cellIds : List Int) (newLabel : Int) :
    (PaintCommand.create scalars cellIds newLabel).undo
      ((PaintCommand.create scalars cellIds newLabel).execute scalars) = scalars := by
  unfold PaintCommand.undo
  simp only [PaintCommand.create]
  apply restore_eq_base
  · exact execute_length _ _
  · intro i hi
    exact execute_getElem?_of_not_mem ⟨cellIds, _, newLabel⟩ scalars i hi

/-! ## History lemmas -/

theorem mapScalars_labels_execute (s : MeshLabeler) (c : PaintCommand) :
    (s.mapScalars c.execute).labels = c.execute s.labels := by
  unfold MeshLabeler.mapScalars MeshLabeler.labels
  cases h : s.m_polyData with
  | none =>
    simp only [h]
    exact (List.length_eq_zero.mp (by rw [execute_length]; rfl)).symm
  | some pd => simp

theorem mapScalars_labels_undo (s : MeshLabeler) (c : PaintCommand) :
    (s.mapScalars c.undo).labels = c.undo s.labels := by
  unfold MeshLabeler.mapScalars MeshLabeler.labels
  cases h : s.m_polyData with
  | none =>
    simp only [h]
    exact (List.length_eq_zero.mp (by rw [undo_length]; rfl)).symm
  | some pd => simp

theorem mapScalars_undoStack (s : MeshLabeler) (f : List Int → List Int) :
    (s.mapScalars f).m_undoStack = s.m_undoStack := by
  unfold MeshLabeler.mapScalars
  cases s.m_polyData <;> rfl

theorem mapScalars_redoStack (s : MeshLabeler) (f : List Int → List Int) :
    (s.mapScalars f).m_redoStack = s.m_redoStack := by
  unfold MeshLabeler.mapScalars
  cases s.m_polyData <;> rfl

theorem requestRender_labels (s : MeshLabeler) : s.requestRender.labels = s.labels := by
  unfold MeshLabeler.requestRender
  split <;> rfl

theorem requestRender_undoStack (s : MeshLabeler) :
    s.requestRender.m_undoStack = s.m_undoStack := by
  unfold MeshLabeler.requestRender
  split <;> rfl

theorem requestRender_redoStack (s : MeshLabeler) :
    s.requestRender.m_redoStack = s.m_redoStack := by
  unfold MeshLabeler.requestRender
  split <;> rfl

theorem refill_drain (undoStack tempStack : List PaintCommand) :
    refillFromTemp (drainToTemp undoStack tempStack).2 (drainToTemp undoStack tempStack).1.tail
      = refillFromTemp tempStack undoStack.dropLast := by
  induction undoStack generalizing tempStack with
  | nil => rfl
  | cons a t ih =>
    cases t with
    | nil => rfl
    | cons b rest =>
      rw [drainToTemp, ih]
      rfl

/-- The temporary-stack eviction removes exactly the bottom entry. -/
theorem evictOldest_eq_dropLast (undoStack : List PaintCommand) :
    evictOldest undoStack = undoStack.dropLast := by
  unfold evictOldest
  exact refill_drain undoStack []

theorem addCommand_labels (s : MeshLabeler) (c : PaintCommand) :
    (s.addCommand c).labels = c.execute s.labels := by
  rw [← mapScalars_labels_execute]
  rfl

theorem addCommand_redoStack (s : MeshLabeler) (c : PaintCommand) :
    (s.addCommand c).m_redoStack = [] := rfl

theorem addCommand_undoStack (s : MeshLabeler) (c : PaintCommand) :
    (s.addCommand c).m_undoStack =
      if MAX_HISTORY_SIZE ≤ s.m_undoStack.length then c :: s.m_undoStack.dropLast
      else c :: s.m_undoStack := by
  unfold MeshLabeler.addCommand
  simp only [mapScalars_undoStack, evictOldest_eq_dropLast, List.length_cons]
  by_cases h : MAX_HISTORY_SIZE ≤ s.m_undoStack.length
  · have hne : s.m_undoStack ≠ [] := by
      intro h0
      rw [h0] at h
      simp [MAX_HISTORY_SIZE] at h
    rw [if_pos (by omega), if_pos h, List.dropLast_cons_of_ne_nil hne]
  · rw [if_neg (by omega), if_neg h]

theorem undo_nil (s : MeshLabeler) (h : s.m_undoStack = []) : s.undo = s := by
  unfold MeshLabeler.undo
  rw [h]

theorem undo_cons_labels (s : MeshLabeler) (c : PaintCommand) (u : List PaintCommand)
    (h : s.m_undoStack = c :: u) : s.undo.labels = c.undo s.labels := by
  rw [← mapScalars_labels_undo]
  unfold MeshLabeler.undo
  rw [h]
  simp only [requestRender_labels]
  obtain ⟨pd⟩ := s
  cases pd <;> rfl

theorem undo_cons_undoStack (s : MeshLabeler) (c : PaintCommand) (u : List PaintCommand)
    (h : s.m_undoStack = c :: u) : s.undo.m_undoStack = u := by
  unfold MeshLabeler.undo
  rw [h]
  simp only [requestRender_undoStack, mapScalars_undoStack]

theorem undo_cons_redoStack (s : MeshLabeler) (c : PaintCommand) (u : List PaintCommand)
    (h : s.m_undoStack = c :: u) : s.undo.m_redoStack = c :: s.m_redoStack := by
  unfold MeshLabeler.undo
  rw [h]
  simp only [requestRender_redoStack, mapScalars_redoStack]

theorem redo_nil (s : MeshLabeler) (h : s.m_redoStack = []) : s.redo = s := by
  unfold MeshLabeler.redo
  rw [h]

theorem redo_cons_labels (s : MeshLabeler) (c : PaintCommand) (r : List PaintCommand)
    (h : s.m_redoStack = c :: r) : s.redo.labels = c.execute s.labels := by
  rw [← mapScalars_labels_execute]
  unfold MeshLabeler.redo
  rw [h]
  simp only [requestRender_labels]
  obtain ⟨pd⟩ := s
  cases pd <;> rfl

theorem redo_cons_redoStack (s : MeshLabeler) (c : PaintCommand) (r : List PaintCommand)
    (h : s.m_redoStack = c :: r) : s.redo.m_redoStack = r := by
  unfold MeshLabeler.redo
  rw [h]
  simp only [requestRender_redoStack, mapScalars_redoStack]

theorem redo_cons_undoStack (s : MeshLabeler) (c : PaintCommand) (r : List PaintCommand)
    (h : s.m_redoStack = c :: r) : s.redo.m_undoStack = c :: s.m_undoStack := by
  unfold MeshLabeler.redo
  rw [h]
  simp only [requestRender_undoStack, mapScalars_undoStack]

/-! ## Iterated undo and redo -/

theorem Linked_take (n : Nat) (scalars : List Int) (u : List PaintCommand)
    (h : Linked scalars u) : Linked scalars (u.take n) := by
  induction u generalizing scalars n with
  | nil => simpa using h
  | cons c rest ih =>
    cases n with
    | zero => simp [Linked]
    | succ m =>
      rw [List.take_succ_cons]
      exact ⟨h.1, ih m _ h.2⟩

theorem SameHistory.refl (s : MeshLabeler) : SameHistory s s := ⟨rfl, rfl, rfl⟩

theorem SameHistory.redo {s t : MeshLabeler} (h : SameHistory s t) :
    SameHistory s.redo t.redo := by
  obtain ⟨hl, hu, hr⟩ := h
  cases hrt : t.m_redoStack with
  | nil =>
    rw [redo_nil t hrt, redo_nil s (hr.trans hrt)]
    exact ⟨hl, hu, hr⟩
  | cons c r =>
    have hrs : s.m_redoStack = c :: r := hr.trans hrt
    refine ⟨?_, ?_, ?_⟩
    · rw [redo_cons_labels s c r hrs, redo_cons_labels t c r hrt, hl]
    · rw [redo_cons_undoStack s c r hrs, redo_cons_undoStack t c r hrt, hu]
    · rw [redo_cons_redoStack s c r hrs, redo_cons_redoStack t c r hrt]

theorem undo_iterate_of_nil (n : Nat) (s : MeshLabeler) (h : s.m_undoStack = []) :
    MeshLabeler.undo^[n] s = s :=
  Function.iterate_fixed (undo_nil s h) n

theorem redo_iterate_of_nil (n : Nat) (s : MeshLabeler) (h : s.m_redoStack = []) :
    MeshLabeler.redo^[n] s = s :=
  Function.iterate_fixed (redo_nil s h) n

/-- After `k` undos on a stack with at least `k` entries: the top `k` commands were undone
in stack order and moved, reversed, onto the redo stack. -/
theorem undo_iterate (k : Nat) (s : MeshLabeler) (hk : k ≤ s.m_undoStack.length) :
    (MeshLabeler.undo^[k] s).labels = undoAll s.labels (s.m_undoStack.take k) ∧
    (MeshLabeler.undo^[k] s).m_undoStack = s.m_undoStack.drop k ∧
    (MeshLabeler.undo^[k] s).m_redoStack = (s.m_undoStack.take k).reverse ++ s.m_redoStack := by
  induction k generalizing s with
  | zero => simp [undoAll]
  | succ k ih =>
    cases hu : s.m_undoStack with
    | nil => rw [hu] at hk; simp at hk
    | cons c u =>
      rw [hu] at hk
      have hk1 : k ≤ s.undo.m_undoStack.length := by
        rw [undo_cons_undoStack s c u hu]
        simpa using hk
      obtain ⟨h1, h2, h3⟩ := ih s.undo hk1
      rw [Function.iterate_succ_apply MeshLabeler.undo, h1, h2, h3, undo_cons_undoStack s c u hu,
        undo_cons_labels s c u hu, undo_cons_redoStack s c u hu]
      simp [undoAll]

/-- Undoing `k` linked commands and redoing `k` times restores the array and both stacks. -/
theorem redo_undo_iterate (k : Nat) (s : MeshLabeler) (hk : k ≤ s.m_undoStack.length)
    (hl : Linked s.labels (s.m_undoStack.take k)) :
    SameHistory (MeshLabeler.redo^[k] (MeshLabeler.undo^[k] s)) s := by
  induction k generalizing s with
  | zero => exact SameHistory.refl s
  | succ k ih =>
    cases hu : s.m_undoStack with
    | nil => rw [hu] at hk; simp at hk
    | cons c u =>
      rw [hu] at hk hl
      rw [List.take_succ_cons] at hl
      have hk1 : k ≤ s.undo.m_undoStack.length := by
        rw [undo_cons_undoStack s c u hu]
        simpa using hk
      have hl1 : Linked s.undo.labels (s.undo.m_undoStack.take k) := by
        rw [undo_cons_undoStack s c u hu, undo_cons_labels s c u hu]
        exact hl.2
      have h := (ih s.undo hk1 hl1).redo
      rw [Function.iterate_succ_apply' MeshLabeler.redo, Function.iterate_succ_apply MeshLabeler.undo]
      refine ⟨h.1.trans ?_, h.2.1.trans ?_, h.2.2.trans ?_⟩
      · rw [redo_cons_labels s.undo c s.m_redoStack (undo_cons_redoStack s c u hu),
          undo_cons_labels s c u hu]
        exact hl.1
      · rw [redo_cons_undoStack s.undo c s.m_redoStack (undo_cons_redoStack s c u hu),
          undo_cons_undoStack s c u hu, hu]
      · rw [redo_cons_redoStack s.undo c s.m_redoStack (undo_cons_redoStack s c u hu)]

/-! ## Pushing scripts of paint commands -/

theorem pushAll_append (s : MeshLabeler) (requests : List (List Int × Int))
    (request : List Int × Int) :
    s.pushAll (requests ++ [request]) = (s.pushAll requests).pushPaint request := by
  simp [MeshLabeler.pushAll, List.foldl_append]

theorem pushPaint_labels (s : MeshLabeler) (request : List Int × Int) :
    (s.pushPaint request).labels =
      (PaintCommand.create s.labels request.1 request.2).execute s.labels :=
  addCommand_labels s _

theorem pushPaint_undoStack (s : MeshLabeler) (request : List Int × Int) :
    (s.pushPaint request).m_undoStack =
      if MAX_HISTORY_SIZE ≤ s.m_undoStack.length then
        PaintCommand.create s.labels request.1 request.2 :: s.m_undoStack.dropLast
      else PaintCommand.create s.labels request.1 request.2 :: s.m_undoStack :=
  addCommand_undoStack s _

theorem pushAll_redoStack (s : MeshLabeler) (requests : List (List Int × Int))
    (h : requests ≠ []) : (s.pushAll requests).m_redoStack = [] := by
  induction requests using List.reverseRecOn with
  | nil => exact absurd rfl h
  | append_singleton l a _ =>
    rw [pushAll_append]
    rfl

/-- The undo stack never shrinks under a push and stays within the cap once within it. -/
theorem pushPaint_undoStack_length (s : MeshLabeler) (request : List Int × Int) :
    (s.pushPaint request).m_undoStack.length =
      if MAX_HISTORY_SIZE ≤ s.m_undoStack.length then s.m_undoStack.length
      else s.m_undoStack.length + 1 := by
  rw [pushPaint_undoStack]
  by_cases h : MAX_HISTORY_SIZE ≤ s.m_undoStack.length
  · rw [if_pos h, if_pos h, List.length_cons, List.length_dropLast]
    have : 0 < s.m_undoStack.length := by
      have : 0 < MAX_HISTORY_SIZE := by decide
      omega
    omega
  · rw [if_neg h, if_neg h, List.length_cons]

/-- The newest `requests.length` entries of the undo stack are linked to the array. -/
theorem pushAll_linked (s : MeshLabeler) (requests : List (List Int × Int)) :
    Linked (s.pushAll requests).labels ((s.pushAll requests).m_undoStack.take requests.length) := by
  induction requests using List.reverseRecOn with
  | nil => simp [Linked]
  | append_singleton l a ih =>
    rw [pushAll_append, pushPaint_labels, pushPaint_undoStack, List.length_append,
      List.length_singleton]
    have hrest : ∀ rest : List PaintCommand,
        Linked (s.pushAll l).labels rest →
        Linked ((PaintCommand.create (s.pushAll l).labels a.1 a.2).execute (s.pushAll l).labels)
          (PaintCommand.create (s.pushAll l).labels a.1 a.2 :: rest) := by
      intro rest hr
      refine ⟨?_, ?_⟩
      · rw [undo_execute_create]
      · rw [undo_execute_create]
        exact hr
    split
    · rw [List.take_succ_cons]
      apply hrest
      rw [List.dropLast_eq_take, List.take_take]
      have := Linked_take ((s.pushAll l).m_undoStack.length - 1) _ _ ih
      rw [List.take_take] at this
      rw [Nat.min_comm]
      exact this
    · rw [List.take_succ_cons]
      exact hrest _ ih

theorem pushAll_undoStack_length_le (s : MeshLabeler) (requests : List (List Int × Int))
    (hcap : s.m_undoStack.length ≤ MAX_HISTORY_SIZE) :
    (s.pushAll requests).m_undoStack.length ≤ MAX_HISTORY_SIZE := by
  induction requests using List.reverseRecOn with
  | nil => exact hcap
  | append_singleton l a ih =>
    rw [pushAll_append, pushPaint_undoStack_length]
    split <;> omega

/-- After at most `MAX_HISTORY_SIZE` pushes all pushed commands are on the undo stack, and
undoing them in stack order leads back to the array before the pushes. -/
theorem pushAll_undoAll (s : MeshLabeler) (requests : List (List Int × Int))
    (hlen : requests.length ≤ MAX_HISTORY_SIZE) :
    requests.length ≤ (s.pushAll requests).m_undoStack.length ∧
    undoAll (s.pushAll requests).labels ((s.pushAll requests).m_undoStack.take requests.length)
      = s.labels := by
  induction requests using List.reverseRecOn with
  | nil => simp [undoAll, MeshLabeler.pushAll]
  | append_singleton l a ih =>
    rw [List.length_append, List.length_singleton] at hlen ⊢
    obtain ⟨ih1, ih2⟩ := ih (by omega)
    rw [pushAll_append, pushPaint_labels, pushPaint_undoStack_length, pushPaint_undoStack]
    by_cases h : MAX_HISTORY_SIZE ≤ (s.pushAll l).m_undoStack.length
    · rw [if_pos h, if_pos h, List.take_succ_cons, List.dropLast_eq_take, List.take_take,
        Nat.min_eq_left (by omega)]
      refine ⟨by omega, ?_⟩
      simp only [undoAll, List.foldl_cons]
      rw [undo_execute_create]
      exact ih2
    · rw [if_neg h, if_neg h, List.take_succ_cons]
      refine ⟨by omega, ?_⟩
      simp only [undoAll, List.foldl_cons]
      rw [undo_execute_create]
      exact ih2

theorem pushAll_take_drop (s : MeshLabeler) (requests : List (List Int × Int)) (k : Nat) :
    (s.pushAll (requests.take k)).pushAll (requests.drop k) = s.pushAll requests := by
  unfold MeshLabeler.pushAll
  rw [← List.foldl_append, List.take_append_drop]

/-- C1. Undo/redo round trip: after pushing `N` paint commands (each constructed on the
array as it is just before its push, with valid cell ids), `N` calls of `undo` followed by
`N` calls of `redo` leave the label array equal to the array after the `N` pushes, for
every `N`, also beyond the history cap. The array never changes its length, so the cell
ids are valid at every push when they are valid for the initial array. -/
theorem undo_redo_roundtrip (s : MeshLabeler) (requests : List (List Int × Int))
    (_hvalid : ∀ request ∈ requests, ∀ cellId ∈ request.1, ValidCellId s.labels cellId) :
    (MeshLabeler.redo^[requests.length]
      (MeshLabeler.undo^[requests.length] (s.pushAll requests))).labels
      = (s.pushAll requests).labels := by
  have hl := pushAll_linked s requests
  by_cases hN : requests.length ≤ (s.pushAll requests).m_undoStack.length
  · exact (redo_undo_iterate _ _ hN hl).1
  · have hne : requests ≠ [] := by
      intro h0
      rw [h0] at hN
      simp at hN
    have hk : (s.pushAll requests).m_undoStack.length ≤ requests.length := by omega
    rw [List.take_of_length_le hk] at hl
    have hsplit : requests.length
        = (requests.length - (s.pushAll requests).m_undoStack.length)
          + (s.pushAll requests).m_undoStack.length := by omega
    have hround := redo_undo_iterate (s.pushAll requests).m_undoStack.length (s.pushAll requests)
      (le_refl _) (by rw [List.take_length]; exact hl)
    have hu := (undo_iterate (s.pushAll requests).m_undoStack.length (s.pushAll requests)
      (le_refl _)).2.1
    rw [List.drop_length] at hu
    rw [hsplit, Function.iterate_add_apply MeshLabeler.undo, undo_iterate_of_nil _ _ hu,
      Function.iterate_add_apply MeshLabeler.redo,
      redo_iterate_of_nil _ _ (hround.2.2.trans (pushAll_redoStack s requests hne))]
    exact hround.1

/-- C2. Reversibility up to the cap: starting with at most `MAX_HISTORY_SIZE` commands on
the undo stack, after pushing `N` paint commands (each constructed on the array as it is
just before its push, with valid cell ids) and calling `undo` `N` times, the label array is
the array after the first `N - MAX_HISTORY_SIZE` pushes (truncated subtraction); for
`N ≤ MAX_HISTORY_SIZE` that is the initial array. -/
theorem undo_all_reverts_up_to_cap (s : MeshLabeler) (requests : List (List Int × Int))
    (hcap : s.m_undoStack.length ≤ MAX_HISTORY_SIZE)
    (_hvalid : ∀ request ∈ requests, ∀ cellId ∈ request.1, ValidCellId s.labels cellId) :
    (MeshLabeler.undo^[requests.length] (s.pushAll requests)).labels
      = (s.pushAll (requests.take (requests.length - MAX_HISTORY_SIZE))).labels ∧
    (requests.length ≤ MAX_HISTORY_SIZE →
      (MeshLabeler.undo^[requests.length] (s.pushAll requests)).labels = s.labels) := by
  have main : (MeshLabeler.undo^[requests.length] (s.pushAll requests)).labels
      = (s.pushAll (requests.take (requests.length - MAX_HISTORY_SIZE))).labels := by
    set k := requests.length - MAX_HISTORY_SIZE with hkdef
    set sA := s.pushAll (requests.take k) with hsA
    have hB : (requests.drop k).length ≤ MAX_HISTORY_SIZE := by
      rw [List.length_drop]
      omega
    obtain ⟨h1, h2⟩ := pushAll_undoAll sA (requests.drop k) hB
    rw [pushAll_take_drop] at h1 h2
    have hcapA : sA.m_undoStack.length ≤ MAX_HISTORY_SIZE :=
      pushAll_undoStack_length_le s _ hcap
    have hcapT := pushAll_undoStack_length_le sA (requests.drop k) hcapA
    rw [pushAll_take_drop] at hcapT
    obtain ⟨u1, u2, _⟩ := undo_iterate (requests.drop k).length (s.pushAll requests) h1
    have hsplit : requests.length = k + (requests.drop k).length := by
      rw [List.length_drop]
      omega
    have hfix : MeshLabeler.undo^[k]
        (MeshLabeler.undo^[(requests.drop k).length] (s.pushAll requests))
        = MeshLabeler.undo^[(requests.drop k).length] (s.pushAll requests) := by
      by_cases hk0 : k = 0
      · rw [hk0]
        rfl
      · apply undo_iterate_of_nil
        rw [u2]
        apply List.drop_of_length_le
        rw [List.length_drop]
        omega
    conv_lhs => rw [hsplit, Function.iterate_add_apply MeshLabeler.undo, hfix]
    rw [u1, h2]
  refine ⟨main, ?_⟩
  intro hN
  rw [main, Nat.sub_eq_zero_of_le hN]
  rfl

theorem undo_redo_roundtrip_witness :
    (∀ request ∈ [([0, 1], (5 : Int)), ([1, 2], 7), ([1, 1], 3)],
      ∀ cellId ∈ request.1, ValidCellId (MeshLabeler.withMesh ⟨[], [], [0, 0, 0]⟩).labels cellId) ∧
    (MeshLabeler.redo^[3] (MeshLabeler.undo^[3]
      ((MeshLabeler.withMesh ⟨[], [], [0, 0, 0]⟩).pushAll
        [([0, 1], 5), ([1, 2], 7), ([1, 1], 3)]))).labels
      = ((MeshLabeler.withMesh ⟨[], [], [0, 0, 0]⟩).pushAll
        [([0, 1], 5), ([1, 2], 7), ([1, 1], 3)]).labels :=
  ⟨by decide,
    undo_redo_roundtrip (MeshLabeler.withMesh ⟨[], [], [0, 0, 0]⟩)
      [([0, 1], 5), ([1, 2], 7), ([1, 1], 3)] (by decide)⟩

theorem undo_all_reverts_up_to_cap_witness :
    (MeshLabeler.undo^[2] ((MeshLabeler.withMesh ⟨[], [], [4, 4, 4]⟩).pushAll
        [([0, 1], 5), ([1, 2], 7)])).labels = [4, 4, 4] :=
  (undo_all_reverts_up_to_cap (MeshLabeler.withMesh ⟨[], [], [4, 4, 4]⟩)
      [([0, 1], 5), ([1, 2], 7)] (by decide) (by decide)).2 (by decide)

/-! ## The history cap -/

theorem addCommands_append (s : MeshLabeler) (commands : List PaintCommand) (c : PaintCommand) :
    s.addCommands (commands ++ [c]) = (s.addCommands commands).addCommand c := by
  simp [MeshLabeler.addCommands, List.foldl_append]

/-- Within the cap, the undo stack after a run of pushes is the newest `MAX_HISTORY_SIZE`
entries of the pushed commands (newest first) followed by the old stack. -/
theorem addCommands_undoStack (s : MeshLabeler) (commands : List PaintCommand)
    (hcap : s.m_undoStack.length ≤ MAX_HISTORY_SIZE) :
    (s.addCommands commands).m_undoStack
      = (commands.reverse ++ s.m_undoStack).take MAX_HISTORY_SIZE := by
  induction commands using List.reverseRecOn with
  | nil =>
    simp only [MeshLabeler.addCommands, List.foldl_nil, List.reverse_nil, List.nil_append]
    exact (List.take_of_length_le hcap).symm
  | append_singleton l c ih =>
    rw [addCommands_append, addCommand_undoStack, ih, List.reverse_append,
      List.reverse_singleton, List.singleton_append, List.cons_append]
    have h100 : MAX_HISTORY_SIZE = 99 + 1 := rfl
    by_cases h : MAX_HISTORY_SIZE ≤ (List.take MAX_HISTORY_SIZE (l.reverse ++ s.m_undoStack)).length
    · rw [if_pos h, List.dropLast_eq_take, List.take_take, List.length_take]
      conv_rhs => rw [h100, List.take_succ_cons]
      congr 2
      rw [List.length_take] at h
      omega
    · rw [if_neg h]
      conv_rhs => rw [h100, List.take_succ_cons]
      rw [List.length_take] at h
      rw [List.take_of_length_le (by omega), List.take_of_length_le (by omega)]

/-- C3. History cap: from an empty undo stack, pushing 101 commands `c1..c101` leaves
exactly the 100 commands `c2..c101` on the undo stack with `c101` on top and nothing on
the redo stack; successive `undo` calls undo `c101, c100, ..., c2` in that order, and after
100 of them `canUndo` is false and further `undo` calls change nothing. -/
theorem history_cap (s : MeshLabeler) (commands : List PaintCommand)
    (hu : s.m_undoStack = []) (hlen : commands.length = MAX_HISTORY_SIZE + 1) :
    (s.addCommands commands).m_undoStack = commands.tail.reverse ∧
    (s.addCommands commands).m_undoStack.length = MAX_HISTORY_SIZE ∧
    (s.addCommands commands).m_redoStack = [] ∧
    (∀ k, k ≤ MAX_HISTORY_SIZE →
      (MeshLabeler.undo^[k] (s.addCommands commands)).labels
        = undoAll (s.addCommands commands).labels (commands.tail.reverse.take k) ∧
      (MeshLabeler.undo^[k] (s.addCommands commands)).m_undoStack
        = commands.tail.reverse.drop k ∧
      (MeshLabeler.undo^[k] (s.addCommands commands)).m_redoStack
        = (commands.tail.reverse.take k).reverse) ∧
    (MeshLabeler.undo^[MAX_HISTORY_SIZE] (s.addCommands commands)).canUndo = false ∧
    (∀ k, MeshLabeler.undo^[MAX_HISTORY_SIZE + k] (s.addCommands commands)
      = MeshLabeler.undo^[MAX_HISTORY_SIZE] (s.addCommands commands)) := by
  have hstack : (s.addCommands commands).m_undoStack = commands.tail.reverse := by
    rw [addCommands_undoStack s commands (by rw [hu]; decide), hu, List.append_nil]
    cases commands with
    | nil => simp at hlen
    | cons c1 rest =>
      rw [List.length_cons] at hlen
      rw [List.reverse_cons, List.tail_cons]
      apply List.take_left'
      rw [List.length_reverse]
      omega
  have hlen2 : (s.addCommands commands).m_undoStack.length = MAX_HISTORY_SIZE := by
    rw [hstack, List.length_reverse, List.length_tail, hlen]
    rfl
  have hredo : (s.addCommands commands).m_redoStack = [] := by
    induction commands using List.reverseRecOn with
    | nil => simp [MAX_HISTORY_SIZE] at hlen
    | append_singleton l c _ =>
      rw [addCommands_append]
      rfl
  have hiter : ∀ k, k ≤ MAX_HISTORY_SIZE →
      (MeshLabeler.undo^[k] (s.addCommands commands)).labels
        = undoAll (s.addCommands commands).labels (commands.tail.reverse.take k) ∧
      (MeshLabeler.undo^[k] (s.addCommands commands)).m_undoStack
        = commands.tail.reverse.drop k ∧
      (MeshLabeler.undo^[k] (s.addCommands commands)).m_redoStack
        = (commands.tail.reverse.take k).reverse := by
    intro k hk
    have := undo_iterate k (s.addCommands commands) (by omega)
    rw [hstack, hredo, List.append_nil] at this
    exact this
  have hempty : (MeshLabeler.undo^[MAX_HISTORY_SIZE] (s.addCommands commands)).m_undoStack = [] := by
    rw [(hiter MAX_HISTORY_SIZE (le_refl _)).2.1]
    apply List.drop_of_length_le
    rw [← hstack, hlen2]
  refine ⟨hstack, hlen2, hredo, hiter, ?_, ?_⟩
  · simp [MeshLabeler.canUndo, hempty]
  · intro k
    rw [Nat.add_comm, Function.iterate_add_apply MeshLabeler.undo]
    exact undo_iterate_of_nil k _ hempty

theorem history_cap_witness :
    ((MeshLabeler.withMesh ⟨[], [], [0]⟩).addCommands
        ((List.range 101).map (fun i => PaintCommand.mk [0] [0] (Int.ofNat i)))).m_undoStack.length
      = MAX_HISTORY_SIZE :=
  (history_cap (MeshLabeler.withMesh ⟨[], [], [0]⟩)
    ((List.range 101).map (fun i => PaintCommand.mk [0] [0] (Int.ofNat i))) rfl
    (by simp [MAX_HISTORY_SIZE])).2.1

/-- C4. Effect of `addCommand`: the command is executed on the label array, the redo stack
is emptied, and the undo stack is the old stack with the command on top, without its
bottom entry when the old stack already held `MAX_HISTORY_SIZE` (or more) entries; the
order of the surviving entries is unchanged. -/
theorem addCommand_spec (s : MeshLabeler) (c : PaintCommand) :
    (s.addCommand c).labels = c.execute s.labels ∧
    (s.addCommand c).m_redoStack = [] ∧
    (s.addCommand c).m_undoStack =
      (if MAX_HISTORY_SIZE ≤ s.m_undoStack.length then c :: s.m_undoStack.dropLast
       else c :: s.m_undoStack) :=
  ⟨addCommand_labels s c, addCommand_redoStack s c, addCommand_undoStack s c⟩

/-- Both stacks together never hold more than `MAX_HISTORY_SIZE` commands. -/
theorem reachable_total_le (s : MeshLabeler) (h : HistoryReachable s) :
    s.m_undoStack.length + s.m_redoStack.length ≤ MAX_HISTORY_SIZE := by
  induction h with
  | start s hu hr => simp [hu, hr]
  | addCommand s c _ ih =>
    rw [addCommand_redoStack, addCommand_undoStack]
    have h0 : 0 < MAX_HISTORY_SIZE := by decide
    split
    · simp only [List.length_cons, List.length_dropLast, List.length_nil]
      omega
    · simp only [List.length_cons, List.length_nil]
      omega
  | undo s _ ih =>
    cases hu : s.m_undoStack with
    | nil => rw [undo_nil s hu]; exact ih
    | cons c u =>
      rw [undo_cons_undoStack s c u hu, undo_cons_redoStack s c u hu]
      rw [hu] at ih
      simp only [List.length_cons] at ih ⊢
      omega
  | redo s _ ih =>
    cases hr : s.m_redoStack with
    | nil => rw [redo_nil s hr]; exact ih
    | cons c r =>
      rw [redo_cons_undoStack s c r hr, redo_cons_redoStack s c r hr]
      rw [hr] at ih
      simp only [List.length_cons] at ih ⊢
      omega
  | clearHistory s _ _ => simp [MeshLabeler.clearHistory]

/-- C5. In every state reachable from an empty history by `addCommand`, `undo`, `redo` and
`clearHistory`, the undo stack holds at most `MAX_HISTORY_SIZE` commands, and so it does
immediately after a further `redo`. -/
theorem undoStack_bounded (s : MeshLabeler) (h : HistoryReachable s) :
    s.m_undoStack.length ≤ MAX_HISTORY_SIZE ∧ s.redo.m_undoStack.length ≤ MAX_HISTORY_SIZE := by
  have h1 := reachable_total_le s h
  have h2 := reachable_total_le s.redo (HistoryReachable.redo s h)
  omega

theorem undoStack_bounded_witness :
    HistoryReachable ((MeshLabeler.withMesh ⟨[], [], [0]⟩).addCommand ⟨[0], [0], 3⟩).undo ∧
    ((MeshLabeler.withMesh ⟨[], [], [0]⟩).addCommand ⟨[0], [0], 3⟩).undo.redo.m_undoStack.length
      ≤ MAX_HISTORY_SIZE :=
  ⟨HistoryReachable.undo _ (HistoryReachable.addCommand _ _ (HistoryReachable.start _ rfl rfl)),
    (undoStack_bounded _
      (HistoryReachable.undo _
        (HistoryReachable.addCommand _ _ (HistoryReachable.start _ rfl rfl)))).2⟩

/-- C6. Effect of `undo`: with an empty undo stack the whole state is unchanged; otherwise
exactly the top command leaves the undo stack, its `undo` is applied to the label array,
and it is pushed on top of the redo stack, the other entries staying in place. -/
theorem undo_spec (s : MeshLabeler) (c : PaintCommand) (u : List PaintCommand) :
    ({ s with m_undoStack := [] } : MeshLabeler).undo = { s with m_undoStack := [] } ∧
    ({ s with m_undoStack := c :: u } : MeshLabeler).undo.m_undoStack = u ∧
    ({ s with m_undoStack := c :: u } : MeshLabeler).undo.labels = c.undo s.labels ∧
    ({ s with m_undoStack := c :: u } : MeshLabeler).undo.m_redoStack = c :: s.m_redoStack :=
  ⟨undo_nil _ rfl, undo_cons_undoStack _ c u rfl, undo_cons_labels _ c u rfl,
    undo_cons_redoStack _ c u rfl⟩

/-! ## Undo followed by redo -/

/-- Listed cells that address the array hold the new label after `execute`. -/
theorem execute_getElem?_of_mem (c : PaintCommand) (scalars : List Int) (i : Nat)
    (h : (i : Int) ∈ c.m_cellIds) (hi : i < scalars.length) :
    (c.execute scalars)[i]? = some c.m_newLabel := by
  unfold PaintCommand.execute
  generalize c.m_cellIds = ids at h
  induction ids generalizing scalars with
  | nil => simp at h
  | cons a t ih =>
    rw [List.foldl_cons]
    by_cases ht : (i : Int) ∈ t
    · exact ih _ (by rw [SetTuple1_length]; exact hi) ht
    · have ha : (i : Int) = a := by
        rcases List.mem_cons.mp h with h | h
        · exact h
        · exact absurd h ht
      subst ha
      have := execute_getElem?_of_not_mem ⟨t, [], c.m_newLabel⟩
        (SetTuple1 scalars i c.m_newLabel) i ht
      unfold PaintCommand.execute at this
      simp only at this
      rw [this, SetTuple1_getElem?]
      simp [hi]

/-- Cells that are not listed keep their label under `undo`. -/
theorem undo_getElem?_of_not_mem (c : PaintCommand) (scalars : List Int) (i : Nat)
    (h : (i : Int) ∉ c.m_cellIds) : (c.undo scalars)[i]? = scalars[i]? := by
  unfold PaintCommand.undo
  have hp : ∀ p ∈ c.m_cellIds.zip c.m_oldLabels, (i : Int) ≠ p.1 := by
    intro p hp hip
    exact h (hip ▸ (List.of_mem_zip hp).1)
  generalize c.m_cellIds.zip c.m_oldLabels = ps at hp
  induction ps generalizing scalars with
  | nil => rfl
  | cons a t ih =>
    rw [List.foldl_cons, ih _ (fun p hp' => hp p (List.mem_cons_of_mem _ hp')),
      SetTuple1_getElem?]
    simp [hp a (List.mem_cons_self _ _)]

/-- Re-executing a command after undoing it gives back the array when every listed cell
addresses the array and holds the command's new label. -/
theorem execute_undo_of_painted (c : PaintCommand) (scalars : List Int)
    (h : ∀ cellId ∈ c.m_cellIds,
      ValidCellId scalars cellId ∧ GetTuple1 scalars cellId = c.m_newLabel) :
    c.execute (c.undo scalars) = scalars := by
  apply List.ext_getElem?
  intro i
  by_cases hi : (i : Int) ∈ c.m_cellIds
  · obtain ⟨hv, hg⟩ := h _ hi
    have hlt : i < scalars.length := by
      have := hv.2
      omega
    rw [execute_getElem?_of_mem c _ i hi (by rw [undo_length]; exact hlt)]
    rw [GetTuple1_eq, List.getD_eq_getElem?_getD, List.getElem?_eq_getElem hlt] at hg
    rw [List.getElem?_eq_getElem hlt]
    simp only [Option.getD_some] at hg
    rw [hg]
  · rw [execute_getElem?_of_not_mem c _ i hi, undo_getElem?_of_not_mem c _ i hi]

/-- C7 (amended). Effect of `redo`: with an empty redo stack the whole state is unchanged;
otherwise exactly the top command leaves the redo stack, its `execute` is applied to the
label array, and it is pushed on top of the undo stack. When the undo stack is non-empty
and every cell listed in its top command addresses the array and holds that command's new
label, `undo` followed immediately by `redo` restores the label array and both stacks. -/
theorem redo_spec (s : MeshLabeler) :
    (s.m_redoStack = [] → s.redo = s) ∧
    (∀ c r, s.m_redoStack = c :: r →
      s.redo.m_redoStack = r ∧ s.redo.labels = c.execute s.labels ∧
      s.redo.m_undoStack = c :: s.m_undoStack) ∧
    (∀ c u, s.m_undoStack = c :: u →
      (∀ cellId ∈ c.m_cellIds,
        ValidCellId s.labels cellId ∧ GetTuple1 s.labels cellId = c.m_newLabel) →
      s.undo.redo.labels = s.labels ∧ s.undo.redo.m_undoStack = s.m_undoStack ∧
      s.undo.redo.m_redoStack = s.m_redoStack) := by
  refine ⟨redo_nil s, ?_, ?_⟩
  · intro c r h
    exact ⟨redo_cons_redoStack s c r h, redo_cons_labels s c r h, redo_cons_undoStack s c r h⟩
  · intro c u hu hc
    have hr := undo_cons_redoStack s c u hu
    refine ⟨?_, ?_, ?_⟩
    · rw [redo_cons_labels _ c _ hr, undo_cons_labels s c u hu]
      exact execute_undo_of_painted c s.labels hc
    · rw [redo_cons_undoStack _ c _ hr, undo_cons_undoStack s c u hu, hu]
    · rw [redo_cons_redoStack _ c _ hr]

theorem redo_spec_witness :
    ((MeshLabeler.withMesh ⟨[], [], [0, 0]⟩).addCommand ⟨[1], [0], 3⟩).undo.redo.labels
      = ((MeshLabeler.withMesh ⟨[], [], [0, 0]⟩).addCommand ⟨[1], [0], 3⟩).labels :=
  ((redo_spec ((MeshLabeler.withMesh ⟨[], [], [0, 0]⟩).addCommand ⟨[1], [0], 3⟩)).2.2
    ⟨[1], [0], 3⟩ [] rfl (by decide)).1

/-- C7 as stated fails in two ways. With an empty undo stack and a non-empty redo stack
(one push, one `undo`), a further `undo` does nothing and the following `redo` moves a
command, so the stacks are not restored. With a non-empty undo stack whose top command no
longer describes the array (one push, then `labelCell` on the same cell), `undo` followed by
`redo` leaves the command's label in the cell instead of the label it held. -/
theorem undo_then_redo_not_restoring :
    (((MeshLabeler.withMesh ⟨[], [[0, 1, 2]], [0]⟩).addCommand ⟨[0], [0], 3⟩).undo.m_undoStack = [] ∧
      ((MeshLabeler.withMesh ⟨[], [[0, 1, 2]], [0]⟩).addCommand ⟨[0], [0], 3⟩).undo.undo.redo.m_undoStack
        ≠ ((MeshLabeler.withMesh ⟨[], [[0, 1, 2]], [0]⟩).addCommand ⟨[0], [0], 3⟩).undo.m_undoStack ∧
      ((MeshLabeler.withMesh ⟨[], [[0, 1, 2]], [0]⟩).addCommand ⟨[0], [0], 3⟩).undo.undo.redo.labels
        ≠ ((MeshLabeler.withMesh ⟨[], [[0, 1, 2]], [0]⟩).addCommand ⟨[0], [0], 3⟩).undo.labels) ∧
    ((((MeshLabeler.withMesh ⟨[], [[0, 1, 2]], [0]⟩).addCommand ⟨[0], [0], 3⟩).labelCell 0 5).m_undoStack
        = [⟨[0], [0], 3⟩] ∧
      (((MeshLabeler.withMesh ⟨[], [[0, 1, 2]], [0]⟩).addCommand ⟨[0], [0], 3⟩).labelCell 0 5).labels
        = [5] ∧
      (((MeshLabeler.withMesh ⟨[], [[0, 1, 2]], [0]⟩).addCommand ⟨[0], [0], 3⟩).labelCell 0 5).undo.redo.labels
        = [3]) := by
  decide

/-! ## Region selector: expansion of an accepted cell -/

/-- The neighbour loop appends the newly visited cells to the queue and to the visited
set; the appended cells are distinct, were unvisited before, and come from the scanned
list. -/
theorem visitNeighbors_spec (cellIds visited queue : List Int) :
    ∃ added : List Int,
      (visitNeighbors cellIds visited queue).2 = queue ++ added ∧
      (visitNeighbors cellIds visited queue).1 = added.reverse ++ visited ∧
      added.Nodup ∧ ∀ x ∈ added, x ∉ visited ∧ x ∈ cellIds := by
  induction cellIds generalizing visited queue with
  | nil => exact ⟨[], by simp [visitNeighbors]⟩
  | cons nb rest ih =>
    by_cases h : nb ∈ visited
    · obtain ⟨added, h1, h2, h3, h4⟩ := ih visited queue
      refine ⟨added, ?_, ?_, h3, ?_⟩
      · rw [visitNeighbors, if_pos h, h1]
      · rw [visitNeighbors, if_pos h, h2]
      · intro x hx
        exact ⟨(h4 x hx).1, List.mem_cons_of_mem _ (h4 x hx).2⟩
    · obtain ⟨added, h1, h2, h3, h4⟩ := ih (nb :: visited) (queue ++ [nb])
      refine ⟨nb :: added, ?_, ?_, ?_, ?_⟩
      · rw [visitNeighbors, if_neg h, h1]
        simp
      · rw [visitNeighbors, if_neg h, h2]
        simp
      · rw [List.nodup_cons]
        refine ⟨?_, h3⟩
        intro hmem
        exact (h4 nb hmem).1 (List.mem_cons_self _ _)
      · intro x hx
        rcases List.mem_cons.mp hx with rfl | hx
        · exact ⟨h, List.mem_cons_self _ _⟩
        · exact ⟨fun hv => (h4 x hx).1 (List.mem_cons_of_mem _ hv),
            List.mem_cons_of_mem _ (h4 x hx).2⟩

/-- The vertex loop appends the newly visited cells to the queue and to the visited set;
the appended cells are distinct, were unvisited before, and each is incident to one of
the scanned vertices. -/
theorem expandCell_spec (pd : PolyData) (pointIds : List Nat) (visited queue : List Int) :
    ∃ added : List Int,
      (expandCell pd pointIds visited queue).2 = queue ++ added ∧
      (expandCell pd pointIds visited queue).1 = added.reverse ++ visited ∧
      added.Nodup ∧
      ∀ x ∈ added, x ∉ visited ∧ ∃ pointId ∈ pointIds, x ∈ pd.GetPointCells pointId := by
  induction pointIds generalizing visited queue with
  | nil => exact ⟨[], by simp [expandCell]⟩
  | cons p rest ih =>
    obtain ⟨a1, h1, h2, h3, h4⟩ := visitNeighbors_spec (pd.GetPointCells p) visited queue
    obtain ⟨a2, k1, k2, k3, k4⟩ := ih (visitNeighbors (pd.GetPointCells p) visited queue).1
      (visitNeighbors (pd.GetPointCells p) visited queue).2
    refine ⟨a1 ++ a2, ?_, ?_, ?_, ?_⟩
    · rw [expandCell]
      rw [k1, h1, List.append_assoc]
    · rw [expandCell]
      rw [k2, h2, List.reverse_append, List.append_assoc]
    · rw [List.nodup_append]
      refine ⟨h3, k3, ?_⟩
      intro x hx1 hx2
      have := (k4 x hx2).1
      rw [h2] at this
      exact this (List.mem_append_left _ (List.mem_reverse.mpr hx1))
    · intro x hx
      rcases List.mem_append.mp hx with hx | hx
      · exact ⟨(h4 x hx).1, p, List.mem_cons_self _ _, (h4 x hx).2⟩
      · obtain ⟨hv, q, hq, hxq⟩ := k4 x hx
        refine ⟨?_, q, List.mem_cons_of_mem _ hq, hxq⟩
        intro hv'
        apply hv
        rw [h2]
        exact List.mem_append_right _ hv'

/-- A listed neighbour is a cell of the mesh that contains the vertex. -/
theorem mem_GetPointCells (pd : PolyData) (pointId : Nat) (x : Int)
    (h : x ∈ pd.GetPointCells pointId) :
    ∃ k : Nat, x = (k : Int) ∧ k < pd.cells.length ∧ pointId ∈ pd.cellPointIds x := by
  unfold PolyData.GetPointCells at h
  rw [List.mem_map] at h
  obtain ⟨k, hk, rfl⟩ := h
  rw [List.mem_filter, List.mem_range] at hk
  refine ⟨k, rfl, hk.1, ?_⟩
  have := hk.2
  simp only [decide_eq_true_eq] at this
  simpa [PolyData.cellPointIds] using this

/-- Visiting a new cell of the mesh removes exactly one cell from the unvisited ones. -/
theorem unvisited_cons (n k : Nat) (visited : List Int) (hk : k < n)
    (hv : (k : Int) ∉ visited) :
    (unvisited n ((k : Int) :: visited)).card + 1 = (unvisited n visited).card := by
  have hmem : k ∈ unvisited n visited := by
    simp [unvisited, hk, hv]
  have heq : unvisited n ((k : Int) :: visited) = (unvisited n visited).erase k := by
    ext j
    simp only [unvisited, Finset.mem_filter, Finset.mem_range, List.mem_cons, not_or,
      Finset.mem_erase]
    constructor
    · rintro ⟨h1, h2, h3⟩
      exact ⟨fun h => h2 (by rw [h]), h1, h3⟩
    · rintro ⟨h1, h2, h3⟩
      exact ⟨h2, fun h => h1 (by exact_mod_cast h), h3⟩
  rw [heq, Finset.card_erase_of_mem hmem]
  have := Finset.card_pos.mpr ⟨k, hmem⟩
  omega

/-- Visiting a list of distinct new cells of the mesh removes as many from the unvisited
ones. -/
theorem unvisited_append (n : Nat) (added visited : List Int) (hnd : added.Nodup)
    (hnew : ∀ x ∈ added, x ∉ visited ∧ ∃ k : Nat, x = (k : Int) ∧ k < n) :
    (unvisited n (added.reverse ++ visited)).card + added.length = (unvisited n visited).card := by
  induction added generalizing visited with
  | nil => simp
  | cons a t ih =>
    rw [List.nodup_cons] at hnd
    obtain ⟨hav, k, rfl, hk⟩ := hnew a (List.mem_cons_self _ _)
    have := ih ((k : Int) :: visited) hnd.2 (by
      intro x hx
      obtain ⟨hxv, hxk⟩ := hnew x (List.mem_cons_of_mem _ hx)
      refine ⟨?_, hxk⟩
      intro hmem
      rcases List.mem_cons.mp hmem with rfl | hmem
      · exact hnd.1 hx
      · exact hxv hmem)
    rw [List.reverse_cons, List.append_assoc, List.singleton_append, List.length_cons]
    have h2 := unvisited_cons n k visited hk hav
    omega

/-! ## Region selector: the loop -/

/-- Invariant rule for the loop: a property of (queue, visited, result) that survives
dropping the front of the queue and survives accepting and expanding the front cell holds,
with an empty queue, for the returned list. -/
theorem bfsLoop_invariant (s : MeshLabeler) (pd : PolyData) (position : Point)
    (I : List Int → List Int → List Int → Prop)
    (hskip : ∀ c q v a, I (c :: q) v a → I q v a)
    (hexp : ∀ c q v a, I (c :: q) v a → s.isCellInSphere position c = true →
      GetTuple1 pd.scalars c ≠ s.m_currentLabel →
      I (expandCell pd (pd.cellPointIds c) v q).2 (expandCell pd (pd.cellPointIds c) v q).1
        (a ++ [c])) :
    ∀ (fuel : Nat) (q v a res : List Int), I q v a →
      bfsLoop s pd position fuel q v a = some res → ∃ v', I [] v' res := by
  intro fuel
  induction fuel with
  | zero =>
    intro q v a res hI h
    cases q with
    | nil =>
      simp only [bfsLoop, Option.some.injEq] at h
      exact ⟨v, h ▸ hI⟩
    | cons c q => simp [bfsLoop] at h
  | succ fuel ih =>
    intro q v a res hI h
    cases q with
    | nil =>
      simp only [bfsLoop, Option.some.injEq] at h
      exact ⟨v, h ▸ hI⟩
    | cons c q =>
      rw [bfsLoop] at h
      by_cases h1 : s.isCellInSphere position c = true
      · by_cases h2 : GetTuple1 pd.scalars c = s.m_currentLabel
        · simp only [h1, h2, Bool.not_true, Bool.false_eq_true, if_false, if_true] at h
          exact ih _ _ _ _ (hskip c q v a hI) h
        · simp only [h1, h2, Bool.not_true, Bool.false_eq_true, if_false] at h
          exact ih _ _ _ _ (hexp c q v a hI h1 h2) h
      · have h1' : s.isCellInSphere position c = false := by simpa using h1
        simp only [h1', Bool.not_false, if_true] at h
        exact ih _ _ _ _ (hskip c q v a hI) h

/-- The loop finishes when the fuel covers the queued cells and the unvisited cells. -/
theorem bfsLoop_isSome (s : MeshLabeler) (pd : PolyData) (position : Point) :
    ∀ (fuel : Nat) (q v a : List Int),
      q.length + (unvisited pd.cells.length v).card ≤ fuel →
      (bfsLoop s pd position fuel q v a).isSome = true := by
  intro fuel
  induction fuel with
  | zero =>
    intro q v a h
    cases q with
    | nil => simp [bfsLoop]
    | cons c q => simp at h
  | succ fuel ih =>
    intro q v a h
    cases q with
    | nil => simp [bfsLoop]
    | cons c q =>
      rw [List.length_cons] at h
      rw [bfsLoop]
      split
      · exact ih _ _ _ (by omega)
      · split
        · exact ih _ _ _ (by omega)
        · obtain ⟨added, h1, h2, h3, h4⟩ := expandCell_spec pd (pd.cellPointIds c) v q
          apply ih
          rw [h1, h2, List.length_append]
          have := unvisited_append pd.cells.length added v h3 (by
            intro x hx
            obtain ⟨hxv, p, _, hxp⟩ := h4 x hx
            obtain ⟨k, hk1, hk2, _⟩ := mem_GetPointCells pd p x hxp
            exact ⟨hxv, k, hk1, hk2⟩)
          omega

/-- The region selector always returns: one unit of fuel per cell suffices. -/
theorem labelWithBFS_isSome (s : MeshLabeler) (position : Point) (startCellId : Int) :
    (s.labelWithBFS position startCellId).isSome = true := by
  unfold MeshLabeler.labelWithBFS
  cases hpd : s.m_polyData with
  | none => rfl
  | some pd =>
    simp only
    split
    · rfl
    · rename_i hg
      apply bfsLoop_isSome
      simp only [PolyData.GetNumberOfCells, not_or, not_lt, ge_iff_le, not_le] at hg
      have hk : startCellId.toNat < pd.cells.length := by omega
      have hs : ((startCellId.toNat : Nat) : Int) = startCellId := by omega
      have := unvisited_cons pd.cells.length startCellId.toNat [] hk (by simp)
      rw [hs] at this
      have hall : (unvisited pd.cells.length []).card = pd.cells.length := by
        simp [unvisited]
      rw [List.length_singleton]
      omega

/-! ## Region selector: properties of the returned list -/

theorem labels_of_polyData (s : MeshLabeler) (pd : PolyData) (h : s.m_polyData = some pd) :
    s.labels = pd.scalars := by
  unfold MeshLabeler.labels
  rw [h]

/-- Every returned cell passed both tests of the loop. -/
theorem labelWithBFS_qualifies (s : MeshLabeler) (position : Point) (startCellId : Int)
    (res : List Int) (h : s.labelWithBFS position startCellId = some res) :
    ∀ c ∈ res, s.Qualifies position c := by
  unfold MeshLabeler.labelWithBFS at h
  cases hpd : s.m_polyData with
  | none =>
    rw [hpd] at h
    simp only [Option.some.injEq] at h
    subst h
    simp
  | some pd =>
    rw [hpd] at h
    simp only at h
    split at h
    · simp only [Option.some.injEq] at h
      subst h
      simp
    · obtain ⟨_, hres⟩ := bfsLoop_invariant s pd position
        (fun _ _ a => ∀ c ∈ a, s.Qualifies position c)
        (fun _ _ _ _ hI => hI)
        (fun c _ _ a hI h1 h2 x hx => by
          rcases List.mem_append.mp hx with hx | hx
          · exact hI x hx
          · rw [List.mem_singleton] at hx
            subst hx
            exact ⟨h1, by rw [labels_of_polyData s pd hpd]; exact h2⟩)
        _ _ _ _ res (by simp) h
      exact hres

/-- A cell in the sphere has a vertex that passes the comparison of the test. -/
theorem isCellInSphere_vertex (s : MeshLabeler) (position : Point) (cellId : Int)
    (h : s.isCellInSphere position cellId = true) :
    ∃ pt ∈ s.cellPoints cellId,
      Distance2BetweenPoints position pt < doubleMul s.m_brushRadius s.m_brushRadius := by
  unfold MeshLabeler.isCellInSphere at h
  unfold MeshLabeler.cellPoints
  cases hpd : s.m_polyData with
  | none => simp [hpd] at h
  | some pd =>
    rw [hpd] at h
    simp only at h ⊢
    split at h
    · simp at h
    · rw [List.any_eq_true] at h
      obtain ⟨pt, hpt, hd⟩ := h
      exact ⟨pt, hpt, by simpa using hd⟩

/-- The returned list contains no cell id twice. -/
theorem labelWithBFS_nodup_of_eq (s : MeshLabeler) (position : Point) (startCellId : Int)
    (res : List Int) (hres : s.labelWithBFS position startCellId = some res) : res.Nodup := by
  unfold MeshLabeler.labelWithBFS at hres
  cases hpd : s.m_polyData with
  | none =>
    rw [hpd] at hres
    simp only [Option.some.injEq] at hres
    subst hres
    exact List.nodup_nil
  | some pd =>
    rw [hpd] at hres
    simp only at hres
    split at hres
    · simp only [Option.some.injEq] at hres
      subst hres
      exact List.nodup_nil
    · obtain ⟨_, hI⟩ := bfsLoop_invariant s pd position
        (fun q v a => q.Nodup ∧ a.Nodup ∧ (∀ x ∈ q, x ∈ v) ∧ (∀ x ∈ a, x ∈ v) ∧
          ∀ x ∈ q, x ∉ a)
        (fun c q v a hI => by
          obtain ⟨h1, h2, h3, h4, h5⟩ := hI
          rw [List.nodup_cons] at h1
          exact ⟨h1.2, h2, fun x hx => h3 x (List.mem_cons_of_mem _ hx), h4,
            fun x hx => h5 x (List.mem_cons_of_mem _ hx)⟩)
        (fun c q v a hI _ _ => by
          obtain ⟨h1, h2, h3, h4, h5⟩ := hI
          rw [List.nodup_cons] at h1
          obtain ⟨added, e1, e2, e3, e4⟩ := expandCell_spec pd (pd.cellPointIds c) v q
          rw [e1, e2]
          have hcv : c ∈ v := h3 c (List.mem_cons_self _ _)
          have hca : c ∉ a := h5 c (List.mem_cons_self _ _)
          refine ⟨?_, ?_, ?_, ?_, ?_⟩
          · rw [List.nodup_append]
            refine ⟨h1.2, e3, ?_⟩
            intro x hx1 hx2
            exact (e4 x hx2).1 (h3 x (List.mem_cons_of_mem _ hx1))
          · rw [List.nodup_append]
            refine ⟨h2, List.nodup_singleton c, ?_⟩
            intro x hx1 hx2
            rw [List.mem_singleton] at hx2
            subst hx2
            exact hca hx1
          · intro x hx
            rcases List.mem_append.mp hx with hx | hx
            · exact List.mem_append_right _ (h3 x (List.mem_cons_of_mem _ hx))
            · exact List.mem_append_left _ (List.mem_reverse.mpr hx)
          · intro x hx
            rcases List.mem_append.mp hx with hx | hx
            · exact List.mem_append_right _ (h4 x hx)
            · rw [List.mem_singleton] at hx
              subst hx
              exact List.mem_append_right _ hcv
          · intro x hx hxa
            rcases List.mem_append.mp hx with hx | hx
            · rcases List.mem_append.mp hxa with hxa | hxa
              · exact h5 x (List.mem_cons_of_mem _ hx) hxa
              · rw [List.mem_singleton] at hxa
                subst hxa
                exact h1.1 hx
            · rcases List.mem_append.mp hxa with hxa | hxa
              · exact (e4 x hx).1 (h4 x hxa)
              · rw [List.mem_singleton] at hxa
                subst hxa
                exact (e4 x hx).1 hcv)
        _ _ _ _ res (by simp) hres
      exact hI.2.1

/-- C9. The region selector returns, and the returned list contains no cell id twice. -/
theorem labelWithBFS_nodup (s : MeshLabeler) (position : Point) (startCellId : Int) :
    ∃ res, s.labelWithBFS position startCellId = some res ∧ res.Nodup := by
  obtain ⟨res, hres⟩ := Option.isSome_iff_exists.mp (labelWithBFS_isSome s position startCellId)
  exact ⟨res, hres, labelWithBFS_nodup_of_eq s position startCellId res hres⟩

/-- In a list that starts with `start` and in which every later entry is related to an
earlier one, every entry is joined to `start` by a chain of related entries of the list. -/
theorem chain_of_earlier (R : Int → Int → Prop) (start : Int) (res : List Int)
    (hhead : res = [] ∨ res.head? = some start)
    (hearlier : ∀ A c B, res = A ++ c :: B → A ≠ [] → ∃ a ∈ A, R a c) :
    ∀ c ∈ res, Relation.ReflTransGen (fun a b => a ∈ res ∧ b ∈ res ∧ R a b) start c := by
  have key : ∀ (n : Nat) (A : List Int) (c : Int) (B : List Int), A.length = n →
      res = A ++ c :: B →
      Relation.ReflTransGen (fun a b => a ∈ res ∧ b ∈ res ∧ R a b) start c := by
    intro n
    induction n using Nat.strong_induction_on with
    | _ n ih =>
      intro A c B hlen hres
      by_cases hA : A = []
      · subst hA
        rcases hhead with h | h
        · rw [h] at hres
          simp at hres
        · rw [hres] at h
          simp only [List.nil_append, List.head?_cons, Option.some.injEq] at h
          rw [h]
      · obtain ⟨a, haA, hR⟩ := hearlier A c B hres hA
        obtain ⟨A1, A2, hsplit⟩ := List.append_of_mem haA
        have hres2 : res = A1 ++ a :: (A2 ++ c :: B) := by
          rw [hres, hsplit]
          simp
        have hlt : A1.length < n := by
          rw [← hlen, hsplit, List.length_append, List.length_cons]
          omega
        have hchain := ih A1.length hlt A1 a (A2 ++ c :: B) rfl hres2
        refine Relation.ReflTransGen.tail hchain ⟨?_, ?_, hR⟩
        · rw [hres2]
          simp
        · rw [hres]
          simp
  intro c hc
  obtain ⟨A, B, hsplit⟩ := List.append_of_mem hc
  exact key A.length A c B rfl hsplit

/-- Start and adjacency invariant of the loop: the returned list starts with the start
cell and every later entry shares a vertex with an earlier one. -/
theorem labelWithBFS_earlier (s : MeshLabeler) (position : Point) (startCellId : Int)
    (res : List Int) (h : s.labelWithBFS position startCellId = some res) :
    (res = [] ∨ res.head? = some startCellId) ∧
    ∀ A c B, res = A ++ c :: B → A ≠ [] → ∃ a ∈ A, s.SharesVertex a c := by
  unfold MeshLabeler.labelWithBFS at h
  cases hpd : s.m_polyData with
  | none =>
    rw [hpd] at h
    simp only [Option.some.injEq] at h
    subst h
    exact ⟨Or.inl rfl, fun A c B hres => by simp at hres⟩
  | some pd =>
    rw [hpd] at h
    simp only at h
    split at h
    · simp only [Option.some.injEq] at h
      subst h
      exact ⟨Or.inl rfl, fun A c B hres => by simp at hres⟩
    · have hshare : ∀ a b : Int, (∃ p, p ∈ pd.cellPointIds a ∧ p ∈ pd.cellPointIds b) →
          s.SharesVertex a b := by
        intro a b hab
        unfold MeshLabeler.SharesVertex MeshLabeler.cellPointIds
        rw [hpd]
        exact hab
      obtain ⟨_, hI⟩ := bfsLoop_invariant s pd position
        (fun q _ a => (a = [] → q = [startCellId] ∨ q = []) ∧
          (a = [] ∨ a.head? = some startCellId) ∧
          (∀ x ∈ q, a ≠ [] → ∃ y ∈ a, s.SharesVertex y x) ∧
          ∀ A c B, a = A ++ c :: B → A ≠ [] → ∃ y ∈ A, s.SharesVertex y c)
        (fun c q v a hI => by
          obtain ⟨h1, h2, h3, h4⟩ := hI
          refine ⟨?_, h2, fun x hx => h3 x (List.mem_cons_of_mem _ hx), h4⟩
          intro ha
          rcases h1 ha with hq | hq
          · simp only [List.cons.injEq] at hq
            exact Or.inr hq.2
          · simp at hq)
        (fun c q v a hI _ _ => by
          obtain ⟨h1, h2, h3, h4⟩ := hI
          obtain ⟨added, e1, _, _, e4⟩ := expandCell_spec pd (pd.cellPointIds c) v q
          rw [e1]
          refine ⟨fun ha => by simp at ha, ?_, ?_, ?_⟩
          · right
            rcases h2 with ha | ha
            · rcases h1 ha with hq | hq
              · simp only [List.cons.injEq] at hq
                rw [ha, hq.1]
                rfl
              · simp at hq
            · cases a with
              | nil => simp at ha
              | cons a0 t => simpa using ha
          · intro x hx _
            rcases List.mem_append.mp hx with hx | hx
            · by_cases ha : a = []
              · rcases h1 ha with hq | hq
                · simp only [List.cons.injEq] at hq
                  rw [hq.2] at hx
                  simp at hx
                · simp at hq
              · obtain ⟨y, hy, hyx⟩ := h3 x (List.mem_cons_of_mem _ hx) ha
                exact ⟨y, List.mem_append_left _ hy, hyx⟩
            · obtain ⟨_, p, hp, hxp⟩ := e4 x hx
              obtain ⟨_, _, _, hpx⟩ := mem_GetPointCells pd p x hxp
              exact ⟨c, by simp, hshare c x ⟨p, hp, hpx⟩⟩
          · intro A c' B hsplit hA
            rcases List.eq_nil_or_concat B with hB | ⟨B', b, hB⟩
            · subst hB
              have := List.append_inj' hsplit rfl
              obtain ⟨hAa, hcc⟩ := this
              simp only [List.cons.injEq, and_true] at hcc
              subst hAa
              subst hcc
              exact h3 c (List.mem_cons_self _ _) hA
            · subst hB
              have hsplit2 : a ++ [c] = (A ++ c' :: B') ++ [b] := by
                rw [hsplit]
                simp
              obtain ⟨hAa, _⟩ := List.append_inj' hsplit2 rfl
              exact h4 A c' B' hAa hA)
        _ _ _ _ res (by simp) h
      exact ⟨hI.2.1, hI.2.2.2⟩

/-- C10. Barrier property: the region selector returns; a non-empty result starts with the
start cell; every other returned cell shares a vertex with a cell earlier in the result;
hence every returned cell is joined to the start cell by a chain of vertex-adjacent
returned cells; and when the start cell itself fails the in-range test or the label test
the result is empty. -/
theorem labelWithBFS_barrier (s : MeshLabeler) (position : Point) (startCellId : Int) :
    ∃ res, s.labelWithBFS position startCellId = some res ∧
      (res = [] ∨ res.head? = some startCellId) ∧
      (∀ A c B, res = A ++ c :: B → A ≠ [] → ∃ a ∈ A, s.SharesVertex a c) ∧
      (∀ c ∈ res, Relation.ReflTransGen
        (fun a b => a ∈ res ∧ b ∈ res ∧ s.SharesVertex a b) startCellId c) ∧
      ((s.isCellInSphere position startCellId = false ∨
        GetTuple1 s.labels startCellId = s.m_currentLabel) → res = []) := by
  obtain ⟨res, hres⟩ := Option.isSome_iff_exists.mp (labelWithBFS_isSome s position startCellId)
  obtain ⟨hhead, hearlier⟩ := labelWithBFS_earlier s position startCellId res hres
  refine ⟨res, hres, hhead, hearlier, chain_of_earlier _ _ _ hhead hearlier, ?_⟩
  intro hfail
  rcases hhead with h | h
  · exact h
  · exfalso
    have hmem : startCellId ∈ res := by
      cases res with
      | nil => simp at h
      | cons r t =>
        simp only [List.head?_cons, Option.some.injEq] at h
        rw [h]
        exact List.mem_cons_self _ _
    obtain ⟨q1, q2⟩ := labelWithBFS_qualifies s position startCellId res hres _ hmem
    rcases hfail with hf | hf
    · rw [hf] at q1
      exact Bool.false_ne_true q1
    · exact q2 hf

/-! ## Floating-point rounding: reference values -/

/-- Reference values of `roundToDouble`: the `double` nearest to `0.1`, two ties that go to
the even neighbour, a tie in the subnormal range, the overflow threshold, and a value that
is a `double`. -/
theorem roundToDouble_values :
    roundToDouble (1 / 10) = 3602879701896397 / 36028797018963968 ∧
    roundToDouble (1 + 1 / 2 ^ 53) = 1 ∧
    roundToDouble (1 + 3 / 2 ^ 53) = 1 + 1 / 2 ^ 51 ∧
    roundToDouble (3 / 2 ^ 1075) = 1 / 2 ^ 1073 ∧
    roundToDouble (2 ^ 1024 - 2 ^ 970) = pow2 1024 ∧
    roundToDouble (2 ^ 1024 - 2 ^ 970 - 1) = 2 ^ 1024 - 2 ^ 971 ∧
    roundToDouble (5 / 2) = 5 / 2 := by
  decide!

/-- Reference values of `float32OfInt`: `2^24 + 1` and `2^24 + 3` are ties that go to the
even neighbour, and the largest `int` rounds up. -/
theorem float32OfInt_values :
    float32OfInt 16777216 = 16777216 ∧
    float32OfInt 16777217 = 16777216 ∧
    float32OfInt 16777219 = 16777220 ∧
    float32OfInt (-16777217) = -16777216 ∧
    float32OfInt 2147483647 = 2147483648 := by
  decide!

/-! ## Labels in the float array -/

/-- An `int` of magnitude up to `2^24` is read back from a `float` as it was written. -/
theorem float32OfInt_of_le (v : Int) (h : -16777216 ≤ v ∧ v ≤ 16777216) :
    float32OfInt v = v := by
  unfold float32OfInt
  rw [if_pos (by omega)]

/-- The write into the float array is the exact write for a value of magnitude up to
`2^24`. -/
theorem SetTuple1Float_eq (scalars : List Int) (cellId value : Int)
    (h : -16777216 ≤ value ∧ value ≤ 16777216) :
    SetTuple1Float scalars cellId value = SetTuple1 scalars cellId value := by
  unfold SetTuple1Float
  rw [float32OfInt_of_le value h]

/-- On the float array `execute` writes a label of magnitude up to `2^24` exactly. -/
theorem executeOnFloatArray_eq (c : PaintCommand) (scalars : List Int)
    (h : -16777216 ≤ c.m_newLabel ∧ c.m_newLabel ≤ 16777216) :
    c.executeOnFloatArray scalars = c.execute scalars := by
  unfold PaintCommand.executeOnFloatArray PaintCommand.execute
  congr 1
  funext acc cellId
  exact SetTuple1Float_eq acc cellId c.m_newLabel h

/-! ## Cell label store -/

theorem GetTuple1_getElem? (scalars : List Int) (cellId : Int) (h : 0 ≤ cellId) :
    GetTuple1 scalars cellId = (scalars[cellId.toNat]?).getD 0 := by
  unfold GetTuple1
  rw [if_pos h, List.getD_eq_getElem?_getD]

/-- Reading back the cell that was written. -/
theorem GetTuple1_SetTuple1_same (scalars : List Int) (cellId value : Int)
    (h : ValidCellId scalars cellId) : GetTuple1 (SetTuple1 scalars cellId value) cellId = value := by
  obtain ⟨h0, h1⟩ := h
  have hlt : cellId.toNat < scalars.length := by omega
  have hc : ((cellId.toNat : Nat) : Int) = cellId := by omega
  rw [GetTuple1_getElem? _ _ h0, SetTuple1_getElem?, if_pos ⟨hc, hlt⟩]
  rfl

/-- Reading a cell other than the one that was written. -/
theorem GetTuple1_SetTuple1_other (scalars : List Int) (cellId other value : Int)
    (h : other ≠ cellId) :
    GetTuple1 (SetTuple1 scalars cellId value) other = GetTuple1 scalars other := by
  by_cases h0 : 0 ≤ other
  · rw [GetTuple1_getElem? _ _ h0, GetTuple1_getElem? _ _ h0, SetTuple1_getElem?]
    have hc : ¬ ((other.toNat : Nat) : Int) = cellId := by omega
    rw [if_neg (fun hh => hc hh.1)]
  · unfold GetTuple1
    rw [if_neg h0, if_neg h0]

theorem labelCell_polyData (s : MeshLabeler) (pd : PolyData) (cellId label : Int)
    (hpd : s.m_polyData = some pd) (h0 : 0 ≤ cellId) (h1 : cellId < pd.GetNumberOfCells) :
    (s.labelCell cellId label).m_polyData
      = some { pd with scalars := SetTuple1 pd.scalars cellId label } := by
  unfold MeshLabeler.labelCell
  rw [hpd]
  simp only
  rw [if_neg (by omega)]

/-- A cell id out of range, or a missing mesh, makes `labelCell` return the state as it
is. -/
theorem labelCell_invalid (s : MeshLabeler) (cellId label : Int)
    (h : s.m_polyData = none ∨ cellId < 0 ∨ cellId ≥ s.getCellCount) :
    s.labelCell cellId label = s := by
  unfold MeshLabeler.labelCell
  cases hpd : s.m_polyData with
  | none => rfl
  | some pd =>
    simp only
    rcases h with h | h
    · rw [hpd] at h
      cases h
    · unfold MeshLabeler.getCellCount at h
      rw [hpd] at h
      rw [if_pos h]

/-- After `labelCell` on a valid cell of a store with one label per cell, the cell reads
back the label, whatever the label is, and every other cell reads as before. -/
theorem labelCell_getCellLabel (s : MeshLabeler) (pd : PolyData) (cellId label : Int)
    (hpd : s.m_polyData = some pd) (hlen : pd.scalars.length = pd.cells.length)
    (h0 : 0 ≤ cellId) (h1 : cellId < s.getCellCount) :
    (s.labelCell cellId label).getCellLabel cellId = label ∧
    ∀ other, other ≠ cellId →
      (s.labelCell cellId label).getCellLabel other = s.getCellLabel other := by
  have h1' : cellId < pd.GetNumberOfCells := by
    unfold MeshLabeler.getCellCount at h1
    rw [hpd] at h1
    exact h1
  have hp := labelCell_polyData s pd cellId label hpd h0 h1'
  have hvalid : ValidCellId pd.scalars cellId := by
    refine ⟨h0, ?_⟩
    unfold PolyData.GetNumberOfCells at h1'
    omega
  constructor
  · unfold MeshLabeler.getCellLabel
    rw [hp]
    simp only
    rw [if_neg (by unfold PolyData.GetNumberOfCells at h1' ⊢; simp only; omega)]
    exact GetTuple1_SetTuple1_same _ _ _ hvalid
  · intro other hne
    unfold MeshLabeler.getCellLabel
    rw [hp, hpd]
    simp only
    have hn : ({ pd with scalars := SetTuple1 pd.scalars cellId label } : PolyData).GetNumberOfCells
        = pd.GetNumberOfCells := rfl
    rw [hn]
    split
    · rfl
    · exact GetTuple1_SetTuple1_other _ _ _ _ hne

/-- C12. Set/get round trip: for a loaded mesh whose label array has one entry per cell,
a cell id in `[0, cellCount)` and a label in `[0, 20)`, `getCellLabel` after `labelCell`
returns exactly that label, and the label of every other cell is unchanged. -/
theorem labelCell_then_getCellLabel (s : MeshLabeler) (pd : PolyData) (cellId label : Int)
    (hpd : s.m_polyData = some pd) (hlen : pd.scalars.length = pd.cells.length)
    (hid : 0 ≤ cellId ∧ cellId < s.getCellCount) (_hlabel : 0 ≤ label ∧ label < MAX_LABELS) :
    (s.labelCell cellId label).getCellLabel cellId = label ∧
    ∀ other, other ≠ cellId →
      (s.labelCell cellId label).getCellLabel other = s.getCellLabel other :=
  labelCell_getCellLabel s pd cellId label hpd hlen hid.1 hid.2

theorem labelCell_then_getCellLabel_witness :
    ((MeshLabeler.withMesh ⟨[], [[0, 1, 2], [1, 2, 3]], [0, 0]⟩).labelCell 1 7).getCellLabel 1 = 7 :=
  (labelCell_then_getCellLabel (MeshLabeler.withMesh ⟨[], [[0, 1, 2], [1, 2, 3]], [0, 0]⟩)
    ⟨[], [[0, 1, 2], [1, 2, 3]], [0, 0]⟩ 1 7 rfl rfl (by decide) (by decide)).1

/-- C13 (amended). `labelCell` does not validate the label: for a loaded mesh whose label
array has one entry per cell, a valid cell id and a label outside `[0, 20)` of magnitude at
most `2^24 = 16777216` (the integers that the `float` array holds exactly), the call stores
the label in the cell like any other label and leaves the other cells unchanged. -/
theorem labelCell_stores_any_label (s : MeshLabeler) (pd : PolyData) (cellId label : Int)
    (hpd : s.m_polyData = some pd) (hlen : pd.scalars.length = pd.cells.length)
    (hid : 0 ≤ cellId ∧ cellId < s.getCellCount) (_hlabel : label < 0 ∨ MAX_LABELS ≤ label)
    (hexact : -16777216 ≤ label ∧ label ≤ 16777216) :
    float32OfInt label = label ∧
    (s.labelCell cellId label).getCellLabel cellId = label ∧
    ∀ other, other ≠ cellId →
      (s.labelCell cellId label).getCellLabel other = s.getCellLabel other :=
  ⟨float32OfInt_of_le label hexact, labelCell_getCellLabel s pd cellId label hpd hlen hid.1 hid.2⟩

theorem labelCell_stores_any_label_witness :
    ((MeshLabeler.withMesh ⟨[], [[0, 1, 2], [1, 2, 3]], [0, 0]⟩).labelCell 1 25).getCellLabel 1 = 25 :=
  (labelCell_stores_any_label (MeshLabeler.withMesh ⟨[], [[0, 1, 2], [1, 2, 3]], [0, 0]⟩)
    ⟨[], [[0, 1, 2], [1, 2, 3]], [0, 0]⟩ 1 25 rfl rfl (by decide) (by decide) (by decide)).2.1

/-- C13 as stated fails: `labelCell` with the label `25` on a valid cell changes the label
store, and so does the label `-1`. -/
theorem labelCell_invalid_label_changes_store :
    ((MeshLabeler.withMesh ⟨[], [[0, 1, 2]], [0]⟩).labelCell 0 25).labels = [25] ∧
    ((MeshLabeler.withMesh ⟨[], [[0, 1, 2]], [0]⟩).labelCell 0 25).labels
      ≠ (MeshLabeler.withMesh ⟨[], [[0, 1, 2]], [0]⟩).labels ∧
    ((MeshLabeler.withMesh ⟨[], [[0, 1, 2]], [0]⟩).labelCell 0 (-1)).labels = [-1] := by
  decide

theorem getCellCount_of_polyData (s : MeshLabeler) (pd : PolyData)
    (hpd : s.m_polyData = some pd) : s.getCellCount = pd.cells.length := by
  unfold MeshLabeler.getCellCount
  rw [hpd]
  rfl

theorem labelCell_frame (s : MeshLabeler) (pd : PolyData) (cellId label : Int)
    (hpd : s.m_polyData = some pd) :
    ∃ pd', (s.labelCell cellId label).m_polyData = some pd' ∧ pd'.cells = pd.cells ∧
      pd'.points = pd.points ∧ pd'.scalars.length = pd.scalars.length := by
  by_cases h : cellId < 0 ∨ cellId ≥ s.getCellCount
  · rw [labelCell_invalid s cellId label (Or.inr h)]
    exact ⟨pd, hpd, rfl, rfl, rfl⟩
  · have h1 : cellId < pd.GetNumberOfCells := by
      rw [getCellCount_of_polyData s pd hpd] at h
      unfold PolyData.GetNumberOfCells
      omega
    rw [labelCell_polyData s pd cellId label hpd (by omega) h1]
    exact ⟨_, rfl, rfl, rfl, SetTuple1_length _ _ _⟩

/-- Reading a valid cell after `labelCell` with any cell id. -/
theorem labelCell_getCellLabel_any (s : MeshLabeler) (pd : PolyData) (cellId label c : Int)
    (hpd : s.m_polyData = some pd) (hlen : pd.scalars.length = pd.cells.length)
    (hc : 0 ≤ c ∧ c < s.getCellCount) :
    (s.labelCell cellId label).getCellLabel c
      = if c = cellId then label else s.getCellLabel c := by
  by_cases h : cellId < 0 ∨ cellId ≥ s.getCellCount
  · rw [labelCell_invalid s cellId label (Or.inr h), if_neg (by omega)]
  · have hv := labelCell_getCellLabel s pd cellId label hpd hlen (by omega) (by omega)
    by_cases hcc : c = cellId
    · rw [if_pos hcc, hcc]
      exact hv.1
    · rw [if_neg hcc]
      exact hv.2 c hcc

/-- Reading a valid cell after `labelCells`: the label when the cell is listed, the old
label otherwise; the mesh and the length of the label array stay as they are. -/
theorem labelCells_getCellLabel (cellIds : List Int) (label : Int) :
    ∀ (s : MeshLabeler) (pd : PolyData), s.m_polyData = some pd →
      pd.scalars.length = pd.cells.length →
      (∃ pd', (s.labelCells cellIds label).m_polyData = some pd' ∧ pd'.cells = pd.cells ∧
        pd'.points = pd.points ∧ pd'.scalars.length = pd.scalars.length) ∧
      ∀ c, 0 ≤ c ∧ c < s.getCellCount →
        (s.labelCells cellIds label).getCellLabel c
          = if c ∈ cellIds then label else s.getCellLabel c := by
  induction cellIds with
  | nil =>
    intro s pd hpd _
    exact ⟨⟨pd, hpd, rfl, rfl, rfl⟩, fun c _ => by simp [MeshLabeler.labelCells]⟩
  | cons a rest ih =>
    intro s pd hpd hlen
    obtain ⟨pd1, hpd1, hc1, hp1, hl1⟩ := labelCell_frame s pd a label hpd
    have hlen1 : pd1.scalars.length = pd1.cells.length := by rw [hl1, hc1, hlen]
    obtain ⟨⟨pd2, hpd2, hc2, hp2, hl2⟩, hget⟩ := ih (s.labelCell a label) pd1 hpd1 hlen1
    have hstep : s.labelCells (a :: rest) label = (s.labelCell a label).labelCells rest label := rfl
    rw [hstep]
    refine ⟨⟨pd2, hpd2, hc2.trans hc1, hp2.trans hp1, hl2.trans hl1⟩, ?_⟩
    intro c hc
    have hcount : (s.labelCell a label).getCellCount = s.getCellCount := by
      rw [getCellCount_of_polyData _ _ hpd1, getCellCount_of_polyData _ _ hpd, hc1]
    rw [hget c (by rw [hcount]; exact hc), labelCell_getCellLabel_any s pd a label c hpd hlen hc]
    by_cases h1 : c ∈ rest
    · simp [h1]
    · by_cases h2 : c = a
      · simp [h2]
      · simp [h1, h2]

/-- Cell ids out of range are ignored by `labelCells`. -/
theorem labelCells_filter (cellIds : List Int) (label : Int) :
    ∀ (s : MeshLabeler) (pd : PolyData), s.m_polyData = some pd →
      s.labelCells cellIds label
        = s.labelCells (cellIds.filter (fun c => decide (0 ≤ c ∧ c < s.getCellCount))) label := by
  induction cellIds with
  | nil => intro s pd _; rfl
  | cons a rest ih =>
    intro s pd hpd
    obtain ⟨pd1, hpd1, hc1, _, _⟩ := labelCell_frame s pd a label hpd
    have hcount : (s.labelCell a label).getCellCount = s.getCellCount := by
      rw [getCellCount_of_polyData _ _ hpd1, getCellCount_of_polyData _ _ hpd, hc1]
    have hstep : s.labelCells (a :: rest) label = (s.labelCell a label).labelCells rest label := rfl
    rw [hstep, ih _ pd1 hpd1, hcount]
    by_cases ha : 0 ≤ a ∧ a < s.getCellCount
    · rw [List.filter_cons_of_pos (by simpa using ha)]
      rfl
    · rw [List.filter_cons_of_neg (by simpa using ha)]
      rw [labelCell_invalid s a label (Or.inr (by omega))]

/-- C19 (amended). A cell id outside `[0, cellCount)` or a missing mesh: `getCellLabel`
returns the sentinel `-1` and `labelCell` leaves the state as it is. For a valid cell id of
a store with one valid label per cell `getCellLabel` returns a label in `[0, 20)`, never the
sentinel. With a mesh loaded and a label of magnitude at most `2^24 = 16777216` (the integers
that the `float` array holds exactly) `labelCells` relabels exactly the valid ids of its
list: the ids out of range can be dropped from the list, a valid cell reads the new label
when it is listed and its old label otherwise, and the cell count is unchanged. -/
theorem out_of_range_cell_ids (s : MeshLabeler) (cellId label : Int) (cellIds : List Int) :
    ((s.m_polyData = none ∨ cellId < 0 ∨ cellId ≥ s.getCellCount) →
      s.getCellLabel cellId = -1 ∧ s.labelCell cellId label = s) ∧
    (∀ pd, s.m_polyData = some pd → pd.scalars.length = pd.cells.length →
      (∀ x ∈ pd.scalars, ValidLabel x) → 0 ≤ cellId ∧ cellId < s.getCellCount →
      ValidLabel (s.getCellLabel cellId) ∧ s.getCellLabel cellId ≠ -1) ∧
    (∀ pd, s.m_polyData = some pd → pd.scalars.length = pd.cells.length →
      -16777216 ≤ label ∧ label ≤ 16777216 →
      float32OfInt label = label ∧
      s.labelCells cellIds label
        = s.labelCells (cellIds.filter (fun c => decide (0 ≤ c ∧ c < s.getCellCount))) label ∧
      (s.labelCells cellIds label).getCellCount = s.getCellCount ∧
      ∀ c, 0 ≤ c ∧ c < s.getCellCount →
        (s.labelCells cellIds label).getCellLabel c
          = if c ∈ cellIds then label else s.getCellLabel c) := by
  refine ⟨?_, ?_, ?_⟩
  · intro h
    refine ⟨?_, labelCell_invalid s cellId label h⟩
    unfold MeshLabeler.getCellLabel
    cases hpd : s.m_polyData with
    | none => rfl
    | some pd =>
      simp only
      rcases h with h | h
      · rw [hpd] at h
        cases h
      · unfold MeshLabeler.getCellCount at h
        rw [hpd] at h
        rw [if_pos h]
  · intro pd hpd hlen hall hid
    have hcount := getCellCount_of_polyData s pd hpd
    have hget : s.getCellLabel cellId = GetTuple1 pd.scalars cellId := by
      unfold MeshLabeler.getCellLabel
      rw [hpd]
      simp only
      rw [if_neg (by unfold PolyData.GetNumberOfCells; omega)]
    have hlt : cellId.toNat < pd.scalars.length := by omega
    have hmem : GetTuple1 pd.scalars cellId ∈ pd.scalars := by
      rw [GetTuple1_getElem? _ _ hid.1, List.getElem?_eq_getElem hlt]
      exact List.getElem_mem hlt
    have hv := hall _ hmem
    rw [hget]
    refine ⟨hv, ?_⟩
    intro h
    rw [h] at hv
    exact absurd hv.1 (by decide)
  · intro pd hpd hlen hexact
    obtain ⟨⟨pd', hpd', hc', _, _⟩, hget⟩ := labelCells_getCellLabel cellIds label s pd hpd hlen
    refine ⟨float32OfInt_of_le label hexact, labelCells_filter cellIds label s pd hpd, ?_, hget⟩
    rw [getCellCount_of_polyData _ _ hpd', getCellCount_of_polyData _ _ hpd, hc']

theorem out_of_range_cell_ids_witness :
    (ValidLabel ((MeshLabeler.withMesh ⟨[], [[0, 1, 2]], [3]⟩).getCellLabel 0) ∧
      (MeshLabeler.withMesh ⟨[], [[0, 1, 2]], [3]⟩).getCellLabel 0 ≠ -1) ∧
    ((MeshLabeler.withMesh ⟨[], [[0, 1, 2]], [3]⟩).labelCells [7, 0, -2] 4).getCellLabel 0
      = (if (0 : Int) ∈ [7, 0, -2] then 4
          else (MeshLabeler.withMesh ⟨[], [[0, 1, 2]], [3]⟩).getCellLabel 0) :=
  ⟨(out_of_range_cell_ids (MeshLabeler.withMesh ⟨[], [[0, 1, 2]], [3]⟩) 0 0 []).2.1
      ⟨[], [[0, 1, 2]], [3]⟩ rfl rfl (by decide) (by decide),
    ((out_of_range_cell_ids (MeshLabeler.withMesh ⟨[], [[0, 1, 2]], [3]⟩) 0 4 [7, 0, -2]).2.2
      ⟨[], [[0, 1, 2]], [3]⟩ rfl rfl (by decide)).2.2.2 0 (by decide)⟩

/-- C19 as stated fails for the sentinel: a mesh loaded with the stored label `-1` makes
`getCellLabel` return `-1` for the valid cell id `0`. -/
theorem getCellLabel_sentinel_for_valid_cell :
    (0 : Int) ≤ 0 ∧
    (0 : Int) < (MeshLabeler.init.loadVTP
      (some ⟨[⟨0, 0, 0⟩, ⟨1, 0, 0⟩, ⟨0, 1, 0⟩], [[0, 1, 2]], some [-1]⟩)).1.getCellCount ∧
    (MeshLabeler.init.loadVTP
      (some ⟨[⟨0, 0, 0⟩, ⟨1, 0, 0⟩, ⟨0, 1, 0⟩], [[0, 1, 2]], some [-1]⟩)).1.getCellLabel 0 = -1 := by
  decide

/-! ## Paint commands -/

/-- Reading a cell after `execute`: the new label when the cell is listed, the old label
otherwise. -/
theorem execute_GetTuple1 (c : PaintCommand) (scalars : List Int) (cellId : Int)
    (h : ValidCellId scalars cellId) :
    GetTuple1 (c.execute scalars) cellId
      = if cellId ∈ c.m_cellIds then c.m_newLabel else GetTuple1 scalars cellId := by
  obtain ⟨h0, h1⟩ := h
  have hlt : cellId.toNat < scalars.length := by omega
  have hc : ((cellId.toNat : Nat) : Int) = cellId := by omega
  rw [GetTuple1_getElem? _ _ h0, GetTuple1_getElem? _ _ h0]
  by_cases hm : cellId ∈ c.m_cellIds
  · rw [if_pos hm, execute_getElem?_of_mem c scalars cellId.toNat (by rw [hc]; exact hm) hlt]
    rfl
  · rw [if_neg hm, execute_getElem?_of_not_mem c scalars cellId.toNat (by rw [hc]; exact hm)]

/-- The array after `execute` depends only on the set of listed cells and the new label. -/
theorem execute_congr (c d : PaintCommand) (scalars : List Int)
    (hids : ∀ x, x ∈ c.m_cellIds ↔ x ∈ d.m_cellIds) (hl : c.m_newLabel = d.m_newLabel) :
    c.execute scalars = d.execute scalars := by
  apply List.ext_getElem?
  intro i
  by_cases hi : i < scalars.length
  · by_cases hm : (i : Int) ∈ c.m_cellIds
    · rw [execute_getElem?_of_mem c scalars i hm hi,
        execute_getElem?_of_mem d scalars i ((hids _).mp hm) hi, hl]
    · rw [execute_getElem?_of_not_mem c scalars i hm,
        execute_getElem?_of_not_mem d scalars i (fun h => hm ((hids _).mpr h))]
  · rw [List.getElem?_eq_none (by rw [execute_length]; omega),
      List.getElem?_eq_none (by rw [execute_length]; omega)]

/-- C15 (amended). For a new label of magnitude at most `2^24 = 16777216` (the integers
that the `float` array holds exactly): a `PaintCommand` constructed on an array for a list
of valid cell ids (duplicates allowed, any order) and then executed on the float array
leaves every listed cell with the new label and every unlisted cell unchanged; the
following `undo` restores the array exactly as it was at construction; neither array
depends on the order in which the ids are listed. -/
theorem paintCommand_execute_undo (scalars : List Int) (cellIds : List Int) (newLabel : Int)
    (_hvalid : ∀ cellId ∈ cellIds, ValidCellId scalars cellId)
    (hlabel : -16777216 ≤ newLabel ∧ newLabel ≤ 16777216) :
    (∀ cellId, ValidCellId scalars cellId →
      GetTuple1 ((PaintCommand.create scalars cellIds newLabel).executeOnFloatArray scalars)
          cellId
        = if cellId ∈ cellIds then newLabel else GetTuple1 scalars cellId) ∧
    ((PaintCommand.create scalars cellIds newLabel).executeOnFloatArray scalars).length
      = scalars.length ∧
    (PaintCommand.create scalars cellIds newLabel).undo
      ((PaintCommand.create scalars cellIds newLabel).executeOnFloatArray scalars)
      = scalars ∧
    (∀ reordered : List Int, reordered.Perm cellIds →
      (PaintCommand.create scalars reordered newLabel).executeOnFloatArray scalars
        = (PaintCommand.create scalars cellIds newLabel).executeOnFloatArray scalars ∧
      (PaintCommand.create scalars reordered newLabel).undo
        ((PaintCommand.create scalars reordered newLabel).executeOnFloatArray scalars)
        = (PaintCommand.create scalars cellIds newLabel).undo
          ((PaintCommand.create scalars cellIds newLabel).executeOnFloatArray scalars)) ∧
    (PaintCommand.create scalars cellIds newLabel).executeOnFloatArray scalars
      = (PaintCommand.create scalars cellIds newLabel).execute scalars := by
  have hfloat : ∀ ids : List Int,
      (PaintCommand.create scalars ids newLabel).executeOnFloatArray scalars
        = (PaintCommand.create scalars ids newLabel).execute scalars :=
    fun ids => executeOnFloatArray_eq _ scalars hlabel
  refine ⟨?_, ?_, ?_, ?_, hfloat cellIds⟩
  · intro cellId hv
    rw [hfloat]
    exact execute_GetTuple1 (PaintCommand.create scalars cellIds newLabel) scalars cellId hv
  · rw [hfloat]
    exact execute_length _ _
  · rw [hfloat]
    exact undo_execute_create _ _ _
  · intro reordered hperm
    rw [hfloat, hfloat]
    refine ⟨?_, ?_⟩
    · exact execute_congr _ _ scalars (fun x => hperm.mem_iff) rfl
    · rw [undo_execute_create, undo_execute_create]

theorem paintCommand_execute_undo_witness :
    (PaintCommand.create [1, 2, 3, 4] [2, 0, 2] 9).undo
      ((PaintCommand.create [1, 2, 3, 4] [2, 0, 2] 9).executeOnFloatArray [1, 2, 3, 4])
      = [1, 2, 3, 4] :=
  (paintCommand_execute_undo [1, 2, 3, 4] [2, 0, 2] 9 (by decide) (by decide)).2.2.1

/-- C15 as stated fails for a large label: a `PaintCommand` constructed on the float array
`[0, 0]` for the valid cell id `1` and the new label `16777217 = 2^24 + 1` and then executed
leaves `16777216` in cell `1`, the `float` nearest to the label. -/
theorem paintCommand_execute_rounds_large_label :
    ValidCellId [0, 0] 1 ∧
    GetTuple1 ((PaintCommand.create [0, 0] [1] 16777217).executeOnFloatArray [0, 0]) 1
      = 16777216 ∧
    GetTuple1 ((PaintCommand.create [0, 0] [1] 16777217).executeOnFloatArray [0, 0]) 1
      ≠ 16777217 := by
  decide!

/-! ## Brush radius -/

/-- C18 fails on the code: sixteen `decreaseBrushRadius()` calls from the default radius
`2.5` leave the radius `0.1`, below `MIN_BRUSH_RADIUS = 0.15`; the last call starts from
`0.25`, which passes the guard `m_brushRadius > MIN_BRUSH_RADIUS`. -/
theorem decreaseBrushRadius_below_floor :
    (MeshLabeler.decreaseBrushRadius^[15] MeshLabeler.init).getBrushRadius = 1 / 4 ∧
    (MeshLabeler.decreaseBrushRadius^[16] MeshLabeler.init).getBrushRadius = 1 / 10 ∧
    (MeshLabeler.decreaseBrushRadius^[16] MeshLabeler.init).getBrushRadius < MIN_BRUSH_RADIUS := by
  decide!

/-- A value below the floor is ignored by `setBrushRadius`, a value at or above it is
stored. -/
theorem setBrushRadius_spec (s : MeshLabeler) (radius : ℚ) :
    (radius < MIN_BRUSH_RADIUS → s.setBrushRadius radius = s) ∧
    (MIN_BRUSH_RADIUS ≤ radius → (s.setBrushRadius radius).getBrushRadius = radius) := by
  unfold MeshLabeler.setBrushRadius
  constructor
  · intro h
    rw [if_neg (not_le.mpr h)]
  · intro h
    rw [if_pos h]
    rfl

/-! ## Render throttle -/

theorem requestRender_of_pending (s : MeshLabeler) (h : s.m_renderPending = true) :
    s.requestRender = s := by
  unfold MeshLabeler.requestRender
  simp [h]

theorem requestRender_of_not_pending (s : MeshLabeler) (h : s.m_renderPending = false) :
    s.requestRender
      = { s with m_renderPending := true, scheduledRenders := s.scheduledRenders + 1 } := by
  unfold MeshLabeler.requestRender
  simp [h]

theorem requestRender_pending (s : MeshLabeler) : s.requestRender.m_renderPending = true := by
  cases h : s.m_renderPending with
  | true => rw [requestRender_of_pending s h, h]
  | false => rw [requestRender_of_not_pending s h]

/-- Any positive number of `requestRender()` calls in a row acts like one call. -/
theorem requestRender_iterate (s : MeshLabeler) (k : Nat) :
    MeshLabeler.requestRender^[k + 1] s = s.requestRender := by
  induction k with
  | zero => rfl
  | succ k ih =>
    rw [Function.iterate_succ_apply', ih]
    exact requestRender_of_pending _ (requestRender_pending s)

/-- Throttle invariant: a deferred render is outstanding exactly when the pending flag is
set, and then it is the only one. -/
theorem throttle_invariant (s : MeshLabeler) (h : ThrottleReachable s) :
    (s.m_renderPending = true ∧ s.scheduledRenders = 1) ∨
    (s.m_renderPending = false ∧ s.scheduledRenders = 0) := by
  induction h with
  | idle s hp hs => exact Or.inr ⟨hp, hs⟩
  | request s _ ih =>
    rcases ih with ⟨hp, hs⟩ | ⟨hp, hs⟩
    · rw [requestRender_of_pending s hp]
      exact Or.inl ⟨hp, hs⟩
    · rw [requestRender_of_not_pending s hp]
      exact Or.inl ⟨rfl, by simp [hs]⟩
  | fire s t _ ht ih =>
    unfold MeshLabeler.fireScheduledRender at ht
    rcases ih with ⟨_, hs⟩ | ⟨_, hs⟩
    · rw [if_neg (by omega)] at ht
      simp only [Option.some.injEq] at ht
      subst ht
      exact Or.inr ⟨rfl, by simp [MeshLabeler.render, hs]⟩
    · rw [if_pos hs] at ht
      cases ht

/-- C17. Render throttle over the steps `requestRender()` and the firing of the scheduled
deferred render, started with nothing pending: at most one deferred render is outstanding
at any time, and one is outstanding exactly when the pending flag is set; a
`requestRender()` while one is pending changes nothing; and from a state with nothing
pending any number `k ≥ 1` of `requestRender()` calls equals one call, leaves exactly one
deferred render outstanding, and when that fires `render()` runs once (one draw call when
a render window is set), the pending flag is clear and nothing is left to fire. -/
theorem render_throttle (s : MeshLabeler) (h : ThrottleReachable s) :
    s.scheduledRenders ≤ 1 ∧
    (s.m_renderPending = true ↔ s.scheduledRenders = 1) ∧
    (s.m_renderPending = true → s.requestRender = s) ∧
    (s.m_renderPending = false → ∀ k, 1 ≤ k →
      MeshLabeler.requestRender^[k] s = s.requestRender ∧
      (MeshLabeler.requestRender^[k] s).scheduledRenders = 1 ∧
      (MeshLabeler.requestRender^[k] s).m_renderPending = true ∧
      ∃ t, (MeshLabeler.requestRender^[k] s).fireScheduledRender = some t ∧
        t.m_renderPending = false ∧ t.scheduledRenders = 0 ∧
        t.fireScheduledRender = none ∧
        t.windowRenders = s.windowRenders + (if s.m_renderWindow then 1 else 0)) := by
  have hinv := throttle_invariant s h
  refine ⟨?_, ?_, requestRender_of_pending s, ?_⟩
  · rcases hinv with ⟨_, hs⟩ | ⟨_, hs⟩ <;> omega
  · rcases hinv with ⟨hp, hs⟩ | ⟨hp, hs⟩
    · simp [hp, hs]
    · simp [hp, hs]
  · intro hp k hk
    have hs : s.scheduledRenders = 0 := by
      rcases hinv with ⟨hp', _⟩ | ⟨_, hs⟩
      · rw [hp] at hp'
        cases hp'
      · exact hs
    obtain ⟨j, rfl⟩ : ∃ j, k = j + 1 := ⟨k - 1, by omega⟩
    rw [requestRender_iterate, requestRender_of_not_pending s hp]
    refine ⟨rfl, by simp [hs], rfl, ?_⟩
    refine ⟨({ ({ s with m_renderPending := true, scheduledRenders := s.scheduledRenders + 1 } :
        MeshLabeler) with scheduledRenders := s.scheduledRenders + 1 - 1 } : MeshLabeler).render,
      ?_, ?_, ?_, ?_, ?_⟩
    · unfold MeshLabeler.fireScheduledRender
      rw [if_neg (by simp)]
    · rfl
    · simp [MeshLabeler.render, hs]
    · simp [MeshLabeler.fireScheduledRender, MeshLabeler.render, hs]
    · cases hw : s.m_renderWindow <;> simp [MeshLabeler.render, hw]

theorem render_throttle_witness :
    ThrottleReachable MeshLabeler.init.requestRender.requestRender ∧
    MeshLabeler.init.requestRender.requestRender.scheduledRenders ≤ 1 :=
  ⟨ThrottleReachable.request _ (ThrottleReachable.request _ (ThrottleReachable.idle _ rfl rfl)),
    (render_throttle _
      (ThrottleReachable.request _
        (ThrottleReachable.request _ (ThrottleReachable.idle _ rfl rfl)))).1⟩

/-! ## Mesh loading -/

theorem requestRender_polyData (s : MeshLabeler) :
    s.requestRender.m_polyData = s.m_polyData := by
  unfold MeshLabeler.requestRender
  split <;> rfl

theorem labels_congr (s t : MeshLabeler) (h : s.m_polyData = t.m_polyData) :
    s.labels = t.labels := by
  unfold MeshLabeler.labels
  rw [h]

theorem getCellCount_congr (s t : MeshLabeler) (h : s.m_polyData = t.m_polyData) :
    s.getCellCount = t.getCellCount := by
  unfold MeshLabeler.getCellCount
  rw [h]

theorem map_zero_eq_replicate (n : Nat) :
    (List.range n).map (fun _ => (0 : Int)) = List.replicate n 0 := by
  apply List.ext_getElem
  · simp
  · intro i h1 h2
    simp

/-- The mesh after a successful `loadVTP`: the array of the file when there is one, one `0`
per cell otherwise. -/
theorem loadVTP_polyData (s : MeshLabeler) (out : ReaderOutput) (hpts : out.points ≠ []) :
    (s.loadVTP (some out)).2 = true ∧
    (s.loadVTP (some out)).1.m_polyData
      = some ⟨out.points, out.cells,
          match out.scalars with
          | some labels => labels
          | none => List.replicate out.cells.length 0⟩ := by
  unfold MeshLabeler.loadVTP
  have hlen : ¬ out.points.length = 0 := by
    intro h
    exact hpts (List.length_eq_zero.mp h)
  simp only [if_neg hlen]
  refine ⟨trivial, ?_⟩
  rw [requestRender_polyData]
  cases out.scalars with
  | none =>
    simp only [MeshLabeler.initializeCellData, map_zero_eq_replicate]
  | some labels => rfl

/-- The mesh after a successful `loadSTL`: one `0` per cell. -/
theorem loadSTL_polyData (s : MeshLabeler) (out : ReaderOutput) (hpts : out.points ≠ []) :
    (s.loadSTL (some out)).2 = true ∧
    (s.loadSTL (some out)).1.m_polyData
      = some ⟨out.points, out.cells, List.replicate out.cells.length 0⟩ := by
  unfold MeshLabeler.loadSTL
  have hlen : ¬ out.points.length = 0 := by
    intro h
    exact hpts (List.length_eq_zero.mp h)
  simp only [if_neg hlen]
  refine ⟨trivial, ?_⟩
  rw [requestRender_polyData]
  simp only [MeshLabeler.initializeCellData, map_zero_eq_replicate]

/-- The label store after a successful `loadVTP` and `loadSTL`, for any reader output:
`loadVTP` tests only whether a scalar array is present, keeps the array that is present and
zero-initialises otherwise; `loadSTL` always zero-initialises. -/
theorem loadVTP_labels_of_reader (s : MeshLabeler) (out : ReaderOutput)
    (hpts : out.points ≠ []) :
    (s.loadVTP (some out)).2 = true ∧
    (∀ labels, out.scalars = some labels → (s.loadVTP (some out)).1.labels = labels) ∧
    (out.scalars = none →
      (s.loadVTP (some out)).1.labels = List.replicate out.cells.length 0) ∧
    (s.loadVTP (some out)).1.getCellCount = out.cells.length ∧
    (s.loadSTL (some out)).2 = true ∧
    (s.loadSTL (some out)).1.labels = List.replicate out.cells.length 0 ∧
    (s.loadSTL (some out)).1.getCellCount = out.cells.length := by
  obtain ⟨h1, h2⟩ := loadVTP_polyData s out hpts
  obtain ⟨h4, h3⟩ := loadSTL_polyData s out hpts
  refine ⟨h1, ?_, ?_, ?_, h4, ?_, ?_⟩
  · intro labels hl
    rw [labels_of_polyData _ _ h2, hl]
  · intro hn
    rw [labels_of_polyData _ _ h2, hn]
  · rw [getCellCount_of_polyData _ _ h2]
  · rw [labels_of_polyData _ _ h3]
  · rw [getCellCount_of_polyData _ _ h3]

/-- A load fails and leaves the engine as it is when there is no file or the reader output
has no points (what the reader hands over for a file it cannot read). -/
theorem load_without_points (s : MeshLabeler) (out : ReaderOutput) (hpts : out.points = []) :
    s.loadVTP none = (s, false) ∧ s.loadVTP (some out) = (s, false) ∧
    s.loadSTL none = (s, false) ∧ s.loadSTL (some out) = (s, false) := by
  unfold MeshLabeler.loadVTP MeshLabeler.loadSTL
  simp [hpts]

theorem labelCell_stacks (s : MeshLabeler) (cellId label : Int) :
    (s.labelCell cellId label).m_undoStack = s.m_undoStack ∧
    (s.labelCell cellId label).m_redoStack = s.m_redoStack := by
  unfold MeshLabeler.labelCell
  cases s.m_polyData with
  | none => exact ⟨rfl, rfl⟩
  | some pd =>
    simp only
    split <;> exact ⟨rfl, rfl⟩

theorem labelCells_stacks (cellIds : List Int) (label : Int) :
    ∀ s : MeshLabeler, (s.labelCells cellIds label).m_undoStack = s.m_undoStack ∧
      (s.labelCells cellIds label).m_redoStack = s.m_redoStack := by
  induction cellIds with
  | nil => intro s; exact ⟨rfl, rfl⟩
  | cons a rest ih =>
    intro s
    have hstep : s.labelCells (a :: rest) label = (s.labelCell a label).labelCells rest label := rfl
    rw [hstep, (ih _).1, (ih _).2]
    exact labelCell_stacks s a label

/-- The left-button callback never touches the two history stacks, whatever it paints. -/
theorem LeftButtonPressCallback_stacks (s : MeshLabeler) (position : Point) (cellId : Int) :
    (s.LeftButtonPressCallback position cellId).m_undoStack = s.m_undoStack ∧
    (s.LeftButtonPressCallback position cellId).m_redoStack = s.m_redoStack := by
  unfold MeshLabeler.LeftButtonPressCallback
  cases s.m_polyData with
  | none => exact ⟨rfl, rfl⟩
  | some pd =>
    simp only
    split
    · rw [requestRender_undoStack, requestRender_redoStack]
      split
      · split
        · split
          · rw [(labelCells_stacks _ _ _).1, (labelCells_stacks _ _ _).2]
            exact ⟨rfl, rfl⟩
          · exact ⟨rfl, rfl⟩
        · exact ⟨rfl, rfl⟩
      · rw [(labelCell_stacks _ _ _).1, (labelCell_stacks _ _ _).2]
        exact ⟨rfl, rfl⟩
    · exact ⟨rfl, rfl⟩

/-- C16 fails on the code: a left button press in brush mode that hits cell `0` of a
one-triangle mesh (all labels `0`, current label `5`, pick point on a vertex) relabels the
cell to `5` but pushes no command; afterwards `canUndo` is false and `undo` leaves the
label `5` in place instead of restoring the label `0`. The same happens in single mode. -/
theorem LeftButtonPress_pushes_no_command :
    (({ MeshLabeler.withMesh ⟨[⟨0, 0, 0⟩, ⟨1, 0, 0⟩, ⟨0, 1, 0⟩], [[0, 1, 2]], [0]⟩ with
        m_currentLabel := 5 } : MeshLabeler).LeftButtonPressCallback ⟨0, 0, 0⟩ 0).labels = [5] ∧
    (({ MeshLabeler.withMesh ⟨[⟨0, 0, 0⟩, ⟨1, 0, 0⟩, ⟨0, 1, 0⟩], [[0, 1, 2]], [0]⟩ with
        m_currentLabel := 5 } : MeshLabeler).LeftButtonPressCallback ⟨0, 0, 0⟩ 0).canUndo = false ∧
    (({ MeshLabeler.withMesh ⟨[⟨0, 0, 0⟩, ⟨1, 0, 0⟩, ⟨0, 1, 0⟩], [[0, 1, 2]], [0]⟩ with
        m_currentLabel := 5 } : MeshLabeler).LeftButtonPressCallback ⟨0, 0, 0⟩ 0).undo.labels
      = [5] ∧
    (({ MeshLabeler.withMesh ⟨[⟨0, 0, 0⟩, ⟨1, 0, 0⟩, ⟨0, 1, 0⟩], [[0, 1, 2]], [0]⟩ with
        m_currentLabel := 5, m_editMode := EditMode.Single } :
        MeshLabeler).LeftButtonPressCallback ⟨0, 0, 0⟩ 0).undo.labels = [5] := by
  decide!

/-! ## Label statistics -/

theorem sum_set (stats : List Int) (k : Nat) (v : Int) (h : k < stats.length) :
    (stats.set k v).sum = stats.sum - stats.getD k 0 + v := by
  induction stats generalizing k with
  | nil => simp at h
  | cons a t ih =>
    cases k with
    | zero =>
      simp only [List.set_cons_zero, List.sum_cons, List.getD_cons_zero]
      ring
    | succ j =>
      simp only [List.length_cons, Nat.add_lt_add_iff_right] at h
      simp only [List.set_cons_succ, List.sum_cons, List.getD_cons_succ, ih j h]
      ring

theorem incrementCount_length (stats : List Int) (label : Int) :
    (incrementCount stats label).length = stats.length := by
  unfold incrementCount
  rw [List.length_set]

theorem incrementCount_sum (stats : List Int) (label : Int) (h0 : 0 ≤ label)
    (h1 : label < stats.length) : (incrementCount stats label).sum = stats.sum + 1 := by
  unfold incrementCount
  rw [sum_set _ _ _ (by omega)]
  ring

/-- The scan counts exactly the scanned cells whose label is inside `[0, MAX_LABELS)`. -/
theorem statistics_scan (scalars : List Int) (cells : List Nat) (init : List Int)
    (hinit : init.length = MAX_LABELS.toNat)
    (hall : ∀ i ∈ cells, ValidLabel (GetTuple1 scalars (Int.ofNat i))) :
    (cells.foldl
      (fun (stats : List Int) (i : Nat) =>
        if GetTuple1 scalars (Int.ofNat i) ≥ 0 ∧ GetTuple1 scalars (Int.ofNat i) < MAX_LABELS then
          incrementCount stats (GetTuple1 scalars (Int.ofNat i))
        else stats) init).length = MAX_LABELS.toNat ∧
    (cells.foldl
      (fun (stats : List Int) (i : Nat) =>
        if GetTuple1 scalars (Int.ofNat i) ≥ 0 ∧ GetTuple1 scalars (Int.ofNat i) < MAX_LABELS then
          incrementCount stats (GetTuple1 scalars (Int.ofNat i))
        else stats) init).sum = init.sum + cells.length := by
  induction cells generalizing init with
  | nil => simp [hinit]
  | cons a t ih =>
    have hv := hall a (List.mem_cons_self _ _)
    rw [List.foldl_cons, if_pos ⟨hv.1, hv.2⟩]
    have hmax : (MAX_LABELS.toNat : Int) = MAX_LABELS := by decide
    obtain ⟨h1, h2⟩ := ih (incrementCount init (GetTuple1 scalars (Int.ofNat a)))
      (by rw [incrementCount_length, hinit])
      (fun i hi => hall i (List.mem_cons_of_mem _ hi))
    refine ⟨h1, ?_⟩
    rw [h2, incrementCount_sum _ _ hv.1 (by rw [hinit, hmax]; exact hv.2), List.length_cons]
    push_cast
    ring

/-- With one valid label per cell the statistics are `MAX_LABELS` counts that sum to the
cell count. -/
theorem statistics_of_validStore (s : MeshLabeler) (h : ValidStore s) :
    s.getLabelStatistics.length = MAX_LABELS.toNat ∧
    s.getLabelStatistics.sum = s.getCellCount := by
  obtain ⟨⟨pd, hpd, hlen, hall⟩, _⟩ := h
  unfold MeshLabeler.getLabelStatistics
  rw [hpd, getCellCount_of_polyData s pd hpd]
  simp only
  have := statistics_scan pd.scalars (List.range pd.cells.length)
    (List.replicate MAX_LABELS.toNat 0) (by simp) (by
      intro i hi
      rw [List.mem_range] at hi
      have hlt : i < pd.scalars.length := by omega
      apply hall
      rw [GetTuple1_getElem? pd.scalars (Int.ofNat i) (Int.ofNat_nonneg i)]
      have htn : (Int.ofNat i).toNat = i := rfl
      rw [htn, List.getElem?_eq_getElem hlt]
      exact List.getElem_mem hlt)
  refine ⟨this.1, ?_⟩
  rw [this.2]
  simp

theorem mapScalars_polyData (s : MeshLabeler) (pd : PolyData) (f : List Int → List Int)
    (hpd : s.m_polyData = some pd) :
    (s.mapScalars f).m_polyData = some { pd with scalars := f pd.scalars } := by
  unfold MeshLabeler.mapScalars
  rw [hpd]

theorem addCommand_polyData (s : MeshLabeler) (c : PaintCommand) :
    (s.addCommand c).m_polyData = (s.mapScalars c.execute).m_polyData := rfl

theorem undo_cons_polyData (s : MeshLabeler) (c : PaintCommand) (u : List PaintCommand)
    (h : s.m_undoStack = c :: u) : s.undo.m_polyData = (s.mapScalars c.undo).m_polyData := by
  unfold MeshLabeler.undo
  rw [h]
  simp only [requestRender_polyData]
  obtain ⟨pd⟩ := s
  cases pd <;> rfl

theorem redo_cons_polyData (s : MeshLabeler) (c : PaintCommand) (r : List PaintCommand)
    (h : s.m_redoStack = c :: r) : s.redo.m_polyData = (s.mapScalars c.execute).m_polyData := by
  unfold MeshLabeler.redo
  rw [h]
  simp only [requestRender_polyData]
  obtain ⟨pd⟩ := s
  cases pd <;> rfl

theorem SetTuple1_allValid (scalars : List Int) (cellId value : Int)
    (hall : ∀ x ∈ scalars, ValidLabel x) (hv : ValidLabel value) :
    ∀ x ∈ SetTuple1 scalars cellId value, ValidLabel x := by
  intro x hx
  unfold SetTuple1 at hx
  split at hx
  · rcases List.mem_or_eq_of_mem_set hx with h | h
    · exact hall x h
    · rw [h]
      exact hv
  · exact hall x hx

theorem execute_allValid (c : PaintCommand) (scalars : List Int)
    (hall : ∀ x ∈ scalars, ValidLabel x) (hv : ValidLabel c.m_newLabel) :
    ∀ x ∈ c.execute scalars, ValidLabel x := by
  unfold PaintCommand.execute
  generalize c.m_cellIds = ids
  induction ids generalizing scalars with
  | nil => exact hall
  | cons a t ih =>
    rw [List.foldl_cons]
    exact ih _ (SetTuple1_allValid _ _ _ hall hv)

theorem undo_allValid (c : PaintCommand) (scalars : List Int)
    (hall : ∀ x ∈ scalars, ValidLabel x) (hv : ∀ x ∈ c.m_oldLabels, ValidLabel x) :
    ∀ x ∈ c.undo scalars, ValidLabel x := by
  unfold PaintCommand.undo
  have hp : ∀ p ∈ c.m_cellIds.zip c.m_oldLabels, ValidLabel p.2 :=
    fun p hp => hv _ (List.of_mem_zip hp).2
  generalize c.m_cellIds.zip c.m_oldLabels = ps at hp
  induction ps generalizing scalars with
  | nil => exact hall
  | cons a t ih =>
    rw [List.foldl_cons]
    exact ih _ (SetTuple1_allValid _ _ _ hall (hp a (List.mem_cons_self _ _)))
      (fun p hp' => hp p (List.mem_cons_of_mem _ hp'))

/-- A command constructed on an array of valid labels with a valid new label records only
valid labels. -/
theorem create_valid (scalars : List Int) (cellIds : List Int) (label : Int)
    (hall : ∀ x ∈ scalars, ValidLabel x) (hl : ValidLabel label) :
    ValidLabel (PaintCommand.create scalars cellIds label).m_newLabel ∧
    ∀ x ∈ (PaintCommand.create scalars cellIds label).m_oldLabels, ValidLabel x := by
  refine ⟨hl, ?_⟩
  intro x hx
  simp only [PaintCommand.create, List.mem_map] at hx
  obtain ⟨cellId, _, rfl⟩ := hx
  unfold GetTuple1
  split
  · rw [List.getD_eq_getElem?_getD]
    cases hget : scalars[cellId.toNat]? with
    | none => exact ⟨by decide, by decide⟩
    | some v => exact hall v (List.getElem?_mem hget)
  · exact ⟨by decide, by decide⟩

theorem ValidStore_mapScalars (s : MeshLabeler) (f : List Int → List Int) (h : ValidStore s)
    (hlen : ∀ l, (f l).length = l.length)
    (hall : ∀ l, (∀ x ∈ l, ValidLabel x) → ∀ x ∈ f l, ValidLabel x) :
    ValidStore (s.mapScalars f) := by
  obtain ⟨⟨pd, hpd, hl, ha⟩, hc⟩ := h
  refine ⟨⟨_, mapScalars_polyData s pd f hpd, ?_, hall _ ha⟩, ?_⟩
  · simp only
    rw [hlen, hl]
  · rw [mapScalars_undoStack, mapScalars_redoStack]
    exact hc

theorem ValidStore_labelCell (s : MeshLabeler) (cellId label : Int) (h : ValidStore s)
    (hl : ValidLabel label) : ValidStore (s.labelCell cellId label) := by
  obtain ⟨⟨pd, hpd, hlen, ha⟩, hc⟩ := h
  refine ⟨?_, ?_⟩
  · by_cases hid : cellId < 0 ∨ cellId ≥ s.getCellCount
    · rw [labelCell_invalid s cellId label (Or.inr hid)]
      exact ⟨pd, hpd, hlen, ha⟩
    · have h1 : cellId < pd.GetNumberOfCells := by
        rw [getCellCount_of_polyData s pd hpd] at hid
        unfold PolyData.GetNumberOfCells
        omega
      refine ⟨_, labelCell_polyData s pd cellId label hpd (by omega) h1, ?_, ?_⟩
      · simp only
        rw [SetTuple1_length, hlen]
      · exact SetTuple1_allValid _ _ _ ha hl
  · rw [(labelCell_stacks s cellId label).1, (labelCell_stacks s cellId label).2]
    exact hc

theorem ValidStore_labelCells (cellIds : List Int) (label : Int) (hl : ValidLabel label) :
    ∀ s : MeshLabeler, ValidStore s → ValidStore (s.labelCells cellIds label) := by
  induction cellIds with
  | nil => intro s h; exact h
  | cons a rest ih =>
    intro s h
    exact ih _ (ValidStore_labelCell s a label h hl)

theorem ValidStore_labels (s : MeshLabeler) (h : ValidStore s) :
    ∀ x ∈ s.labels, ValidLabel x := by
  obtain ⟨⟨pd, hpd, _, ha⟩, _⟩ := h
  rw [labels_of_polyData s pd hpd]
  exact ha

theorem ValidStore_of_polyData_eq (s t : MeshLabeler) (h : ValidStore t)
    (hpd : s.m_polyData = t.m_polyData)
    (hc : ∀ c ∈ s.m_undoStack ++ s.m_redoStack,
      ValidLabel c.m_newLabel ∧ ∀ x ∈ c.m_oldLabels, ValidLabel x) : ValidStore s := by
  obtain ⟨⟨pd, hpd', hl, ha⟩, _⟩ := h
  exact ⟨⟨pd, hpd.trans hpd', hl, ha⟩, hc⟩

/-- Label mutations with valid labels keep one valid label per cell. -/
theorem LabelReachable_validStore (s : MeshLabeler) (h : LabelReachable s) : ValidStore s := by
  induction h with
  | fresh s pd hpd hzero hu hr =>
    refine ⟨⟨pd, hpd, by rw [hzero, List.length_replicate], ?_⟩, ?_⟩
    · intro x hx
      rw [hzero] at hx
      rw [(List.mem_replicate.mp hx).2]
      exact ⟨by decide, by decide⟩
    · rw [hu, hr]
      intro c hc
      simp at hc
  | labelCell s cellId label _ hl ih => exact ValidStore_labelCell s cellId label ih hl
  | labelCells s cellIds label _ hl ih => exact ValidStore_labelCells cellIds label hl s ih
  | execute s t cellIds label _ _ hl _ ihs iht =>
    have hcv := create_valid t.labels cellIds label (ValidStore_labels t iht) hl
    exact ValidStore_mapScalars s _ ihs (fun l => execute_length _ l)
      (fun l hall => execute_allValid _ l hall hcv.1)
  | undoCommand s t cellIds label _ _ hl _ ihs iht =>
    have hcv := create_valid t.labels cellIds label (ValidStore_labels t iht) hl
    exact ValidStore_mapScalars s _ ihs (fun l => undo_length _ l)
      (fun l hall => undo_allValid _ l hall hcv.2)
  | addCommand s t cellIds label _ _ hl _ ihs iht =>
    have hcv := create_valid t.labels cellIds label (ValidStore_labels t iht) hl
    have hm := ValidStore_mapScalars s (PaintCommand.create t.labels cellIds label).execute ihs
      (fun l => execute_length _ l) (fun l hall => execute_allValid _ l hall hcv.1)
    apply ValidStore_of_polyData_eq _ _ hm (addCommand_polyData s _)
    rw [addCommand_redoStack, addCommand_undoStack, List.append_nil]
    intro c hc
    have hold := ihs.2
    split at hc
    · rcases List.mem_cons.mp hc with h | h
      · rw [h]
        exact hcv
      · exact hold c (List.mem_append_left _ (List.mem_of_mem_dropLast h))
    · rcases List.mem_cons.mp hc with h | h
      · rw [h]
        exact hcv
      · exact hold c (List.mem_append_left _ h)
  | undo s _ ih =>
    cases hu : s.m_undoStack with
    | nil => rw [undo_nil s hu]; exact ih
    | cons c u =>
      have hold := ih.2
      have hc : ValidLabel c.m_newLabel ∧ ∀ x ∈ c.m_oldLabels, ValidLabel x :=
        hold c (List.mem_append_left _ (by rw [hu]; exact List.mem_cons_self _ _))
      have hm := ValidStore_mapScalars s c.undo ih (fun l => undo_length _ l)
        (fun l hall => undo_allValid _ l hall hc.2)
      apply ValidStore_of_polyData_eq _ _ hm (undo_cons_polyData s c u hu)
      rw [undo_cons_undoStack s c u hu, undo_cons_redoStack s c u hu]
      intro d hd
      rcases List.mem_append.mp hd with h | h
      · exact hold d (List.mem_append_left _ (by rw [hu]; exact List.mem_cons_of_mem _ h))
      · rcases List.mem_cons.mp h with h | h
        · rw [h]
          exact hc
        · exact hold d (List.mem_append_right _ h)
  | redo s _ ih =>
    cases hr : s.m_redoStack with
    | nil => rw [redo_nil s hr]; exact ih
    | cons c r =>
      have hold := ih.2
      have hc : ValidLabel c.m_newLabel ∧ ∀ x ∈ c.m_oldLabels, ValidLabel x :=
        hold c (List.mem_append_right _ (by rw [hr]; exact List.mem_cons_self _ _))
      have hm := ValidStore_mapScalars s c.execute ih (fun l => execute_length _ l)
        (fun l hall => execute_allValid _ l hall hc.1)
      apply ValidStore_of_polyData_eq _ _ hm (redo_cons_polyData s c r hr)
      rw [redo_cons_undoStack s c r hr, redo_cons_redoStack s c r hr]
      intro d hd
      rcases List.mem_append.mp hd with h | h
      · rcases List.mem_cons.mp h with h | h
        · rw [h]
          exact hc
        · exact hold d (List.mem_append_left _ h)
      · exact hold d (List.mem_append_right _ (by rw [hr]; exact List.mem_cons_of_mem _ h))

/-- C14 (amended). In every state reachable from a freshly zero-initialised mesh by label
mutations whose labels lie in `[0, 20)` (`labelCell`, `labelCells`, paint command
`execute` / `undo`, `addCommand`, `undo`, `redo`), `getLabelStatistics` returns 20 counts
whose sum equals the cell count. -/
theorem statistics_sum (s : MeshLabeler) (h : LabelReachable s) :
    s.getLabelStatistics.length = 20 ∧ s.getLabelStatistics.sum = s.getCellCount :=
  statistics_of_validStore s (LabelReachable_validStore s h)

theorem statistics_sum_witness :
    LabelReachable
      ((MeshLabeler.withMesh ⟨[], [[0, 1, 2], [1, 2, 3]], [0, 0]⟩).labelCell 0 3).undo ∧
    ((MeshLabeler.withMesh ⟨[], [[0, 1, 2], [1, 2, 3]],
      [0, 0]⟩).labelCell 0 3).undo.getLabelStatistics.sum = 2 :=
  ⟨LabelReachable.undo _ (LabelReachable.labelCell _ 0 3
      (LabelReachable.fresh (MeshLabeler.withMesh ⟨[], [[0, 1, 2], [1, 2, 3]], [0, 0]⟩)
        ⟨[], [[0, 1, 2], [1, 2, 3]], [0, 0]⟩ rfl rfl rfl rfl) (by decide)),
    (statistics_sum _
      (LabelReachable.undo _ (LabelReachable.labelCell _ 0 3
        (LabelReachable.fresh (MeshLabeler.withMesh ⟨[], [[0, 1, 2], [1, 2, 3]], [0, 0]⟩)
          ⟨[], [[0, 1, 2], [1, 2, 3]], [0, 0]⟩ rfl rfl rfl rfl) (by decide)))).2⟩

/-- C14 as stated fails: on a freshly zero-initialised mesh of one cell, `labelCell` with
the label `25` leaves statistics whose counts sum to `0`, not to the cell count `1`. -/
theorem statistics_sum_below_cell_count :
    ((MeshLabeler.init.loadSTL
      (some ⟨[⟨0, 0, 0⟩, ⟨1, 0, 0⟩, ⟨0, 1, 0⟩], [[0, 1, 2]], none⟩)).1.labelCell 0
        25).getLabelStatistics.sum = 0 ∧
    ((MeshLabeler.init.loadSTL
      (some ⟨[⟨0, 0, 0⟩, ⟨1, 0, 0⟩, ⟨0, 1, 0⟩], [[0, 1, 2]], none⟩)).1.labelCell 0
        25).getCellCount = 1 ∧
    ((MeshLabeler.init.loadSTL
      (some ⟨[⟨0, 0, 0⟩, ⟨1, 0, 0⟩, ⟨0, 1, 0⟩], [[0, 1, 2]], none⟩)).1.labelCell 0
        25).getLabelStatistics.length = 20 := by
  decide

/-! ## Region selector: completeness of the expansion -/

/-- The neighbour loop keeps the visited cells and visits every scanned cell. -/
theorem visitNeighbors_visits (cellIds visited queue : List Int) :
    (∀ x ∈ visited, x ∈ (visitNeighbors cellIds visited queue).1) ∧
    ∀ x ∈ cellIds, x ∈ (visitNeighbors cellIds visited queue).1 := by
  induction cellIds generalizing visited queue with
  | nil => exact ⟨fun x hx => hx, fun x hx => by simp at hx⟩
  | cons nb rest ih =>
    by_cases h : nb ∈ visited
    · rw [visitNeighbors, if_pos h]
      obtain ⟨h1, h2⟩ := ih visited queue
      refine ⟨h1, ?_⟩
      intro x hx
      rcases List.mem_cons.mp hx with rfl | hx
      · exact h1 _ h
      · exact h2 x hx
    · rw [visitNeighbors, if_neg h]
      obtain ⟨h1, h2⟩ := ih (nb :: visited) (queue ++ [nb])
      refine ⟨fun x hx => h1 x (List.mem_cons_of_mem _ hx), ?_⟩
      intro x hx
      rcases List.mem_cons.mp hx with rfl | hx
      · exact h1 _ (List.mem_cons_self _ _)
      · exact h2 x hx

/-- The vertex loop keeps the visited cells and visits every cell incident to a scanned
vertex. -/
theorem expandCell_visits (pd : PolyData) (pointIds : List Nat) (visited queue : List Int) :
    (∀ x ∈ visited, x ∈ (expandCell pd pointIds visited queue).1) ∧
    ∀ p ∈ pointIds, ∀ x ∈ pd.GetPointCells p, x ∈ (expandCell pd pointIds visited queue).1 := by
  induction pointIds generalizing visited queue with
  | nil => exact ⟨fun x hx => hx, fun p hp => by simp at hp⟩
  | cons p rest ih =>
    rw [expandCell]
    obtain ⟨v1, v2⟩ := visitNeighbors_visits (pd.GetPointCells p) visited queue
    obtain ⟨h1, h2⟩ := ih (visitNeighbors (pd.GetPointCells p) visited queue).1
      (visitNeighbors (pd.GetPointCells p) visited queue).2
    refine ⟨fun x hx => h1 x (v1 x hx), ?_⟩
    intro q hq x hx
    rcases List.mem_cons.mp hq with rfl | hq
    · exact h1 x (v2 x hx)
    · exact h2 q hq x hx

/-- A cell of the mesh is listed under each of its vertices. -/
theorem mem_GetPointCells_of (pd : PolyData) (pointId k : Nat) (hk : k < pd.cells.length)
    (hp : pointId ∈ pd.cellPointIds (k : Int)) : (k : Int) ∈ pd.GetPointCells pointId := by
  unfold PolyData.GetPointCells
  rw [List.mem_map]
  refine ⟨k, ?_, rfl⟩
  rw [List.mem_filter, List.mem_range]
  refine ⟨hk, ?_⟩
  simpa [PolyData.cellPointIds] using hp

/-- A cell in the sphere is a cell of the mesh. -/
theorem isCellInSphere_range (s : MeshLabeler) (pd : PolyData) (position : Point)
    (cellId : Int) (hpd : s.m_polyData = some pd)
    (h : s.isCellInSphere position cellId = true) :
    0 ≤ cellId ∧ cellId < pd.cells.length := by
  unfold MeshLabeler.isCellInSphere at h
  rw [hpd] at h
  simp only at h
  split at h
  · simp at h
  · rename_i hg
    unfold PolyData.GetNumberOfCells at hg
    omega

/-- Invariant rule for the loop in which dropping the front of the queue may use that the
front cell failed one of the two tests. -/
theorem bfsLoop_invariant_strong (s : MeshLabeler) (pd : PolyData) (position : Point)
    (I : List Int → List Int → List Int → Prop)
    (hskip : ∀ c q v a, I (c :: q) v a →
      (s.isCellInSphere position c = false ∨ GetTuple1 pd.scalars c = s.m_currentLabel) →
      I q v a)
    (hexp : ∀ c q v a, I (c :: q) v a → s.isCellInSphere position c = true →
      GetTuple1 pd.scalars c ≠ s.m_currentLabel →
      I (expandCell pd (pd.cellPointIds c) v q).2 (expandCell pd (pd.cellPointIds c) v q).1
        (a ++ [c])) :
    ∀ (fuel : Nat) (q v a res : List Int), I q v a →
      bfsLoop s pd position fuel q v a = some res → ∃ v', I [] v' res := by
  intro fuel
  induction fuel with
  | zero =>
    intro q v a res hI h
    cases q with
    | nil =>
      simp only [bfsLoop, Option.some.injEq] at h
      exact ⟨v, h ▸ hI⟩
    | cons c q => simp [bfsLoop] at h
  | succ fuel ih =>
    intro q v a res hI h
    cases q with
    | nil =>
      simp only [bfsLoop, Option.some.injEq] at h
      exact ⟨v, h ▸ hI⟩
    | cons c q =>
      rw [bfsLoop] at h
      by_cases h1 : s.isCellInSphere position c = true
      · by_cases h2 : GetTuple1 pd.scalars c = s.m_currentLabel
        · simp only [h1, h2, Bool.not_true, Bool.false_eq_true, if_false, if_true] at h
          exact ih _ _ _ _ (hskip c q v a hI (Or.inr h2)) h
        · simp only [h1, h2, Bool.not_true, Bool.false_eq_true, if_false] at h
          exact ih _ _ _ _ (hexp c q v a hI h1 h2) h
      · have h1' : s.isCellInSphere position c = false := by simpa using h1
        simp only [h1', Bool.not_false, if_true] at h
        exact ih _ _ _ _ (hskip c q v a hI (Or.inl h1')) h

/-- Completeness of the returned list: a qualifying start cell is returned, and every
qualifying cell that shares a vertex with a returned cell is returned. -/
theorem labelWithBFS_closed (s : MeshLabeler) (position : Point) (startCellId : Int)
    (res : List Int) (h : s.labelWithBFS position startCellId = some res) :
    (s.Qualifies position startCellId → startCellId ∈ res) ∧
    ∀ a ∈ res, ∀ x, s.SharesVertex a x → s.Qualifies position x → x ∈ res := by
  unfold MeshLabeler.labelWithBFS at h
  cases hpd : s.m_polyData with
  | none =>
    rw [hpd] at h
    simp only [Option.some.injEq] at h
    subst h
    refine ⟨?_, fun a ha => by simp at ha⟩
    intro hq
    have := hq.1
    simp [MeshLabeler.isCellInSphere, hpd] at this
  | some pd =>
    rw [hpd] at h
    simp only at h
    split at h
    · rename_i hg
      simp only [Option.some.injEq] at h
      subst h
      refine ⟨?_, fun a ha => by simp at ha⟩
      intro hq
      have := isCellInSphere_range s pd position startCellId hpd hq.1
      unfold PolyData.GetNumberOfCells at hg
      omega
    · obtain ⟨v', hI⟩ := bfsLoop_invariant_strong s pd position
        (fun q v a => startCellId ∈ v ∧
          (∀ x ∈ v, x ∈ q ∨ x ∈ a ∨ ¬ s.Qualifies position x) ∧
          ∀ y ∈ a, ∀ p ∈ pd.cellPointIds y, ∀ x ∈ pd.GetPointCells p, x ∈ v)
        (fun c q v a hI hfail => by
          obtain ⟨h1, h2, h3⟩ := hI
          refine ⟨h1, ?_, h3⟩
          intro x hx
          rcases h2 x hx with hq | ha | hn
          · rcases List.mem_cons.mp hq with rfl | hq
            · right
              right
              intro hqual
              rcases hfail with hf | hf
              · have hq1 := hqual.1
                rw [hf] at hq1
                exact Bool.false_ne_true hq1
              · exact hqual.2 (by rw [labels_of_polyData s pd hpd]; exact hf)
            · exact Or.inl hq
          · exact Or.inr (Or.inl ha)
          · exact Or.inr (Or.inr hn))
        (fun c q v a hI _ _ => by
          obtain ⟨h1, h2, h3⟩ := hI
          obtain ⟨added, e1, e2, _, _⟩ := expandCell_spec pd (pd.cellPointIds c) v q
          obtain ⟨m1, m2⟩ := expandCell_visits pd (pd.cellPointIds c) v q
          refine ⟨m1 _ h1, ?_, ?_⟩
          · intro x hx
            rw [e2] at hx
            rw [e1]
            rcases List.mem_append.mp hx with hx | hx
            · exact Or.inl (List.mem_append_right _ (List.mem_reverse.mp hx))
            · rcases h2 x hx with hq | ha | hn
              · rcases List.mem_cons.mp hq with rfl | hq
                · exact Or.inr (Or.inl (by simp))
                · exact Or.inl (List.mem_append_left _ hq)
              · exact Or.inr (Or.inl (List.mem_append_left _ ha))
              · exact Or.inr (Or.inr hn)
          · intro y hy p hp x hx
            rcases List.mem_append.mp hy with hy | hy
            · exact m1 _ (h3 y hy p hp x hx)
            · rw [List.mem_singleton] at hy
              subst hy
              exact m2 p hp x hx)
        _ _ _ _ res (by simp) h
      obtain ⟨h1, h2, h3⟩ := hI
      have hfin : ∀ x ∈ v', s.Qualifies position x → x ∈ res := by
        intro x hx hq
        rcases h2 x hx with h | h | h
        · simp at h
        · exact h
        · exact absurd hq h
      refine ⟨hfin _ h1, ?_⟩
      intro a ha x hshare hq
      obtain ⟨p, hpa, hpx⟩ := hshare
      unfold MeshLabeler.cellPointIds at hpa hpx
      rw [hpd] at hpa hpx
      simp only at hpa hpx
      obtain ⟨hx0, hx1⟩ := isCellInSphere_range s pd position x hpd hq.1
      have hxk : ((x.toNat : Nat) : Int) = x := by omega
      have hmem := mem_GetPointCells_of pd p x.toNat (by omega) (by rw [hxk]; exact hpx)
      rw [hxk] at hmem
      exact hfin x (h3 a ha p hpa x hmem) hq

/-! ## The four-cell strip scenario -/

/-- Undoing right after pushing a command constructed on the current array restores the
array. -/
theorem addCommand_create_undo (s : MeshLabeler) (cellIds : List Int) (label : Int) :
    (s.addCommand (PaintCommand.create s.labels cellIds label)).undo.labels = s.labels := by
  have hstack : ∃ u, (s.addCommand (PaintCommand.create s.labels cellIds label)).m_undoStack
      = PaintCommand.create s.labels cellIds label :: u := by
    rw [addCommand_undoStack]
    split
    · exact ⟨_, rfl⟩
    · exact ⟨_, rfl⟩
  obtain ⟨u, hu⟩ := hstack
  rw [undo_cons_labels _ _ u hu, addCommand_labels, undo_execute_create]

/-- On the strip the region selector returns the cells in the order `1, 0, 2`. -/
theorem strip_scenario_result :
    centroid (stripMesh.cellPoints 1) = ⟨1, 1, 0⟩ ∧
    stripEngine.labelWithBFS (centroid (stripMesh.cellPoints 1)) 1 = some [1, 0, 2] := by
  decide!

/-! ## Current label -/

theorem requestRender_currentLabel (s : MeshLabeler) :
    s.requestRender.m_currentLabel = s.m_currentLabel := by
  unfold MeshLabeler.requestRender
  split <;> rfl

theorem mapScalars_currentLabel (s : MeshLabeler) (f : List Int → List Int) :
    (s.mapScalars f).m_currentLabel = s.m_currentLabel := by
  unfold MeshLabeler.mapScalars
  cases s.m_polyData <;> rfl

theorem labelCell_currentLabel (s : MeshLabeler) (cellId label : Int) :
    (s.labelCell cellId label).m_currentLabel = s.m_currentLabel := by
  unfold MeshLabeler.labelCell
  cases s.m_polyData with
  | none => rfl
  | some pd =>
    simp only
    split <;> rfl

theorem labelCells_currentLabel (cellIds : List Int) (label : Int) :
    ∀ s : MeshLabeler, (s.labelCells cellIds label).m_currentLabel = s.m_currentLabel := by
  induction cellIds with
  | nil => intro s; rfl
  | cons a rest ih =>
    intro s
    have hstep : s.labelCells (a :: rest) label = (s.labelCell a label).labelCells rest label := rfl
    rw [hstep, ih, labelCell_currentLabel]

theorem undo_currentLabel (s : MeshLabeler) : s.undo.m_currentLabel = s.m_currentLabel := by
  unfold MeshLabeler.undo
  cases s.m_undoStack with
  | nil => rfl
  | cons c u =>
    simp only [requestRender_currentLabel, mapScalars_currentLabel]

theorem redo_currentLabel (s : MeshLabeler) : s.redo.m_currentLabel = s.m_currentLabel := by
  unfold MeshLabeler.redo
  cases s.m_redoStack with
  | nil => rfl
  | cons c r =>
    simp only [requestRender_currentLabel, mapScalars_currentLabel]

theorem addCommand_currentLabel (s : MeshLabeler) (c : PaintCommand) :
    (s.addCommand c).m_currentLabel = s.m_currentLabel := by
  unfold MeshLabeler.addCommand
  simp only [mapScalars_currentLabel]

theorem initializeCellData_currentLabel (s : MeshLabeler) :
    s.initializeCellData.m_currentLabel = s.m_currentLabel := by
  unfold MeshLabeler.initializeCellData
  cases s.m_polyData <;> rfl

theorem loadSTL_currentLabel (s : MeshLabeler) (file : Option ReaderOutput) :
    (s.loadSTL file).1.m_currentLabel = s.m_currentLabel := by
  unfold MeshLabeler.loadSTL
  cases file with
  | none => rfl
  | some out =>
    simp only
    split
    · rfl
    · simp only [requestRender_currentLabel, initializeCellData_currentLabel]
      rfl

theorem loadVTP_currentLabel (s : MeshLabeler) (file : Option ReaderOutput) :
    (s.loadVTP file).1.m_currentLabel = s.m_currentLabel := by
  unfold MeshLabeler.loadVTP
  cases file with
  | none => rfl
  | some out =>
    simp only
    split
    · rfl
    · simp only [requestRender_currentLabel]
      cases out.scalars with
      | none =>
        simp only [initializeCellData_currentLabel]
        rfl
      | some labels => rfl

theorem LeftButtonPressCallback_currentLabel (s : MeshLabeler) (position : Point)
    (cellId : Int) :
    (s.LeftButtonPressCallback position cellId).m_currentLabel = s.m_currentLabel := by
  unfold MeshLabeler.LeftButtonPressCallback
  cases s.m_polyData with
  | none => rfl
  | some pd =>
    simp only
    split
    · rw [requestRender_currentLabel]
      split
      · split
        · split
          · rw [labelCells_currentLabel]
          · rfl
        · rfl
      · rw [labelCell_currentLabel]
    · rfl

theorem MouseMoveCallback_currentLabel (s : MeshLabeler) (position : Point) (cellId : Int) :
    (s.MouseMoveCallback position cellId).m_currentLabel = s.m_currentLabel := by
  unfold MeshLabeler.MouseMoveCallback
  cases s.m_polyData with
  | none => rfl
  | some pd =>
    simp only
    split
    · rfl
    · split
      · split
        · split
          · split
            · rw [requestRender_currentLabel, labelCells_currentLabel,
                requestRender_currentLabel]
            · rw [requestRender_currentLabel]
          · rw [requestRender_currentLabel]
        · rw [requestRender_currentLabel]
      · split
        · rw [requestRender_currentLabel, labelCell_currentLabel]
        · rfl

/-- Effect of `setCurrentLabel` on the current label. -/
theorem setCurrentLabel_getCurrentLabel (s : MeshLabeler) (label : Int) :
    ((label < 0 ∨ MAX_LABELS ≤ label) → s.setCurrentLabel label = s) ∧
    ((0 ≤ label ∧ label < MAX_LABELS) → (s.setCurrentLabel label).getCurrentLabel = label) := by
  unfold MeshLabeler.setCurrentLabel MeshLabeler.getCurrentLabel
  constructor
  · intro h
    rw [if_pos (by omega)]
  · intro h
    rw [if_neg (by omega)]
    split
    · rfl
    · rename_i hne
      simpa using hne

theorem setEditMode_currentLabel (s : MeshLabeler) (mode : EditMode) :
    (s.setEditMode mode).m_currentLabel = s.m_currentLabel := by
  unfold MeshLabeler.setEditMode
  split
  · rw [requestRender_currentLabel]
  · rfl

/-- Every operation of the engine keeps the current label inside `[0, MAX_LABELS)`. -/
theorem EngineReachable_validLabel (s : MeshLabeler) (h : EngineReachable s) :
    ValidLabel s.m_currentLabel := by
  induction h with
  | init => exact ⟨by decide, by decide⟩
  | setCurrentLabel s label _ ih =>
    by_cases hl : label < 0 ∨ MAX_LABELS ≤ label
    · rw [(setCurrentLabel_getCurrentLabel s label).1 hl]
      exact ih
    · have hv : 0 ≤ label ∧ label < MAX_LABELS := by omega
      have := (setCurrentLabel_getCurrentLabel s label).2 hv
      unfold MeshLabeler.getCurrentLabel at this
      rw [this]
      exact hv
  | setEditMode s mode _ ih => rw [setEditMode_currentLabel]; exact ih
  | setMousePressed s pressed _ ih => exact ih
  | setBrushRadius s radius _ ih =>
    unfold MeshLabeler.setBrushRadius
    split <;> exact ih
  | increaseBrushRadius s _ ih => exact ih
  | decreaseBrushRadius s _ ih =>
    unfold MeshLabeler.decreaseBrushRadius
    split <;> exact ih
  | labelCell s cellId label _ ih => rw [labelCell_currentLabel]; exact ih
  | labelCells s cellIds label _ ih => rw [labelCells_currentLabel]; exact ih
  | addCommand s c _ ih => rw [addCommand_currentLabel]; exact ih
  | undo s _ ih => rw [undo_currentLabel]; exact ih
  | redo s _ ih => rw [redo_currentLabel]; exact ih
  | clearHistory s _ ih => exact ih
  | requestRender s _ ih => rw [requestRender_currentLabel]; exact ih
  | render s _ ih => exact ih
  | loadSTL s file _ ih => rw [loadSTL_currentLabel]; exact ih
  | loadVTP s file _ ih => rw [loadVTP_currentLabel]; exact ih
  | leftButtonPress s position cellId _ ih =>
    rw [LeftButtonPressCallback_currentLabel]; exact ih
  | leftButtonRelease s _ ih => exact ih
  | mouseMove s position cellId _ ih => rw [MouseMoveCallback_currentLabel]; exact ih
  | keyPress s key controlKey _ ih =>
    unfold MeshLabeler.KeyPressCallback
    split
    · rw [setEditMode_currentLabel]; exact ih
    · split
      · rw [setEditMode_currentLabel]; exact ih
      · split
        · generalize ((key.toNat : Int) - ('0'.toNat : Int)) = label
          by_cases hl : label < 0 ∨ MAX_LABELS ≤ label
          · rw [(setCurrentLabel_getCurrentLabel s label).1 hl]
            exact ih
          · have hv : 0 ≤ label ∧ label < MAX_LABELS := by omega
            have := (setCurrentLabel_getCurrentLabel s label).2 hv
            unfold MeshLabeler.getCurrentLabel at this
            rw [this]
            exact hv
        · split
          · rw [undo_currentLabel]; exact ih
          · split
            · rw [redo_currentLabel]; exact ih
            · exact ih
  | wheelForward s controlKey cellId _ ih =>
    unfold MeshLabeler.MouseWheelForwardCallback
    cases s.m_polyData with
    | none => exact ih
    | some pd =>
      simp only
      split
      · split
        · rw [requestRender_currentLabel]; exact ih
        · exact ih
      · exact ih
  | wheelBackward s controlKey cellId _ ih =>
    unfold MeshLabeler.MouseWheelBackwardCallback
    cases s.m_polyData with
    | none => exact ih
    | some pd =>
      simp only
      have hdec : s.decreaseBrushRadius.m_currentLabel = s.m_currentLabel := by
        unfold MeshLabeler.decreaseBrushRadius
        split <;> rfl
      split
      · split
        · rw [requestRender_currentLabel, hdec]; exact ih
        · rw [hdec]; exact ih
      · exact ih

/-- C21. The current label is always a valid label: `setCurrentLabel` with a label outside
`[0, 20)` leaves the state as it is, `setCurrentLabel` with a label in `[0, 20)` makes
`getCurrentLabel` return it, and in every state reachable from construction (default `0`)
by the operations of the engine `getCurrentLabel` lies in `[0, 20)`. -/
theorem currentLabel_valid (s : MeshLabeler) (h : EngineReachable s) (label : Int) :
    ((label < 0 ∨ 20 ≤ label) → s.setCurrentLabel label = s) ∧
    ((0 ≤ label ∧ label < 20) → (s.setCurrentLabel label).getCurrentLabel = label) ∧
    MeshLabeler.init.getCurrentLabel = 0 ∧
    (0 ≤ s.getCurrentLabel ∧ s.getCurrentLabel < 20) :=
  ⟨(setCurrentLabel_getCurrentLabel s label).1, (setCurrentLabel_getCurrentLabel s label).2,
    rfl, EngineReachable_validLabel s h⟩

theorem currentLabel_valid_witness :
    EngineReachable ((MeshLabeler.init.setCurrentLabel 7).setCurrentLabel 25) ∧
    0 ≤ ((MeshLabeler.init.setCurrentLabel 7).setCurrentLabel 25).getCurrentLabel ∧
    ((MeshLabeler.init.setCurrentLabel 7).setCurrentLabel 25).getCurrentLabel < 20 :=
  ⟨EngineReachable.setCurrentLabel _ 25 (EngineReachable.setCurrentLabel _ 7 EngineReachable.init),
    (currentLabel_valid _
      (EngineReachable.setCurrentLabel _ 25
        (EngineReachable.setCurrentLabel _ 7 EngineReachable.init)) 0).2.2.2⟩

/-! ## Region selector: termination -/

/-- The recording loop computes the same result as the loop itself. -/
theorem bfsLoopTrace_fst (s : MeshLabeler) (pd : PolyData) (position : Point) :
    ∀ (fuel : Nat) (q v a d : List Int),
      (bfsLoopTrace s pd position fuel q v a d).map Prod.fst = bfsLoop s pd position fuel q v a := by
  intro fuel
  induction fuel with
  | zero =>
    intro q v a d
    cases q <;> simp [bfsLoopTrace, bfsLoop]
  | succ fuel ih =>
    intro q v a d
    cases q with
    | nil => simp [bfsLoopTrace, bfsLoop]
    | cons c q =>
      rw [bfsLoopTrace, bfsLoop]
      split
      · exact ih _ _ _ _
      · split
        · exact ih _ _ _ _
        · exact ih _ _ _ _

/-- Invariant rule for the recording loop. -/
theorem bfsLoopTrace_invariant (s : MeshLabeler) (pd : PolyData) (position : Point)
    (I : List Int → List Int → List Int → List Int → Prop)
    (hskip : ∀ c q v a d, I (c :: q) v a d → I q v a (d ++ [c]))
    (hexp : ∀ c q v a d, I (c :: q) v a d →
      I (expandCell pd (pd.cellPointIds c) v q).2 (expandCell pd (pd.cellPointIds c) v q).1
        (a ++ [c]) (d ++ [c])) :
    ∀ (fuel : Nat) (q v a d res dequeued : List Int), I q v a d →
      bfsLoopTrace s pd position fuel q v a d = some (res, dequeued) →
      ∃ v', I [] v' res dequeued := by
  intro fuel
  induction fuel with
  | zero =>
    intro q v a d res dequeued hI h
    cases q with
    | nil =>
      simp only [bfsLoopTrace, Option.some.injEq, Prod.mk.injEq] at h
      exact ⟨v, h.1 ▸ h.2 ▸ hI⟩
    | cons c q => simp [bfsLoopTrace] at h
  | succ fuel ih =>
    intro q v a d res dequeued hI h
    cases q with
    | nil =>
      simp only [bfsLoopTrace, Option.some.injEq, Prod.mk.injEq] at h
      exact ⟨v, h.1 ▸ h.2 ▸ hI⟩
    | cons c q =>
      rw [bfsLoopTrace] at h
      split at h
      · exact ih _ _ _ _ _ _ (hskip c q v a d hI) h
      · split at h
        · exact ih _ _ _ _ _ _ (hskip c q v a d hI) h
        · exact ih _ _ _ _ _ _ (hexp c q v a d hI) h

/-- A duplicate-free list of cell ids of a mesh is no longer than the number of cells. -/
theorem length_le_of_nodup_range (l : List Int) (n : Nat) (hnd : l.Nodup)
    (hr : ∀ x ∈ l, 0 ≤ x ∧ x < n) : l.length ≤ n := by
  have hsub : l.toFinset ⊆ Finset.Ico (0 : Int) n := by
    intro x hx
    rw [List.mem_toFinset] at hx
    rw [Finset.mem_Ico]
    exact hr x hx
  have hcard := Finset.card_le_card hsub
  rw [List.toFinset_card_of_nodup hnd, Int.card_Ico] at hcard
  simpa using hcard

/-- More fuel does not change a result of the loop. -/
theorem bfsLoop_fuel_mono (s : MeshLabeler) (pd : PolyData) (position : Point) :
    ∀ (fuel k : Nat) (q v a res : List Int),
      bfsLoop s pd position fuel q v a = some res →
      bfsLoop s pd position (fuel + k) q v a = some res := by
  intro fuel
  induction fuel with
  | zero =>
    intro k q v a res h
    cases q with
    | nil =>
      cases k <;> simpa [bfsLoop] using h
    | cons c q => simp [bfsLoop] at h
  | succ fuel ih =>
    intro k q v a res h
    cases q with
    | nil => simpa [bfsLoop] using h
    | cons c q =>
      have hk : fuel + 1 + k = (fuel + k) + 1 := by omega
      rw [hk, bfsLoop]
      rw [bfsLoop] at h
      split
      · rename_i h1
        rw [if_pos h1] at h
        exact ih _ _ _ _ _ h
      · rename_i h1
        rw [if_neg h1] at h
        split
        · rename_i h2
          rw [if_pos h2] at h
          exact ih _ _ _ _ _ h
        · rename_i h2
          rw [if_neg h2] at h
          exact ih _ _ _ _ _ h

/-- The dequeued cells are pairwise distinct cells of the mesh, and the returned cells are
among them. -/
theorem labelWithBFSTrace_dequeued (s : MeshLabeler) (pd : PolyData) (position : Point)
    (startCellId : Int) (res dequeued : List Int) (hpd : s.m_polyData = some pd)
    (h : s.labelWithBFSTrace position startCellId = some (res, dequeued)) :
    dequeued.Nodup ∧ (∀ x ∈ dequeued, 0 ≤ x ∧ x < pd.cells.length) ∧
    ∀ x ∈ res, x ∈ dequeued := by
  unfold MeshLabeler.labelWithBFSTrace at h
  rw [hpd] at h
  simp only at h
  split at h
  · simp only [Option.some.injEq, Prod.mk.injEq] at h
    rw [← h.2, ← h.1]
    exact ⟨List.nodup_nil, fun x hx => by simp at hx, fun x hx => by simp at hx⟩
  · rename_i hg
    unfold PolyData.GetNumberOfCells at hg
    obtain ⟨_, hI⟩ := bfsLoopTrace_invariant s pd position
      (fun q v a d => (d ++ q).Nodup ∧ (∀ x ∈ d ++ q, x ∈ v) ∧
        (∀ x ∈ d ++ q, 0 ≤ x ∧ x < pd.cells.length) ∧ ∀ x ∈ a, x ∈ d)
      (fun c q v a d hI => by
        beta_reduce at hI ⊢
        have e : d ++ [c] ++ q = d ++ c :: q := by simp
        rw [e]
        exact ⟨hI.1, hI.2.1, hI.2.2.1, fun x hx => List.mem_append_left _ (hI.2.2.2 x hx)⟩)
      (fun c q v a d hI => by
        beta_reduce at hI ⊢
        obtain ⟨h1, h2, h3, h4⟩ := hI
        obtain ⟨added, e1, e2, e3, e4⟩ := expandCell_spec pd (pd.cellPointIds c) v q
        have e : d ++ [c] ++ (q ++ added) = (d ++ c :: q) ++ added := by simp
        rw [e1, e2, e]
        refine ⟨?_, ?_, ?_, ?_⟩
        · rw [List.nodup_append]
          refine ⟨h1, e3, ?_⟩
          intro x hx1 hx2
          exact (e4 x hx2).1 (h2 x hx1)
        · intro x hx
          rcases List.mem_append.mp hx with hx | hx
          · exact List.mem_append_right _ (h2 x hx)
          · exact List.mem_append_left _ (List.mem_reverse.mpr hx)
        · intro x hx
          rcases List.mem_append.mp hx with hx | hx
          · exact h3 x hx
          · obtain ⟨_, p, _, hxp⟩ := e4 x hx
            obtain ⟨k, hk1, hk2, _⟩ := mem_GetPointCells pd p x hxp
            omega
        · intro x hx
          rcases List.mem_append.mp hx with hx | hx
          · exact List.mem_append_left _ (h4 x hx)
          · exact List.mem_append_right _ hx)
      _ _ _ _ _ res dequeued (by
        refine ⟨by simp, by simp, ?_, by simp⟩
        intro x hx
        simp only [List.nil_append, List.mem_singleton] at hx
        omega) h
    simp only [List.append_nil] at hI
    exact ⟨hI.1, hI.2.2.1, hI.2.2.2⟩

/-- C22. Termination of the region selector: on every mesh and for every brush centre,
radius, target label and start cell the loop finishes and returns; the cells it dequeues
(one per loop iteration) are pairwise distinct cells of the mesh, so every cell is dequeued
and tested at most once and the number of loop iterations is at most the cell count; with
any fuel of at least the cell count the loop returns the same list. -/
theorem labelWithBFS_terminates (s : MeshLabeler) (position : Point) (startCellId : Int) :
    ∃ res dequeued,
      s.labelWithBFS position startCellId = some res ∧
      s.labelWithBFSTrace position startCellId = some (res, dequeued) ∧
      dequeued.Nodup ∧
      (dequeued.length : Int) ≤ s.getCellCount ∧
      (∀ c ∈ res, c ∈ dequeued) ∧
      ∀ pd, s.m_polyData = some pd → 0 ≤ startCellId → startCellId < pd.GetNumberOfCells →
        ∀ fuel, pd.cells.length ≤ fuel →
          bfsLoop s pd position fuel [startCellId] [startCellId] [] = some res := by
  obtain ⟨res, hres⟩ := Option.isSome_iff_exists.mp (labelWithBFS_isSome s position startCellId)
  have htrace : ∃ dequeued, s.labelWithBFSTrace position startCellId = some (res, dequeued) := by
    unfold MeshLabeler.labelWithBFSTrace
    unfold MeshLabeler.labelWithBFS at hres
    cases hpd : s.m_polyData with
    | none =>
      rw [hpd] at hres
      simp only [Option.some.injEq] at hres
      exact ⟨[], by rw [← hres]⟩
    | some pd =>
      rw [hpd] at hres
      simp only at hres ⊢
      split
      · rename_i hg
        rw [if_pos hg] at hres
        simp only [Option.some.injEq] at hres
        exact ⟨[], by rw [← hres]⟩
      · rename_i hg
        rw [if_neg hg] at hres
        have hfst := bfsLoopTrace_fst s pd position pd.cells.length [startCellId]
          [startCellId] [] []
        rw [hres, Option.map_eq_some'] at hfst
        obtain ⟨⟨r, d⟩, hrd, hr⟩ := hfst
        simp only at hr
        subst hr
        exact ⟨d, hrd⟩
  obtain ⟨dequeued, hd⟩ := htrace
  refine ⟨res, dequeued, hres, hd, ?_⟩
  cases hpd : s.m_polyData with
  | none =>
    have hd' := hd
    unfold MeshLabeler.labelWithBFSTrace at hd'
    rw [hpd] at hd'
    simp only [Option.some.injEq, Prod.mk.injEq] at hd'
    rw [← hd'.1, ← hd'.2]
    refine ⟨List.nodup_nil, ?_, fun c hc => by simp at hc, fun pd h => by cases h⟩
    simp [MeshLabeler.getCellCount, hpd]
  | some pd =>
    obtain ⟨hnd, hrange, hsub⟩ := labelWithBFSTrace_dequeued s pd position startCellId res
      dequeued hpd hd
    refine ⟨hnd, ?_, ?_, ?_⟩
    · rw [getCellCount_of_polyData s pd hpd]
      exact_mod_cast length_le_of_nodup_range dequeued pd.cells.length hnd hrange
    · exact hsub
    · intro pd' hpd' h0 h1 fuel hfuel
      simp only [Option.some.injEq] at hpd'
      subst hpd'
      unfold MeshLabeler.labelWithBFS at hres
      rw [hpd] at hres
      simp only at hres
      rw [if_neg (by omega)] at hres
      obtain ⟨k, rfl⟩ : ∃ k, fuel = pd.cells.length + k := ⟨fuel - pd.cells.length, by omega⟩
      exact bfsLoop_fuel_mono s pd position _ k _ _ _ _ hres

/-! ## Region selector: the connected component -/

/-- The adjacency index is consistent with the cells: a cell id is listed under a vertex
exactly when it is a cell of the mesh that has the vertex. -/
theorem GetPointCells_consistent (pd : PolyData) (pointId : Nat) (x : Int) :
    x ∈ pd.GetPointCells pointId ↔
      (0 ≤ x ∧ x < pd.cells.length) ∧ pointId ∈ pd.cellPointIds x := by
  constructor
  · intro h
    obtain ⟨k, hk1, hk2, hp⟩ := mem_GetPointCells pd pointId x h
    exact ⟨by omega, hp⟩
  · rintro ⟨⟨h0, h1⟩, hp⟩
    have hxk : ((x.toNat : Nat) : Int) = x := by omega
    have := mem_GetPointCells_of pd pointId x.toNat (by omega) (by rw [hxk]; exact hp)
    rw [hxk] at this
    exact this

/-- The returned cells are the connected component of the start cell among the cells that
pass the two tests of the loop. -/
theorem labelWithBFS_component_of_qualifies (s : MeshLabeler) (position : Point)
    (startCellId : Int) :
    ∃ res, s.labelWithBFS position startCellId = some res ∧
      (∀ c, s.Qualifies position startCellId →
        Relation.ReflTransGen (fun a b => s.SharesVertex a b ∧ s.Qualifies position b)
          startCellId c → c ∈ res) ∧
      (∀ c, c ∈ res ↔
        s.Qualifies position startCellId ∧
        Relation.ReflTransGen
          (fun a b => s.Qualifies position a ∧ s.Qualifies position b ∧ s.SharesVertex a b)
          startCellId c) := by
  obtain ⟨res, hres⟩ := Option.isSome_iff_exists.mp (labelWithBFS_isSome s position startCellId)
  obtain ⟨hstart, hclosed⟩ := labelWithBFS_closed s position startCellId res hres
  obtain ⟨hhead, hearlier⟩ := labelWithBFS_earlier s position startCellId res hres
  have hqual := labelWithBFS_qualifies s position startCellId res hres
  have hcomplete : ∀ c, s.Qualifies position startCellId →
      Relation.ReflTransGen (fun a b => s.SharesVertex a b ∧ s.Qualifies position b)
        startCellId c → c ∈ res := by
    intro c hq hchain
    induction hchain with
    | refl => exact hstart hq
    | tail _ hstep ih => exact hclosed _ ih _ hstep.1 hstep.2
  refine ⟨res, hres, hcomplete, ?_⟩
  intro c
  constructor
  · intro hc
    have hchain := chain_of_earlier _ _ _ hhead hearlier c hc
    have hs : startCellId ∈ res := by
      rcases hhead with h | h
      · rw [h] at hc
        simp at hc
      · cases res with
        | nil => simp at h
        | cons r t =>
          simp only [List.head?_cons, Option.some.injEq] at h
          rw [h]
          exact List.mem_cons_self _ _
    refine ⟨hqual _ hs, ?_⟩
    exact Relation.ReflTransGen.mono
      (fun a b hab => ⟨hqual a hab.1, hqual b hab.2.1, hab.2.2⟩) hchain
  · rintro ⟨hq, hchain⟩
    exact hcomplete c hq
      (Relation.ReflTransGen.mono (fun a b hab => ⟨hab.2.2, hab.2.1⟩) hchain)

/-! ## Region selector: a second stroke -/

theorem labelCells_engine_fields (cellIds : List Int) (label : Int) :
    ∀ s : MeshLabeler, (s.labelCells cellIds label).m_brushRadius = s.m_brushRadius := by
  induction cellIds with
  | nil => intro s; rfl
  | cons a rest ih =>
    intro s
    have hstep : s.labelCells (a :: rest) label = (s.labelCell a label).labelCells rest label := rfl
    rw [hstep, ih]
    unfold MeshLabeler.labelCell
    cases s.m_polyData with
    | none => rfl
    | some pd =>
      simp only
      split <;> rfl

/-- C24. Brush strokes are idempotent: the region selector only computes a list (it has no
access to change the label store), and for a loaded mesh with one label per cell, after the
cells it returns have been relabelled to the current label with `labelCells`, a second call
with the same centre, radius, label and start cell returns the empty list. -/
theorem labelWithBFS_second_stroke (s : MeshLabeler) (pd : PolyData) (position : Point)
    (startCellId : Int) (res : List Int) (hpd : s.m_polyData = some pd)
    (hlen : pd.scalars.length = pd.cells.length)
    (_hlabel : 0 ≤ s.m_currentLabel ∧ s.m_currentLabel < 20)
    (hres : s.labelWithBFS position startCellId = some res) :
    (s.labelCells res s.m_currentLabel).labelWithBFS position startCellId = some [] ∧
    (s.labelCells res s.m_currentLabel).getCurrentLabel = s.getCurrentLabel ∧
    (s.labelCells res s.m_currentLabel).getBrushRadius = s.getBrushRadius := by
  refine ⟨?_, labelCells_currentLabel res _ s, labelCells_engine_fields res _ s⟩
  obtain ⟨hhead, _⟩ := labelWithBFS_earlier s position startCellId res hres
  rcases hhead with hnil | hhead
  · rw [hnil]
    have : s.labelCells [] s.m_currentLabel = s := rfl
    rw [this, hres, hnil]
  · have hs : startCellId ∈ res := by
      cases res with
      | nil => simp at hhead
      | cons r t =>
        simp only [List.head?_cons, Option.some.injEq] at hhead
        rw [hhead]
        exact List.mem_cons_self _ _
    have hq := labelWithBFS_qualifies s position startCellId res hres _ hs
    obtain ⟨h0, h1⟩ := isCellInSphere_range s pd position startCellId hpd hq.1
    obtain ⟨⟨pd', hpd', hc', _, _⟩, hget⟩ :=
      labelCells_getCellLabel res s.m_currentLabel s pd hpd hlen
    have hlabel := hget startCellId (by rw [getCellCount_of_polyData s pd hpd]; omega)
    rw [if_pos hs] at hlabel
    unfold MeshLabeler.getCellLabel at hlabel
    rw [hpd'] at hlabel
    simp only at hlabel
    rw [if_neg (by unfold PolyData.GetNumberOfCells; rw [hc']; omega)] at hlabel
    unfold MeshLabeler.labelWithBFS
    rw [hpd']
    simp only
    rw [if_neg (by unfold PolyData.GetNumberOfCells; rw [hc']; omega)]
    obtain ⟨n, hn⟩ : ∃ n, pd'.cells.length = n + 1 := ⟨pd'.cells.length - 1, by rw [hc']; omega⟩
    have hnil : ∀ (fuel : Nat) (v a : List Int),
        bfsLoop (s.labelCells res s.m_currentLabel) pd' position fuel [] v a = some a := by
      intro fuel v a
      cases fuel <;> rfl
    rw [hn, bfsLoop]
    split
    · exact hnil _ _ _
    · rw [if_pos (by rw [hlabel, labelCells_currentLabel])]
      exact hnil _ _ _

theorem labelWithBFS_second_stroke_witness :
    (stripEngine.labelCells [1, 0, 2] stripEngine.m_currentLabel).labelWithBFS
      (centroid (stripMesh.cellPoints 1)) 1 = some [] :=
  (labelWithBFS_second_stroke stripEngine stripMesh (centroid (stripMesh.cellPoints 1)) 1
    [1, 0, 2] rfl rfl (by decide) (by decide!)).1

/-! ## Region selector: geometry of the returned cells -/

theorem cellPoints_of_polyData (s : MeshLabeler) (pd : PolyData) (cellId : Int)
    (hpd : s.m_polyData = some pd) : s.cellPoints cellId = pd.cellPoints cellId := by
  unfold MeshLabeler.cellPoints
  rw [hpd]

/-- The in-range test of the code is the geometric condition on the cell: a cell of the mesh
with a vertex whose `double` squared distance to the position is less than the `double`
square of the brush radius. -/
theorem isCellInSphere_iff (s : MeshLabeler) (position : Point) (cellId : Int) :
    s.isCellInSphere position cellId = true ↔
      (0 ≤ cellId ∧ cellId < s.getCellCount) ∧
      ∃ pt ∈ s.cellPoints cellId,
        Distance2BetweenPoints position pt < doubleMul s.m_brushRadius s.m_brushRadius := by
  constructor
  · intro h
    refine ⟨?_, isCellInSphere_vertex s position cellId h⟩
    cases hpd : s.m_polyData with
    | none => simp [MeshLabeler.isCellInSphere, hpd] at h
    | some pd =>
      rw [getCellCount_of_polyData s pd hpd]
      exact isCellInSphere_range s pd position cellId hpd h
  · rintro ⟨⟨h0, h1⟩, pt, hpt, hd⟩
    cases hpd : s.m_polyData with
    | none =>
      unfold MeshLabeler.getCellCount at h1
      rw [hpd] at h1
      simp only at h1
      omega
    | some pd =>
      rw [getCellCount_of_polyData s pd hpd] at h1
      rw [cellPoints_of_polyData s pd cellId hpd] at hpt
      unfold MeshLabeler.isCellInSphere
      rw [hpd]
      simp only
      rw [if_neg (by unfold PolyData.GetNumberOfCells; omega), List.any_eq_true]
      exact ⟨pt, hpt, by simpa using hd⟩

/-- The two tests of the loop are the qualifying condition stated on the geometry. -/
theorem qualifies_iff_qualifyingCell (s : MeshLabeler) (position : Point) (cellId : Int) :
    s.Qualifies position cellId ↔ s.QualifyingCell position cellId := by
  unfold MeshLabeler.Qualifies MeshLabeler.QualifyingCell
  rw [isCellInSphere_iff]
  exact and_assoc

/-- C8 (amended). No false positives for the test as the code computes it: the region
selector returns, and every returned cell is a cell of the mesh with a vertex whose squared
distance to the brush centre, computed in `double` arithmetic (every difference, product and
sum rounded to the nearest `double`), is strictly below the `double` product of the radius
with itself (so not all its vertices are at computed squared distance at least that
product), and carries a label different from the current label. -/
theorem labelWithBFS_no_false_positive (s : MeshLabeler) (position : Point)
    (startCellId : Int) :
    ∃ res, s.labelWithBFS position startCellId = some res ∧
      ∀ cellId ∈ res,
        (0 ≤ cellId ∧ cellId < s.getCellCount) ∧
        (∃ pt ∈ s.cellPoints cellId,
          Distance2BetweenPoints position pt
            < doubleMul s.m_brushRadius s.m_brushRadius) ∧
        ¬ (∀ pt ∈ s.cellPoints cellId,
          doubleMul s.m_brushRadius s.m_brushRadius
            ≤ Distance2BetweenPoints position pt) ∧
        GetTuple1 s.labels cellId ≠ s.m_currentLabel := by
  obtain ⟨res, hres⟩ := Option.isSome_iff_exists.mp (labelWithBFS_isSome s position startCellId)
  refine ⟨res, hres, ?_⟩
  intro cellId hc
  obtain ⟨h1, h2⟩ := labelWithBFS_qualifies s position startCellId res hres cellId hc
  obtain ⟨hrange, pt, hpt, hd⟩ := (isCellInSphere_iff s position cellId).mp h1
  exact ⟨hrange, ⟨pt, hpt, hd⟩, fun hall => absurd hd (not_lt.mpr (hall pt hpt)), h2⟩

theorem labelWithBFS_no_false_positive_witness :
    ∃ res, stripEngine.labelWithBFS (centroid (stripMesh.cellPoints 1)) 1 = some res ∧
      3 ∉ res := by
  obtain ⟨res, hres, hall⟩ :=
    labelWithBFS_no_false_positive stripEngine (centroid (stripMesh.cellPoints 1)) 1
  refine ⟨res, hres, fun h3 => ?_⟩
  exact absurd (hall 3 h3).2.1 (by decide!)

/-- C8 as stated fails in exact arithmetic: with the brush radius `5.000000046566129` and
the brush centre `(3.0000000279396772, 4.000000037252903, 0)`, all of them `double`s, the
region selector returns cell `0` of the triangle, although every vertex of the cell is at
exact squared distance at least the exact squared radius (the vertex at the origin is at
exactly the radius). The `double` squared distance `25.000000465661287` is below the
`double` squared radius `25.00000046566129`. -/
theorem labelWithBFS_returns_cell_on_boundary :
    boundaryEngine.labelWithBFS boundaryCentre 0 = some [0] ∧
    (∀ pt ∈ boundaryEngine.cellPoints 0,
      boundaryEngine.m_brushRadius * boundaryEngine.m_brushRadius
        ≤ exactDistance2 boundaryCentre pt) ∧
    exactDistance2 boundaryCentre ⟨0, 0, 0⟩
      = boundaryEngine.m_brushRadius * boundaryEngine.m_brushRadius ∧
    Distance2BetweenPoints boundaryCentre ⟨0, 0, 0⟩ = 6710886525 / 268435456 ∧
    doubleMul boundaryEngine.m_brushRadius boundaryEngine.m_brushRadius
      = 7036874548838401 / 281474976710656 ∧
    roundToDouble boundaryEngine.m_brushRadius = boundaryEngine.m_brushRadius ∧
    roundToDouble boundaryCentre.x = boundaryCentre.x ∧
    roundToDouble boundaryCentre.y = boundaryCentre.y := by
  decide!

/-- C23 (amended). Completeness of the region selector for the test as the code computes
it: call a cell qualifying when it is a cell of the mesh with a vertex whose `double`
squared distance to the brush centre is strictly below the `double` square of the radius
and its label differs from the current label. The region selector returns; every cell
reached from a qualifying start cell by a chain of vertex-adjacent qualifying cells is in
the returned list; and the returned cells are exactly the cells joined to the start cell by
such a chain, that is the connected component of the start cell among the qualifying cells
(empty when the start cell does not qualify). The adjacency index of the model is
consistent with the cells by construction. -/
theorem labelWithBFS_component (s : MeshLabeler) (position : Point) (startCellId : Int) :
    ∃ res, s.labelWithBFS position startCellId = some res ∧
      (∀ c, s.QualifyingCell position startCellId →
        Relation.ReflTransGen
          (fun a b => s.SharesVertex a b ∧ s.QualifyingCell position b)
          startCellId c → c ∈ res) ∧
      (∀ c, c ∈ res ↔
        s.QualifyingCell position startCellId ∧
        Relation.ReflTransGen
          (fun a b => s.QualifyingCell position a ∧ s.QualifyingCell position b ∧
            s.SharesVertex a b)
          startCellId c) := by
  obtain ⟨res, hres, hcomplete, hiff⟩ :=
    labelWithBFS_component_of_qualifies s position startCellId
  refine ⟨res, hres, ?_, ?_⟩
  · intro c hq hchain
    refine hcomplete c ((qualifies_iff_qualifyingCell s position startCellId).mpr hq) ?_
    exact Relation.ReflTransGen.mono
      (fun a b hab => ⟨hab.1, (qualifies_iff_qualifyingCell s position b).mpr hab.2⟩) hchain
  · intro c
    rw [hiff c, qualifies_iff_qualifyingCell]
    constructor
    · rintro ⟨hq, hchain⟩
      refine ⟨hq, ?_⟩
      exact Relation.ReflTransGen.mono
        (fun a b hab => ⟨(qualifies_iff_qualifyingCell s position a).mp hab.1,
          (qualifies_iff_qualifyingCell s position b).mp hab.2.1, hab.2.2⟩) hchain
    · rintro ⟨hq, hchain⟩
      refine ⟨hq, ?_⟩
      exact Relation.ReflTransGen.mono
        (fun a b hab => ⟨(qualifies_iff_qualifyingCell s position a).mpr hab.1,
          (qualifies_iff_qualifyingCell s position b).mpr hab.2.1, hab.2.2⟩) hchain

/-- On the strip with the brush centre at the centroid of cell `1`: cells `1`, `0` and `2`
qualify and are joined to cell `1` by shared vertices, so they are returned. -/
theorem labelWithBFS_component_witness :
    ∃ res, stripEngine.labelWithBFS (centroid (stripMesh.cellPoints 1)) 1 = some res ∧
      1 ∈ res ∧ 0 ∈ res ∧ 2 ∈ res := by
  obtain ⟨res, hres, hcomplete, _⟩ :=
    labelWithBFS_component stripEngine (centroid (stripMesh.cellPoints 1)) 1
  have hq : ∀ c : Int, c = 0 ∨ c = 1 ∨ c = 2 →
      stripEngine.QualifyingCell (centroid (stripMesh.cellPoints 1)) c := by
    intro c hc
    rcases hc with h | h | h <;> subst h <;> unfold MeshLabeler.QualifyingCell <;> decide!
  refine ⟨res, hres, ?_, ?_, ?_⟩
  · exact hcomplete 1 (hq 1 (by decide)) Relation.ReflTransGen.refl
  · exact hcomplete 0 (hq 1 (by decide))
      (Relation.ReflTransGen.single ⟨⟨2, by decide, by decide⟩, hq 0 (by decide)⟩)
  · exact hcomplete 2 (hq 1 (by decide))
      (Relation.ReflTransGen.single ⟨⟨4, by decide, by decide⟩, hq 2 (by decide)⟩)

/-- C23 as stated fails in exact arithmetic: with the brush radius `4.123105625617661`
(a `double` whose exact square is larger than `17` and whose `double` square is `17`) and
the brush centre `(1, 4, 0)`, the start cell `0` of the triangle is a valid cell with a
vertex at squared distance `17`, strictly within the radius, and with a label different
from the current label, yet the region selector returns the empty list. -/
theorem labelWithBFS_drops_cell_inside_brush :
    squareRootEngine.labelWithBFS squareRootCentre 0 = some [] ∧
    squareRootEngine.ExactQualifyingCell squareRootCentre 0 ∧
    exactDistance2 squareRootCentre ⟨0, 0, 0⟩ = 17 ∧
    17 < squareRootEngine.m_brushRadius * squareRootEngine.m_brushRadius ∧
    Distance2BetweenPoints squareRootCentre ⟨0, 0, 0⟩ = 17 ∧
    doubleMul squareRootEngine.m_brushRadius squareRootEngine.m_brushRadius = 17 ∧
    roundToDouble squareRootEngine.m_brushRadius = squareRootEngine.m_brushRadius := by
  unfold MeshLabeler.ExactQualifyingCell
  decide!

end MeshLabeling
